import Mathlib

/-!
# Constant coalescing for SAVE-LISP-AND-DIE (`src/runtime/coalesce.c`)

A shallow embedding of the coalescing pass of the SBCL runtime.

* The heap is a map from byte addresses to machine words.  Words and addresses
  are natural numbers; the signed readings the C code makes of them
  (`sword_t`, `int`) are made explicit with `sword` and `to_int`.
* Everything `coalesce.c` takes from the generated headers (`genesis/*.h`) and
  from the rest of the runtime (tag constants, space bounds, the size table,
  the specialized-vector test, the page table of the collector) is a field of
  `Platform`: the theorems hold for every platform, under the stated
  assumptions on the constants.
* `lose` ends the process; `coalesce_obj` is recursive and its model takes a
  fuel argument.  A call therefore has three outcomes: `Res.done`, `Res.lost`
  and `Res.out_of_fuel`.
-/

namespace Coalesce

/-! ## Data model -/

/-- The heap: the word stored at each byte address. -/
abbrev Heap := Nat → Nat

/-- Store of one word: `*a = v`. -/
def write (h : Heap) (a v : Nat) : Heap := fun x => if x = a then v else h x

/-- The two collectors `gcable_pointer_p` is compiled for, each with the state
of the collector it reads. -/
inductive GcFlavor where
  | cheneygc (current_dynamic_space dynamic_space_free_pointer : Nat)
  | gencgc (find_page_index : Nat → Int) (immobile_space_p : Nat → Bool)

/-- What `coalesce.c` takes from the generated headers and from the rest of
the runtime. -/
structure Platform where
  /-- Width of `lispobj`, `uword_t` and `sword_t`. -/
  N_WORD_BITS : Nat
  /-- Bytes of a word: the step of pointer arithmetic on `lispobj*`. -/
  N_WORD_BYTES : Nat
  N_LOWTAG_BITS : Nat
  N_WIDETAG_BITS : Nat
  N_FIXNUM_TAG_BITS : Nat
  OTHER_POINTER_LOWTAG : Nat
  LIST_POINTER_LOWTAG : Nat
  INSTANCE_POINTER_LOWTAG : Nat
  NIL : Nat
  BIGNUM_WIDETAG : Nat
  RATIO_WIDETAG : Nat
  COMPLEX_WIDETAG : Nat
  SINGLE_FLOAT_WIDETAG : Nat
  DOUBLE_FLOAT_WIDETAG : Nat
  COMPLEX_SINGLE_FLOAT_WIDETAG : Nat
  COMPLEX_DOUBLE_FLOAT_WIDETAG : Nat
  SYMBOL_WIDETAG : Nat
  SIMPLE_BASE_STRING_WIDETAG : Nat
  /-- Defined only in builds with wide characters (`#ifdef`). -/
  SIMPLE_CHARACTER_STRING_WIDETAG : Option Nat
  SIMPLE_VECTOR_WIDETAG : Nat
  VECTOR_SHAREABLE : Nat
  VECTOR_SHAREABLE_NONSTD : Nat
  READ_ONLY_SPACE_START : Nat
  READ_ONLY_SPACE_END : Nat
  /-- Set in builds with `LISP_FEATURE_64_BIT`. -/
  feature_64_bit : Bool
  /-- The collector: `LISP_FEATURE_CHENEYGC` or `LISP_FEATURE_GENCGC`. -/
  gc : GcFlavor
  /-- The test `specialized_vector_widetag_p` of the runtime headers. -/
  specialized_vector_widetag_p : Nat → Bool
  /-- The size table: `sizetab[widetag](where)`, the size in words of the
  object at `where`.  The size functions read the header word and, for
  vectors and code, the word after it: these two words are the arguments. -/
  sizetab : Nat → Nat → Nat → Nat
  INSTANCE_WIDETAG : Nat
  FUNCALLABLE_INSTANCE_WIDETAG : Nat
  CODE_HEADER_WIDETAG : Nat
  /-- Set in builds with `LISP_FEATURE_COMPACT_INSTANCE_HEADER`. -/
  feature_compact_instance_header : Bool
  /-- The test `is_cons_half` on the first word of an object. -/
  is_cons_half : Nat → Bool
  /-- The accessor `instance_layout(where)`, which reads the heap. -/
  instance_layout : Heap → Nat → Nat
  /-- The field `LAYOUT(layout)->bitmap`, which reads the heap. -/
  layout_bitmap : Heap → Nat → Nat
  /-- The test `layout_bitmap_logbitp(index, bitmap)`; a bitmap that is a bignum
  is read from the heap. -/
  layout_bitmap_logbitp : Heap → Nat → Nat → Bool
  /-- The number of simple functions `for_each_simple_fun` iterates over in
  the code object at the address given. -/
  code_n_funs : Heap → Nat → Nat
  /-- The simple function of the index given in a code object, as
  `for_each_simple_fun` finds it from the offsets stored in the object. -/
  code_simple_fun : Heap → Nat → Nat → Nat
  /-- The macro `SIMPLE_FUN_SCAV_START(fun)`: address of the first slot to scavenge. -/
  SIMPLE_FUN_SCAV_START : Nat → Nat
  /-- The macro `SIMPLE_FUN_SCAV_NWORDS(fun)`: number of slots to scavenge. -/
  SIMPLE_FUN_SCAV_NWORDS : Nat → Nat
  /-- The function `code_header_words(header)`: boxed words of a code object. -/
  code_header_words : Nat → Nat
  /-- The test `unboxed_obj_widetag_p(widetag)`. -/
  unboxed_obj_widetag_p : Nat → Bool

/-! ## Machine integers and tagged words -/

/-- The value of a word read as `sword_t` (two's complement). -/
def sword (p : Platform) (x : Nat) : Int :=
  if x % 2 ^ p.N_WORD_BITS < 2 ^ (p.N_WORD_BITS - 1) then ((x % 2 ^ p.N_WORD_BITS : Nat) : Int)
  else ((x % 2 ^ p.N_WORD_BITS : Nat) : Int) - 2 ^ p.N_WORD_BITS

/-- Conversion to the 32-bit C type `int` (wrapping, as the compilers of the
runtime do). -/
def to_int (v : Int) : Int := (v + 2 ^ 31) % 2 ^ 32 - 2 ^ 31

/-- The header macro `lowtag_of(obj)`: `obj & LOWTAG_MASK`. -/
def lowtag_of (p : Platform) (obj : Nat) : Nat := obj % 2 ^ p.N_LOWTAG_BITS

/-- The header macro `widetag_of(obj)`: `obj & WIDETAG_MASK`. -/
def widetag_of (p : Platform) (obj : Nat) : Nat := obj % 2 ^ p.N_WIDETAG_BITS

/-- The header function `native_pointer(obj)`: `obj & ~LOWTAG_MASK`. -/
def native_pointer (p : Platform) (obj : Nat) : Nat := obj - obj % 2 ^ p.N_LOWTAG_BITS

/-- The header function `make_lispobj(ptr, lowtag)`: `ptr | lowtag`. -/
def make_lispobj (ptr lowtag : Nat) : Nat := ptr ||| lowtag

/-- The header macro `fixnump(obj)`: `(obj & FIXNUM_TAG_MASK) == 0`. -/
def fixnump (p : Platform) (obj : Nat) : Bool := obj % 2 ^ p.N_FIXNUM_TAG_BITS == 0

/-- The header function `fixnum_value(n)`: `(sword_t)n >> N_FIXNUM_TAG_BITS`. -/
def fixnum_value (p : Platform) (n : Nat) : Int := sword p n >>> p.N_FIXNUM_TAG_BITS

/-- Address of `where + i` for `lispobj *where`. -/
def word_at (p : Platform) (where_ i : Nat) : Nat := where_ + i * p.N_WORD_BYTES

/-! ## The canonicalization table -/

/-- The table of `hopscotch.h` used as a set: its keys, in the order
they were inserted. -/
structure hopscotch_table where
  keys : List Nat

/-- The size in words of the object at `a`, from the size table. -/
def obj_size (p : Platform) (h : Heap) (a : Nat) : Nat :=
  p.sizetab (widetag_of p (h a)) (h a) (h (word_at p a 1))

/-- Modelled from the spec: the key comparison of the canonicalization table.
The table is created with `HOPSCOTCH_VECTOR_HASH`; its implementation is
not part of `coalesce.c`.  Keys are object addresses, and two keys match when
they are the same address or address content-equal objects: same type tag,
same size, and the same words after the header. -/
def vector_eql (p : Platform) (h : Heap) (a b : Nat) : Bool :=
  a == b ||
    (widetag_of p (h a) == widetag_of p (h b) &&
     obj_size p h a == obj_size p h b &&
     (List.range' 1 (obj_size p h a - 1)).all fun i => h (word_at p a i) == h (word_at p b i))

/-- Linear probe: one more than the index of the first key that `f` accepts,
counting from `i`, or `0`. -/
def probe (f : Nat → Bool) : List Nat → Nat → Nat
  | [], _ => 0
  | k :: ks, i => if f k then i + 1 else probe f ks (i + 1)

/-- Modelled from the spec: `hopscotch_create`, the table is created empty. -/
def hopscotch_create : hopscotch_table := ⟨[]⟩

/-- Modelled from the spec: `hopscotch_get(ht, key, 0)` on a table without
values: one more than the index of the key that matches `key`, or `0` when
no key does (get-or-absent). -/
def hopscotch_get (p : Platform) (h : Heap) (ht : hopscotch_table) (key : Nat) : Nat :=
  probe (fun k => vector_eql p h k key) ht.keys 0

/-- Modelled from the spec: `hopscotch_insert(ht, key, 1)` adds `key`. -/
def hopscotch_insert (ht : hopscotch_table) (key : Nat) : hopscotch_table :=
  ⟨ht.keys ++ [key]⟩

/-- The first of the keys `ks` that matches `obj` in the heap `h`: the key a
lookup of `obj` returns (`0` when there is none). -/
def representative (p : Platform) (h : Heap) (ks : List Nat) (obj : Nat) : Nat :=
  ks.getD (probe (fun k => vector_eql p h k obj) ks 0 - 1) 0

/-! ## The functions of `coalesce.c` -/

/-- Function `gcable_pointer_p`, lines 29-38. -/
def gcable_pointer_p (p : Platform) (pointer : Nat) : Bool :=
  match p.gc with
  | .cheneygc current_dynamic_space dynamic_space_free_pointer =>
      decide (pointer ≥ current_dynamic_space) && decide (pointer < dynamic_space_free_pointer)
  | .gencgc find_page_index immobile_space_p =>
      decide (find_page_index pointer ≥ 0) || immobile_space_p pointer

/-- Function `coalescible_number_p`, lines 40-53. -/
def coalescible_number_p (p : Platform) (h : Heap) (where_ : Nat) : Bool :=
  let widetag := widetag_of p (h where_)
  widetag == p.BIGNUM_WIDETAG
    || ((widetag == p.RATIO_WIDETAG || widetag == p.COMPLEX_WIDETAG)
        && fixnump p (h (word_at p where_ 1)) && fixnump p (h (word_at p where_ 2)))
    || (!p.feature_64_bit && widetag == p.SINGLE_FLOAT_WIDETAG)
    || widetag == p.DOUBLE_FLOAT_WIDETAG
    || widetag == p.COMPLEX_SINGLE_FLOAT_WIDETAG
    || widetag == p.COMPLEX_DOUBLE_FLOAT_WIDETAG

/-- Function `eql_comparable_p`, lines 58-69. -/
def eql_comparable_p (p : Platform) (h : Heap) (obj : Nat) : Bool :=
  if fixnump p obj || obj == p.NIL then true
  else if lowtag_of p obj != p.OTHER_POINTER_LOWTAG then false
  else
    let widetag := widetag_of p (h (native_pointer p obj))
    widetag == p.BIGNUM_WIDETAG
      || widetag == p.SYMBOL_WIDETAG
      || (match p.SIMPLE_CHARACTER_STRING_WIDETAG with
          | some w => widetag == w
          | none => false)
      || widetag == p.SIMPLE_BASE_STRING_WIDETAG

/-- The loop of `vector_isevery`, lines 74-75, with `k = i + 1` indices
`k-1, ..., 0` still to test. -/
def vector_isevery_loop (p : Platform) (pred : Nat → Bool) (h : Heap) (v : Nat) : Nat → Bool
  | 0 => true
  | k + 1 => if !pred (h (word_at p v (2 + k))) then false else vector_isevery_loop p pred h v k

/-- Function `vector_isevery`, lines 71-77.  `v->length` is the word after the header
and `v->data[i]` the word `2 + i`; the index `i` is a C `int`, to which
`fixnum_value(v->length)-1`, a `sword_t`, is converted. -/
def vector_isevery (p : Platform) (pred : Nat → Bool) (h : Heap) (v : Nat) : Bool :=
  let i := to_int (fixnum_value p (h (word_at p v 1)) - 1)
  vector_isevery_loop p pred h v (i + 1).toNat

/-- The mask of `coalesce_obj`, lines 89-91, for the aggressiveness level
`gc_coalesce_string_literals`. -/
def shareable_mask (p : Platform) (gc_coalesce_string_literals : Int) : Nat :=
  if gc_coalesce_string_literals > 1
  then (p.VECTOR_SHAREABLE ||| p.VECTOR_SHAREABLE_NONSTD) <<< p.N_WIDETAG_BITS
  else p.VECTOR_SHAREABLE <<< p.N_WIDETAG_BITS

/-- The vector branch of the test of `coalesce_obj`, lines 97-100. -/
def coalesce_obj_vector_test (p : Platform) (level : Int) (h : Heap) (obj : Nat) : Bool :=
  let header := h obj
  let widetag := widetag_of p header
  (header &&& shareable_mask p level != 0)
    && ((widetag == p.SIMPLE_VECTOR_WIDETAG && vector_isevery p (eql_comparable_p p h) h obj)
        || p.specialized_vector_widetag_p widetag)

/-- The test of `coalesce_obj`, lines 97-101. -/
def coalesce_obj_test (p : Platform) (level : Int) (h : Heap) (obj : Nat) : Bool :=
  coalesce_obj_vector_test p level h obj || coalescible_number_p p h obj

/-- Outcome of a call. -/
inductive Res where
  /-- The call returned, leaving this heap and table. -/
  | done (h : Heap) (ht : hopscotch_table)
  /-- The call ended in `lose`: the process is gone. -/
  | lost
  /-- The model ran out of fuel: the recursion is deeper than the fuel. -/
  | out_of_fuel

/-- The keys of the table a call left, if it returned. -/
def Res.table_keys : Res → Option (List Nat)
  | .done _ ht => some ht.keys
  | _ => none

/-- The word at `a` in the heap a call left, if it returned. -/
def Res.word (r : Res) (a : Nat) : Option Nat :=
  match r with
  | .done h _ => some (h a)
  | _ => none

/-- Lookup, insert or rewrite: lines 107-119 of `coalesce_obj`.  The C code
keeps the result of `hopscotch_get` in an `int`; the model keeps the position
as it is, a table of `2^31` keys being out of its scope. -/
def coalesce_obj_intern (p : Platform) (where_ obj : Nat) (h : Heap) (ht : hopscotch_table) :
    Res :=
  let index := hopscotch_get p h ht obj
  if index = 0 then .done h (hopscotch_insert ht obj)
  else
    let ptr := make_lispobj (ht.keys.getD (index - 1) 0) p.OTHER_POINTER_LOWTAG
    if where_ ≥ p.READ_ONLY_SPACE_START ∧ where_ < p.READ_ONLY_SPACE_END ∧
        gcable_pointer_p p ptr = true
    then .lost
    else .done (write h where_ ptr) ht

/-- The element loop of `coalesce_obj`, lines 104-105: `call` on the words
`obj + i` for the indices `i` in turn. -/
def coalesce_obj_elts (p : Platform) (call : Nat → Heap → hopscotch_table → Res) (obj : Nat) :
    List Nat → Heap → hopscotch_table → Res
  | [], h, ht => .done h ht
  | i :: is, h, ht =>
    match call (word_at p obj i) h ht with
    | .done h1 ht1 => coalesce_obj_elts p call obj is h1 ht1
    | r => r

/-- The indices `2, ..., n_elts + 1` of the element loop, `n_elts` read from
the word after the header (lines 103-104).  The bound `n_elts + 2` does not
overflow a `sword_t`: a fixnum has at least one tag bit.  A negative
`n_elts` gives no index. -/
def elt_indices (p : Platform) (h : Heap) (obj : Nat) : List Nat :=
  List.range' 2 (fixnum_value p (h (word_at p obj 1))).toNat

/-- The visit of the elements of a general vector, lines 102-106 of
`coalesce_obj`: `call` on every element slot of `obj` when `obj` is a general
vector, nothing otherwise. -/
def coalesce_obj_children (p : Platform) (call : Nat → Heap → hopscotch_table → Res)
    (obj : Nat) (h : Heap) (ht : hopscotch_table) : Res :=
  if widetag_of p (h obj) = p.SIMPLE_VECTOR_WIDETAG
  then coalesce_obj_elts p call obj (elt_indices p h obj) h ht
  else .done h ht

/-- Function `coalesce_obj`, lines 79-121, for the level `gc_coalesce_string_literals`.
The first argument bounds the depth of the recursion. -/
def coalesce_obj (p : Platform) (level : Int) :
    Nat → Nat → Heap → hopscotch_table → Res
  | 0, _, _, _ => .out_of_fuel
  | fuel + 1, where_, h, ht =>
    let ptr := h where_
    if lowtag_of p ptr ≠ p.OTHER_POINTER_LOWTAG then .done h ht
    else
      let obj := native_pointer p ptr
      if coalesce_obj_test p level h obj then
        match coalesce_obj_children p (coalesce_obj p level fuel) obj h ht with
        | .done h1 ht1 => coalesce_obj_intern p where_ obj h1 ht1
        | r => r
      else .done h ht

/-- Sequencing of two steps: the second runs on the state the first left. -/
def Res.bind (r : Res) (f : Heap → hopscotch_table → Res) : Res :=
  match r with
  | .done h ht => f h ht
  | r => r

/-- The loop over the slots of a record, lines 165-167 of `coalesce_range`:
`call` on the word `where + i` when bit `i - 1` of the layout bitmap is set. -/
def coalesce_range_instance (p : Platform) (call : Nat → Heap → hopscotch_table → Res)
    (where_ bitmap : Nat) : List Nat → Heap → hopscotch_table → Res
  | [], h, ht => .done h ht
  | i :: is, h, ht =>
    (if p.layout_bitmap_logbitp h (i - 1) bitmap then call (word_at p where_ i) h ht
     else .done h ht).bind (coalesce_range_instance p call where_ bitmap is)

/-- The loop over the simple functions of a code object, lines 170-174 of
`coalesce_range`: `call` on the slots to scavenge of each function in turn. -/
def coalesce_range_funs (p : Platform) (call : Nat → Heap → hopscotch_table → Res)
    (where_ : Nat) : List Nat → Heap → hopscotch_table → Res
  | [], h, ht => .done h ht
  | k :: ks, h, ht =>
    (coalesce_obj_elts p call (p.SIMPLE_FUN_SCAV_START (p.code_simple_fun h where_ k))
        (List.range (p.SIMPLE_FUN_SCAV_NWORDS (p.code_simple_fun h where_ k))) h ht).bind
      (coalesce_range_funs p call where_ ks)

/-- The body of the loop of `coalesce_range` for the object at `where`, lines
149-183: the calls of `coalesce_obj` (here `call`) on its slots.  The address
of the next object is `coalesce_range_next`. -/
def coalesce_range_object (p : Platform) (call : Nat → Heap → hopscotch_table → Res)
    (where_ : Nat) (h : Heap) (ht : hopscotch_table) : Res :=
  let header := h where_
  if p.is_cons_half header then
    (call (word_at p where_ 0) h ht).bind (call (word_at p where_ 1))
  else
    let widetag := widetag_of p header
    let nwords := obj_size p h where_
    if widetag = p.INSTANCE_WIDETAG
        ∨ (p.feature_compact_instance_header = true ∧ widetag = p.FUNCALLABLE_INSTANCE_WIDETAG)
    then
      let layout := p.instance_layout h where_
      let bitmap := p.layout_bitmap h layout
      coalesce_range_instance p call where_ bitmap (List.range' 1 (nwords - 1)) h ht
    else if widetag = p.CODE_HEADER_WIDETAG then
      (coalesce_range_funs p call where_ (List.range (p.code_n_funs h where_)) h ht).bind
        (coalesce_obj_elts p call where_ (List.range' 1 (p.code_header_words header - 1)))
    else if p.unboxed_obj_widetag_p widetag then .done h ht
    else coalesce_obj_elts p call where_ (List.range' 1 (nwords - 1)) h ht

/-- The address `next` of the loop of `coalesce_range`, lines 153 and 157,
computed from the heap the loop iteration starts with. -/
def coalesce_range_next (p : Platform) (where_ : Nat) (h : Heap) : Nat :=
  if p.is_cons_half (h where_) then word_at p where_ 2
  else word_at p where_ (obj_size p h where_)

/-- Function `coalesce_range`, lines 142-186.  The first argument bounds the
depth of the recursion of `coalesce_obj`, the second the number of objects
walked. -/
def coalesce_range (p : Platform) (level : Int) (depth : Nat) :
    Nat → Nat → Nat → Heap → hopscotch_table → Res
  | 0, where_, limit, h, ht => if where_ < limit then .out_of_fuel else .done h ht
  | steps + 1, where_, limit, h, ht =>
    if where_ < limit then
      (coalesce_range_object p (coalesce_obj p level depth) where_ h ht).bind
        (coalesce_range p level depth steps (coalesce_range_next p where_ h) limit)
    else .done h ht

/-- A pass: a sequence of calls of `coalesce_obj` and `coalesce_range` that
returned, each on the heap and the table the one before left. -/
inductive Pass (p : Platform) (level : Int) :
    Heap → hopscotch_table → Heap → hopscotch_table → Prop where
  | nil (h : Heap) (ht : hopscotch_table) : Pass p level h ht h ht
  | obj (fuel where_ : Nat) (h : Heap) (ht : hopscotch_table) (h1 : Heap)
      (ht1 : hopscotch_table) (h2 : Heap) (ht2 : hopscotch_table) :
      coalesce_obj p level fuel where_ h ht = .done h1 ht1 →
      Pass p level h1 ht1 h2 ht2 → Pass p level h ht h2 ht2
  | range (depth steps where_ limit : Nat) (h : Heap) (ht : hopscotch_table) (h1 : Heap)
      (ht1 : hopscotch_table) (h2 : Heap) (ht2 : hopscotch_table) :
      coalesce_range p level depth steps where_ limit h ht = .done h1 ht1 →
      Pass p level h1 ht1 h2 ht2 → Pass p level h ht h2 ht2

/-! ## The scenario of two content-equal general vectors -/

/-- Address of the element `i` of the vector at `v`: `&v->data[i]`. -/
def elt_slot (p : Platform) (v i : Nat) : Nat := word_at p v (2 + i)

/-- The element slots of a vector of length `n`. -/
def elt_slots (p : Platform) (v n : Nat) : List Nat := (List.range n).map (elt_slot p v)

/-- The object the element `i` of the vector at `v` references. -/
def elt_target (p : Platform) (h : Heap) (v i : Nat) : Nat :=
  native_pointer p (h (elt_slot p v i))

/-- The words of the object at `a` that the table comparison and the size
table read: the header, the word after it, and the words up to the size of
the object. -/
def object_words (p : Platform) (h : Heap) (a : Nat) : List Nat :=
  (List.range (max 2 (obj_size p h a))).map (word_at p a)

/-- The heap `h'` holds the words of `h` outside the slots `ws`. -/
def agree_off (ws : List Nat) (h h' : Heap) : Prop := ∀ a, a ∉ ws → h' a = h a

/-- An eligible object without element slots (not a general vector, a ratio
or a complex), none of whose words is one of the slots `ws`. -/
def stable_leaf (p : Platform) (level : Int) (h : Heap) (ws : List Nat) (x : Nat) : Prop :=
  coalesce_obj_test p level h x = true
  ∧ widetag_of p (h x) ≠ p.SIMPLE_VECTOR_WIDETAG
  ∧ widetag_of p (h x) ≠ p.RATIO_WIDETAG
  ∧ widetag_of p (h x) ≠ p.COMPLEX_WIDETAG
  ∧ ∀ w ∈ object_words p h x, w ∉ ws

/-- A key whose comparison with `x` is not changed by stores to the slots
`ws`. -/
def stable_key (p : Platform) (h : Heap) (ws : List Nat) (k x : Nat) : Prop :=
  ∀ h', agree_off ws h h' → vector_eql p h' k x = vector_eql p h k x

/-- Two general vectors `V1` and `V2` of the same length `n` in a well-formed
heap, referenced from the slots `s1` and `s2`.  Both carry a shareable flag
the level selects; their elements reference eligible eql-comparable objects
(strings), those of `V2` content-equal to those of `V1`; the rest of the two
vectors (size, length word, padding) is the same.  The layout is that of a
heap of separate objects: no element slot of one vector is a slot of the
other, a word of one of the strings, a header, length or padding word of one
of the vectors, or one of the slots `s1` and `s2`. -/
structure TwoVectors (p : Platform) (level : Int) (h : Heap) (s1 s2 V1 V2 n : Nat) : Prop where
  slot1 : lowtag_of p (h s1) = p.OTHER_POINTER_LOWTAG ∧ native_pointer p (h s1) = V1
  slot2 : lowtag_of p (h s2) = p.OTHER_POINTER_LOWTAG ∧ native_pointer p (h s2) = V2
  general1 : widetag_of p (h V1) = p.SIMPLE_VECTOR_WIDETAG
  general2 : widetag_of p (h V2) = p.SIMPLE_VECTOR_WIDETAG
  flag1 : h V1 &&& shareable_mask p level ≠ 0
  flag2 : h V2 &&& shareable_mask p level ≠ 0
  length1 : fixnum_value p (h (word_at p V1 1)) = (n : Int)
  same_length : h (word_at p V2 1) = h (word_at p V1 1)
  same_size : obj_size p h V2 = obj_size p h V1
  same_padding : ∀ i, n + 2 ≤ i → i < obj_size p h V1 →
    h (word_at p V2 i) = h (word_at p V1 i)
  elements1 : ∀ i, i < n →
    lowtag_of p (h (elt_slot p V1 i)) = p.OTHER_POINTER_LOWTAG
    ∧ eql_comparable_p p h (h (elt_slot p V1 i)) = true
    ∧ coalesce_obj_test p level h (elt_target p h V1 i) = true
  elements2 : ∀ i, i < n →
    lowtag_of p (h (elt_slot p V2 i)) = p.OTHER_POINTER_LOWTAG
    ∧ eql_comparable_p p h (h (elt_slot p V2 i)) = true
    ∧ coalesce_obj_test p level h (elt_target p h V2 i) = true
  content_equal : ∀ i, i < n →
    vector_eql p h (elt_target p h V1 i) (elt_target p h V2 i) = true
  slots_apart : ∀ a ∈ elt_slots p V1 n, a ∉ elt_slots p V2 n
  s1_apart : s1 ≠ s2 ∧ s1 ∉ elt_slots p V1 n ++ elt_slots p V2 n
  s2_apart : s2 ∉ elt_slots p V1 n ++ elt_slots p V2 n
  targets_apart : ∀ i, i < n →
    ∀ w ∈ object_words p h (elt_target p h V1 i) ++ object_words p h (elt_target p h V2 i),
      w ∉ elt_slots p V1 n ++ elt_slots p V2 n
  vectors_apart : ∀ i, i < max 2 (obj_size p h V1) → (i < 2 ∨ n + 2 ≤ i) →
    word_at p V1 i ∉ elt_slots p V1 n ++ elt_slots p V2 n
    ∧ word_at p V2 i ∉ elt_slots p V1 n ++ elt_slots p V2 n

/-! ## An example platform

A platform with the shape of a 64-bit build with the generational collector:
16-byte alignment, one fixnum tag bit, eight widetag bits.  The read-only space
is `[0x1000, 0x2000)`, and the collector manages the pages from `0x8000` on. -/

/-- The size table of the example platform: two header words and the elements
for a general vector, two header words and the packed characters for a
string, the header and its payload count for any other object; always an
even number of words.  In the example platform a word is the first half of a
pair unless its two low bits are `01`; a record has its layout in its first
slot and a layout its bitmap, a fixnum, in its second; a code object has its
boxed size in the header and its functions 64 bytes apart after the boxed
words, each with four slots to scavenge. -/
def example_sizetab (widetag header word1 : Nat) : Nat :=
  let n := if widetag = 0x85 then 2 + word1 / 2
           else if widetag = 0xE1 then 2 + (word1 / 2 + 8) / 8
           else if widetag = 0xE5 then 2 + (word1 / 2 + 2) / 2
           else 1 + header / 256
  n + n % 2

/-- The example platform. -/
def example_platform : Platform where
  N_WORD_BITS := 64
  N_WORD_BYTES := 8
  N_LOWTAG_BITS := 4
  N_WIDETAG_BITS := 8
  N_FIXNUM_TAG_BITS := 1
  OTHER_POINTER_LOWTAG := 0xF
  LIST_POINTER_LOWTAG := 0x7
  INSTANCE_POINTER_LOWTAG := 0x3
  NIL := 0x2017
  BIGNUM_WIDETAG := 0x11
  RATIO_WIDETAG := 0x15
  COMPLEX_WIDETAG := 0x21
  SINGLE_FLOAT_WIDETAG := 0x19
  DOUBLE_FLOAT_WIDETAG := 0x1D
  COMPLEX_SINGLE_FLOAT_WIDETAG := 0x25
  COMPLEX_DOUBLE_FLOAT_WIDETAG := 0x29
  SYMBOL_WIDETAG := 0x45
  SIMPLE_BASE_STRING_WIDETAG := 0xE1
  SIMPLE_CHARACTER_STRING_WIDETAG := some 0xE5
  SIMPLE_VECTOR_WIDETAG := 0x85
  VECTOR_SHAREABLE := 0x20
  VECTOR_SHAREABLE_NONSTD := 0x10
  READ_ONLY_SPACE_START := 0x1000
  READ_ONLY_SPACE_END := 0x2000
  feature_64_bit := true
  gc := .gencgc (fun a => if a < 0x8000 then -1 else ((a - 0x8000) / 0x1000 : Nat)) (fun _ => false)
  specialized_vector_widetag_p := fun w => decide (0x89 ≤ w ∧ w ≤ 0xE5 ∧ w % 4 = 1)
  sizetab := example_sizetab
  INSTANCE_WIDETAG := 0x51
  FUNCALLABLE_INSTANCE_WIDETAG := 0x39
  CODE_HEADER_WIDETAG := 0x2D
  feature_compact_instance_header := false
  is_cons_half := fun w => decide (w % 4 ≠ 1)
  instance_layout := fun h a => h (a + 8)
  layout_bitmap := fun h layout => h (layout - 3 + 16)
  layout_bitmap_logbitp := fun _ i bitmap => (bitmap / 2).testBit i
  code_n_funs := fun h a => h (a + 8) / 2 % 4
  code_simple_fun := fun h a k => a + 8 * (h a / 256) + 64 * k
  SIMPLE_FUN_SCAV_START := fun f => f + 16
  SIMPLE_FUN_SCAV_NWORDS := fun _ => 4
  code_header_words := fun header => header / 256
  unboxed_obj_widetag_p := fun w =>
    decide (w = 0x11 ∨ w = 0x1D ∨ w = 0x25 ∨ w = 0x29 ∨ (0x89 ≤ w ∧ w ≤ 0xE5))

/-- A heap given by the words at finitely many addresses; every other word
is `0`. -/
def heap_of (l : List (Nat × Nat)) : Heap := fun a =>
  match l.lookup a with
  | some v => v
  | none => 0

/-! ## Assumptions on the platform -/

/-- The widetags `coalesce_obj` and its helpers name. -/
def widetags (p : Platform) : List Nat :=
  [p.BIGNUM_WIDETAG, p.RATIO_WIDETAG, p.COMPLEX_WIDETAG, p.SINGLE_FLOAT_WIDETAG,
   p.DOUBLE_FLOAT_WIDETAG, p.COMPLEX_SINGLE_FLOAT_WIDETAG, p.COMPLEX_DOUBLE_FLOAT_WIDETAG,
   p.SYMBOL_WIDETAG, p.SIMPLE_BASE_STRING_WIDETAG, p.SIMPLE_VECTOR_WIDETAG]
  ++ p.SIMPLE_CHARACTER_STRING_WIDETAG.toList

/-- What the generated headers guarantee about the constants: the widetags
are distinct; the pointer lowtags fit the lowtag bits, are distinct and are
not fixnum tags; `NIL` carries the list lowtag; a word has at least one byte;
numbers, symbols and general vectors are not specialized vectors. -/
structure Platform.Sane (p : Platform) : Prop where
  widetags_nodup : (widetags p).Nodup
  other_lt : p.OTHER_POINTER_LOWTAG < 2 ^ p.N_LOWTAG_BITS
  list_ne_other : p.LIST_POINTER_LOWTAG ≠ p.OTHER_POINTER_LOWTAG
  instance_ne_other : p.INSTANCE_POINTER_LOWTAG ≠ p.OTHER_POINTER_LOWTAG
  instance_ne_list : p.INSTANCE_POINTER_LOWTAG ≠ p.LIST_POINTER_LOWTAG
  fixnum_bits_le : p.N_FIXNUM_TAG_BITS ≤ p.N_LOWTAG_BITS
  other_not_fixnum : p.OTHER_POINTER_LOWTAG % 2 ^ p.N_FIXNUM_TAG_BITS ≠ 0
  list_not_fixnum : p.LIST_POINTER_LOWTAG % 2 ^ p.N_FIXNUM_TAG_BITS ≠ 0
  instance_not_fixnum : p.INSTANCE_POINTER_LOWTAG % 2 ^ p.N_FIXNUM_TAG_BITS ≠ 0
  nil_lowtag : p.NIL % 2 ^ p.N_LOWTAG_BITS = p.LIST_POINTER_LOWTAG
  word_bytes_pos : 0 < p.N_WORD_BYTES
  not_specialized : ∀ w ∈ [p.BIGNUM_WIDETAG, p.RATIO_WIDETAG, p.COMPLEX_WIDETAG,
      p.SINGLE_FLOAT_WIDETAG, p.DOUBLE_FLOAT_WIDETAG, p.COMPLEX_SINGLE_FLOAT_WIDETAG,
      p.COMPLEX_DOUBLE_FLOAT_WIDETAG, p.SYMBOL_WIDETAG, p.SIMPLE_VECTOR_WIDETAG],
      p.specialized_vector_widetag_p w = false

/-! ## Example heaps -/

/-- Three content-equal bignums at `0x8020`, `0x8000` and `0x8010` (one digit,
`77`), and three slots in static space: `0x3000` references the first,
`0x3008` the second and `0x3010` the third. -/
def heap_bignums : Heap := heap_of
  [(0x8000, 0x111), (0x8008, 77), (0x8010, 0x111), (0x8018, 77), (0x8020, 0x111), (0x8028, 77),
   (0x3000, 0x802F), (0x3008, 0x800F), (0x3010, 0x801F)]

/-- Two content-equal bignums in static space, at `0x2100` and `0x2110`, and a
third in collectible space, at `0x8000`; the slot `0x1008` of read-only space
references the first, the slot `0x3000` of static space the second and the
slot `0x3008` the third. -/
def heap_read_only : Heap := heap_of
  [(0x2100, 0x111), (0x2108, 77), (0x2110, 0x111), (0x2118, 77), (0x8000, 0x111), (0x8008, 77),
   (0x1008, 0x210F), (0x3000, 0x211F), (0x3008, 0x800F)]

/-- Two content-equal ratios at `0x8300` and `0x8320` whose numerator is a
pointer to the bignum at `0x8340` and whose denominator is the fixnum 3; the
slot `0x3000` references the first and `0x3008` the second. -/
def heap_ratios : Heap := heap_of
  [(0x8300, 0x215), (0x8308, 0x834F), (0x8310, 6),
   (0x8320, 0x215), (0x8328, 0x834F), (0x8330, 6),
   (0x8340, 0x111), (0x8348, 77),
   (0x3000, 0x830F), (0x3008, 0x832F)]

/-- Two shareable general vectors of length 2 at `0x8100` and `0x8120`, whose
elements reference four shareable base strings: `0x8200` and `0x8240` hold
the same three characters, and so do `0x8220` and `0x8260`.  The slot
`0x3000` references the first vector and `0x3008` the second.  A fifth
string, at `0x8280`, has the characters of the first but no shareable flag;
the slot `0x3010` references it. -/
def heap_vectors : Heap := heap_of
  [(0x3000, 0x810F), (0x3008, 0x812F),
   (0x8100, 0x2085), (0x8108, 4), (0x8110, 0x820F), (0x8118, 0x822F),
   (0x8120, 0x2085), (0x8128, 4), (0x8130, 0x824F), (0x8138, 0x826F),
   (0x8200, 0x20E1), (0x8208, 6), (0x8210, 0x6F6F66),
   (0x8220, 0x20E1), (0x8228, 6), (0x8230, 0x726162),
   (0x8240, 0x20E1), (0x8248, 6), (0x8250, 0x6F6F66),
   (0x8260, 0x20E1), (0x8268, 6), (0x8270, 0x726162),
   (0x8280, 0xE1), (0x8288, 6), (0x8290, 0x6F6F66), (0x3010, 0x828F)]

/-- A shareable general vector at `0x8100` with `2^31 + 1` elements, the
first of which is a pointer to a pair; the slot `0x3000` references the
vector. -/
def heap_huge_vector : Heap := heap_of
  [(0x3000, 0x810F), (0x8100, 0x2085), (0x8108, 2 * (2 ^ 31 + 1)), (0x8110, 0x9007)]

/-- Two content-equal bignums at `0x8020` and `0x8000`, the slot `0x3000` that
references the first, and two records of four words whose layout, at
`0x3200`, has a bitmap that marks the third slot only as a reference: a
funcallable instance at `0x3100` and an instance at `0x3140`.  The second and
the third slot of both records hold the bits `0x800F`, which read as a
reference to the bignum at `0x8000`. -/
def heap_records : Heap := heap_of
  [(0x8000, 0x111), (0x8008, 77), (0x8020, 0x111), (0x8028, 77), (0x3000, 0x802F),
   (0x3200, 0x351), (0x3210, 8),
   (0x3100, 0x339), (0x3108, 0x3203), (0x3110, 0x800F), (0x3118, 0x800F),
   (0x3140, 0x351), (0x3148, 0x3203), (0x3150, 0x800F), (0x3158, 0x800F)]

/-- The example platform with a size table that gives a code object its
boxed words and eight more words for each of its functions. -/
def code_platform : Platform :=
  { example_platform with
    sizetab := fun widetag header word1 =>
      if widetag = 0x2D then header / 256 + 8 * (word1 / 2 % 4)
      else example_sizetab widetag header word1 }

/-- Two content-equal bignums at `0x8020` and `0x8000`, and a code object at
`0x3400` with four boxed words and one function: twelve words in all.  The
function is at `0x3420` and its four slots to scavenge start at `0x3430`.
The third boxed word, the first word of the function, the first slot to
scavenge and the word after the last one all hold the bits `0x800F`, which
read as a reference to the bignum at `0x8000`. -/
def heap_code : Heap := heap_of
  [(0x8000, 0x111), (0x8008, 77), (0x8020, 0x111), (0x8028, 77),
   (0x3400, 0x42D), (0x3408, 2), (0x3410, 0x800F), (0x3418, 6),
   (0x3420, 0x800F), (0x3428, 0x1234),
   (0x3430, 0x800F), (0x3438, 0), (0x3440, 0), (0x3448, 0),
   (0x3450, 0x800F), (0x3458, 0x5678)]

/-- Two content-equal bignums, `A` at `0x2100` in static space and `B` at
`0x8000` in collectible space; the slot `0x3000` of static space references
`A`, and a pair at `0x8010`, in collectible space, references `B` with its
first half and `A` with its second. -/
def heap_spaces : Heap := heap_of
  [(0x2100, 0x111), (0x2108, 77), (0x8000, 0x111), (0x8008, 77),
   (0x3000, 0x210F), (0x8010, 0x800F), (0x8018, 0x210F)]

/-- A heap without a reference from read-only space to collectible space on
which the pass ends in `lose`.  The bignums at `0x2100`, in static space, and
at `0x8000`, in collectible space, are content-equal.  The slot `0x1000` of
read-only space references the shareable general vector at `0x2200`, in
static space, whose one element references the collectible bignum; the slot
`0x1008` of read-only space references the static bignum. -/
def heap_guard : Heap := heap_of
  [(0x1000, 0x220F), (0x1008, 0x210F), (0x2100, 0x111), (0x2108, 77),
   (0x2200, 0x2085), (0x2208, 2), (0x2210, 0x800F), (0x8000, 0x111), (0x8008, 77)]

/-- A shareable general vector at `0x8100` with `2^31 + 1` elements, the
first of which references the vector itself; the slot `0x3000` references
the vector too. -/
def heap_cyclic_vector : Heap := heap_of
  [(0x3000, 0x810F), (0x8100, 0x2085), (0x8108, 2 * (2 ^ 31 + 1)), (0x8110, 0x810F)]

/-- A shareable general vector of length 1 at `0x8100`, whose element
references the shareable base string at `0x8200`, and the slot `0x3000` that
references the vector. -/
def heap_one_vector : Heap := heap_of
  [(0x3000, 0x810F), (0x8100, 0x2085), (0x8108, 2), (0x8110, 0x820F),
   (0x8200, 0x20E1), (0x8208, 6), (0x8210, 0x6F6F66)]

/-- Two shareable general vectors of length 1 whose elements reference
content-equal shareable base strings: the vector at `0x8100` and its string
at `0x8200` are in collectible space, the vector at `0x1100` and its string at
`0x1200` in read-only space.  The slot `0x3000` references the first vector
and `0x3008` the second.  No word of read-only space references collectible
space. -/
def heap_vectors_read_only : Heap := heap_of
  [(0x3000, 0x810F), (0x3008, 0x110F),
   (0x8100, 0x2085), (0x8108, 2), (0x8110, 0x820F),
   (0x1100, 0x2085), (0x1108, 2), (0x1110, 0x120F),
   (0x8200, 0x20E1), (0x8208, 6), (0x8210, 0x6F6F66),
   (0x1200, 0x20E1), (0x1208, 6), (0x1210, 0x6F6F66)]

/-- Three shareable general vectors of length 1, at `0x8100`, `0x8120` and
`0x8140`, whose elements reference three content-equal shareable base
strings, at `0x8200`, `0x8220` and `0x8240`.  The slot `0x3000` references the
third vector, `0x3008` the first and `0x3010` the second. -/
def heap_three_vectors : Heap := heap_of
  [(0x3000, 0x814F), (0x3008, 0x810F), (0x3010, 0x812F),
   (0x8100, 0x2085), (0x8108, 2), (0x8110, 0x820F),
   (0x8120, 0x2085), (0x8128, 2), (0x8130, 0x822F),
   (0x8140, 0x2085), (0x8148, 2), (0x8150, 0x824F),
   (0x8200, 0x20E1), (0x8208, 6), (0x8210, 0x6F6F66),
   (0x8220, 0x20E1), (0x8228, 6), (0x8230, 0x6F6F66),
   (0x8240, 0x20E1), (0x8248, 6), (0x8250, 0x6F6F66)]

/-! ## Frames and invariants of a pass -/

/-- Between the heaps `h` and `h'` only general-object-pointers changed, and
into general-object-pointers: every word kept its lowtag, and a word that
differs had the lowtag `OTHER_POINTER_LOWTAG`. -/
def pointer_changes (p : Platform) (h h' : Heap) : Prop :=
  (∀ a, lowtag_of p (h' a) = lowtag_of p (h a))
  ∧ (∀ a, h' a ≠ h a → lowtag_of p (h a) = p.OTHER_POINTER_LOWTAG)

/-- The keys of the table are object addresses: they carry no lowtag. -/
def keys_aligned (p : Platform) (ht : hopscotch_table) : Prop :=
  ∀ k ∈ ht.keys, lowtag_of p k = 0

/-- What the generated headers guarantee about header words: the lowtag
bits are among the widetag bits, and no widetag that `coalesce.c` names
ends in the lowtag of a general-object-pointer, nor does the widetag of a
specialized vector.  A header word is therefore never taken for a
general-object-pointer. -/
structure Platform.Headers (p : Platform) : Prop where
  lowtag_le : p.N_LOWTAG_BITS ≤ p.N_WIDETAG_BITS
  other_lt : p.OTHER_POINTER_LOWTAG < 2 ^ p.N_LOWTAG_BITS
  named : ∀ w ∈ widetags p ++ [p.INSTANCE_WIDETAG, p.FUNCALLABLE_INSTANCE_WIDETAG,
    p.CODE_HEADER_WIDETAG], w % 2 ^ p.N_LOWTAG_BITS ≠ p.OTHER_POINTER_LOWTAG
  specialized : ∀ w, p.specialized_vector_widetag_p w = true →
    w % 2 ^ p.N_LOWTAG_BITS ≠ p.OTHER_POINTER_LOWTAG

/-! ## The slots of a code object -/

/-- Calls of `call` on the slots of a list, in order, each on the heap and
the table the one before left. -/
def coalesce_slots (call : Nat → Heap → hopscotch_table → Res) :
    List Nat → Heap → hopscotch_table → Res
  | [], h, ht => .done h ht
  | a :: as, h, ht => (call a h ht).bind (coalesce_slots call as)

/-- The slots to scavenge of the simple functions `ks` of the code object at
`where`, function by function. -/
def code_fun_slots (p : Platform) (h : Heap) (where_ : Nat) : List Nat → List Nat
  | [] => []
  | k :: ks =>
    (List.range (p.SIMPLE_FUN_SCAV_NWORDS (p.code_simple_fun h where_ k))).map
        (word_at p (p.SIMPLE_FUN_SCAV_START (p.code_simple_fun h where_ k)))
      ++ code_fun_slots p h where_ ks

/-- The slots of the code object at `where`: the slots to scavenge of each
of its simple functions, then its boxed header words from index 1 on. -/
def code_slots (p : Platform) (h : Heap) (where_ : Nat) : List Nat :=
  code_fun_slots p h where_ (List.range (p.code_n_funs h where_))
    ++ (List.range' 1 (p.code_header_words (h where_) - 1)).map (word_at p where_)

/-! ## Regions of unboxed objects -/

/-- The object at `where` gets the treatment of line 178-179 of
`coalesce_range`: its header is not a pair half, its widetag is not one of
the cases of the switch and `unboxed_obj_widetag_p` holds of it. -/
def unboxed_object (p : Platform) (h : Heap) (where_ : Nat) : Bool :=
  !p.is_cons_half (h where_)
  && decide (widetag_of p (h where_) ≠ p.INSTANCE_WIDETAG)
  && !(p.feature_compact_instance_header
        && decide (widetag_of p (h where_) = p.FUNCALLABLE_INSTANCE_WIDETAG))
  && decide (widetag_of p (h where_) ≠ p.CODE_HEADER_WIDETAG)
  && p.unboxed_obj_widetag_p (widetag_of p (h where_))

/-- The region from `where` to `limit` is made of at most `n` objects, one
after the other by the size table, all of them unboxed. -/
def unboxed_region (p : Platform) (h : Heap) : Nat → Nat → Nat → Bool
  | 0, where_, limit => decide (limit ≤ where_)
  | n + 1, where_, limit =>
    decide (limit ≤ where_)
    || (unboxed_object p h where_
        && unboxed_region p h n (word_at p where_ (obj_size p h where_)) limit)

/-! ## The driver -/

/-- The build features and the space bounds `coalesce_similar_objects` reads,
besides those of `Platform`: `LISP_FEATURE_WIN32`,
`LISP_FEATURE_IMMOBILE_SPACE`, the bounds of static space, the starts and
the free pointers of the two immobile spaces, and the runs of pages that
`walk_generation` hands to its function argument, in the order it does. -/
structure Spaces where
  feature_win32 : Bool
  feature_immobile_space : Bool
  STATIC_SPACE_START : Nat
  STATIC_SPACE_END : Nat
  FIXEDOBJ_SPACE_START : Nat
  fixedobj_free_pointer : Nat
  VARYOBJ_SPACE_START : Nat
  varyobj_free_pointer : Nat
  generation_regions : List (Nat × Nat)

/-- Modelled from the spec: `walk_generation(proc, -1, arg)` of gencgc, which
is not part of `coalesce.c`, hands every run of pages of the collectible
region to `proc`, one after the other and all with the same `arg`. -/
def walk_generation (proc : Nat → Nat → Heap → hopscotch_table → Res) :
    List (Nat × Nat) → Heap → hopscotch_table → Res
  | [], h, ht => .done h ht
  | r :: rs, h, ht => (proc r.1 r.2 h ht).bind (walk_generation proc rs)

/-- The walks of `coalesce_similar_objects`, lines 193-215: the table is
created empty and `coalesce_range` runs on one space after the other, each
time on the heap and the table the walk before left.  `depth` bounds the
recursion of `coalesce_obj` and `steps` the objects of each space. -/
def coalesce_similar_objects_walks (p : Platform) (s : Spaces) (level : Int)
    (depth steps : Nat) (h : Heap) : Res :=
  let ht := hopscotch_create
  let r1 :=
    if s.feature_win32 then Res.done h ht
    else
      (coalesce_range p level depth steps p.READ_ONLY_SPACE_START p.READ_ONLY_SPACE_END
          h ht).bind
        (coalesce_range p level depth steps s.STATIC_SPACE_START s.STATIC_SPACE_END)
  let r2 :=
    if s.feature_immobile_space then
      (r1.bind (coalesce_range p level depth steps s.FIXEDOBJ_SPACE_START
          s.fixedobj_free_pointer)).bind
        (coalesce_range p level depth steps s.VARYOBJ_SPACE_START s.varyobj_free_pointer)
    else r1
  match p.gc with
  | .gencgc _ _ =>
    r2.bind (walk_generation (coalesce_range p level depth steps) s.generation_regions)
  | .cheneygc current_dynamic_space dynamic_space_free_pointer =>
    r2.bind (coalesce_range p level depth steps current_dynamic_space
      dynamic_space_free_pointer)

/-- How a run of `coalesce_similar_objects` ends: with the outcome of its
walks, and having executed `hopscotch_destroy(&ht)`, line 216, or not. -/
structure Run where
  outcome : Res
  table_destroyed : Bool

/-- Function `coalesce_similar_objects`, lines 191-217.  The statement of line
216 comes after the walks: it is executed when they all returned.  `lose`
does not return, so that a walk that ends in it ends the run there. -/
def coalesce_similar_objects (p : Platform) (s : Spaces) (level : Int) (depth steps : Nat)
    (h : Heap) : Run :=
  match coalesce_similar_objects_walks p s level depth steps h with
  | .done h1 ht1 => ⟨.done h1 ht1, true⟩
  | r => ⟨r, false⟩

/-- The regions of the driver in the words of the specification: the
read-only region, the static region, the fixed-size and the variable-size
long-lived sub-regions when present, and the general collectible region. -/
def spec_regions (p : Platform) (s : Spaces) : List (Nat × Nat) :=
  [(p.READ_ONLY_SPACE_START, p.READ_ONLY_SPACE_END),
   (s.STATIC_SPACE_START, s.STATIC_SPACE_END)]
  ++ (if s.feature_immobile_space
      then [(s.FIXEDOBJ_SPACE_START, s.fixedobj_free_pointer),
            (s.VARYOBJ_SPACE_START, s.varyobj_free_pointer)]
      else [])
  ++ (match p.gc with
      | .gencgc _ _ => s.generation_regions
      | .cheneygc current_dynamic_space dynamic_space_free_pointer =>
        [(current_dynamic_space, dynamic_space_free_pointer)])

/-- Walking a list of regions in order with one shared table, in the words of
the specification. -/
def walk_regions (p : Platform) (level : Int) (depth steps : Nat) :
    List (Nat × Nat) → Heap → hopscotch_table → Res
  | [], h, ht => .done h ht
  | r :: rs, h, ht =>
    (coalesce_range p level depth steps r.1 r.2 h ht).bind (walk_regions p level depth steps rs)

/-- The spaces of the example platform: static space from `0x2000` to
`0x4000`, no immobile space, and one run of collectible pages, from `0x8000`
to `0x8040`. -/
def example_spaces : Spaces where
  feature_win32 := false
  feature_immobile_space := false
  STATIC_SPACE_START := 0x2000
  STATIC_SPACE_END := 0x4000
  FIXEDOBJ_SPACE_START := 0
  fixedobj_free_pointer := 0
  VARYOBJ_SPACE_START := 0
  varyobj_free_pointer := 0
  generation_regions := [(0x8000, 0x8040)]

/-- The spaces of the example platform in a Windows build. -/
def win32_spaces : Spaces := { example_spaces with feature_win32 := true }

/-! ## Slots and frames -/

/-- The loop of `coalesce_range`, lines 142-186, with `call` in the place of
`coalesce_obj`. -/
def coalesce_range_with (p : Platform) (call : Nat → Heap → hopscotch_table → Res) :
    Nat → Nat → Nat → Heap → hopscotch_table → Res
  | 0, where_, limit, h, ht => if where_ < limit then .out_of_fuel else .done h ht
  | steps + 1, where_, limit, h, ht =>
    if where_ < limit then
      (coalesce_range_object p call where_ h ht).bind
        (coalesce_range_with p call steps (coalesce_range_next p where_ h) limit)
    else .done h ht

/-- Walking a list of regions in order with one shared table, with `call` in
the place of `coalesce_obj`. -/
def walk_regions_with (p : Platform) (call : Nat → Heap → hopscotch_table → Res)
    (steps : Nat) : List (Nat × Nat) → Heap → hopscotch_table → Res
  | [], h, ht => .done h ht
  | r :: rs, h, ht =>
    (coalesce_range_with p call steps r.1 r.2 h ht).bind (walk_regions_with p call steps rs)

/-- The function `call` on the words of `Slot` only: on any other word there
is no result, so that a walk with it returns only when it passes no word
outside `Slot` to `call`. -/
def on_slots (Slot : Nat → Prop) [DecidablePred Slot]
    (call : Nat → Heap → hopscotch_table → Res) : Nat → Heap → hopscotch_table → Res :=
  fun where_ h ht => if Slot where_ then call where_ h ht else .out_of_fuel

/-- The object at `v` is a key of the table `ht0`, or a word of `Slot` is a
general-object-pointer to it in the heap `h0`. -/
def referenced (p : Platform) (Slot : Nat → Prop) (h0 : Heap) (ht0 : hopscotch_table)
    (v : Nat) : Prop :=
  v ∈ ht0.keys
  ∨ ∃ s, Slot s ∧ lowtag_of p (h0 s) = p.OTHER_POINTER_LOWTAG ∧ native_pointer p (h0 s) = v

/-- The word at `a` is never stored to by a call of `coalesce_obj` on a slot
of `Slot`: it is no slot, or it held no general-object-pointer in the heap
`h0`. -/
def fixed (p : Platform) (Slot : Nat → Prop) (h0 : Heap) (a : Nat) : Prop :=
  ¬ Slot a ∨ lowtag_of p (h0 a) ≠ p.OTHER_POINTER_LOWTAG

/-- The set `Slot` holds the slots that calls of `coalesce_obj` on its words
reach from the heap `h0` and the table `ht0`: the keys of the table are
object addresses; for every general vector with a shareable flag of the
level that is a key or that a word of `Slot` references, the element slots,
as many as its length word says, are in `Slot`, and the length word is never
stored to. -/
structure Closed (p : Platform) (level : Int) (Slot : Nat → Prop) (h0 : Heap)
    (ht0 : hopscotch_table) : Prop where
  aligned : keys_aligned p ht0
  elements : ∀ v, referenced p Slot h0 ht0 v →
    widetag_of p (h0 v) = p.SIMPLE_VECTOR_WIDETAG → h0 v &&& shareable_mask p level ≠ 0 →
    ∀ i ∈ elt_indices p h0 v, Slot (word_at p v i)
  lengths : ∀ v, referenced p Slot h0 ht0 v →
    widetag_of p (h0 v) = p.SIMPLE_VECTOR_WIDETAG → h0 v &&& shareable_mask p level ≠ 0 →
    fixed p Slot h0 (word_at p v 1)

/-- What calls of `coalesce_obj` on slots of `Slot` keep true of the heap `h`
and the table `ht` they reach from `h0` and `ht0`: only general-object-pointers
changed, the keys are object addresses, the words outside `Slot` are as they
were, and the keys and the objects that the words of `Slot` reference were
keys or referenced from `Slot` at the start. -/
structure Framed (p : Platform) (Slot : Nat → Prop) (h0 : Heap) (ht0 : hopscotch_table)
    (h : Heap) (ht : hopscotch_table) : Prop where
  changes : pointer_changes p h0 h
  aligned : keys_aligned p ht
  frozen : ∀ a, ¬ Slot a → h a = h0 a
  refs : ∀ s, Slot s → lowtag_of p (h s) = p.OTHER_POINTER_LOWTAG →
    referenced p Slot h0 ht0 (native_pointer p (h s))
  keys : ∀ k ∈ ht.keys, referenced p Slot h0 ht0 k

/-- A sequence of calls of `coalesce_obj` on slots of `Slot` and of walks of
`coalesce_range` that pass slots of `Slot` only to `coalesce_obj`, all of
which returned, each on the heap and the table the one before left.  A walk
passes slots of `Slot` only when its result does not depend on what is done
with any other word. -/
inductive Visits (p : Platform) (level : Int) (Slot : Nat → Prop) :
    Heap → hopscotch_table → Heap → hopscotch_table → Prop where
  | nil (h : Heap) (ht : hopscotch_table) : Visits p level Slot h ht h ht
  | obj (fuel where_ : Nat) (h : Heap) (ht : hopscotch_table) (h1 : Heap)
      (ht1 : hopscotch_table) (h2 : Heap) (ht2 : hopscotch_table) :
      Slot where_ → coalesce_obj p level fuel where_ h ht = .done h1 ht1 →
      Visits p level Slot h1 ht1 h2 ht2 → Visits p level Slot h ht h2 ht2
  | range (depth steps where_ limit : Nat) (h : Heap) (ht : hopscotch_table) (h1 : Heap)
      (ht1 : hopscotch_table) (h2 : Heap) (ht2 : hopscotch_table) :
      (∀ call, (∀ w, Slot w → call w = coalesce_obj p level depth w) →
        coalesce_range_with p call steps where_ limit h ht = .done h1 ht1) →
      Visits p level Slot h1 ht1 h2 ht2 → Visits p level Slot h ht h2 ht2

/-! ## First seen wins -/

/-- No general-object-pointer of read-only space addresses collectible
space. -/
def read_only_apart (p : Platform) (h : Heap) : Prop :=
  ∀ a, p.READ_ONLY_SPACE_START ≤ a → a < p.READ_ONLY_SPACE_END →
    lowtag_of p (h a) = p.OTHER_POINTER_LOWTAG → gcable_pointer_p p (h a) = false

/-- A heap of separate objects, `Slot` being the slots that `coalesce_obj` is
applied to.  Of every general vector that a slot references, the element
slots, as many as its length word says, are slots, every other word is
never stored to (it is no slot, or no general-object-pointer), and the length
fits the C type `int`; every word of an object that a slot references, that
passes the test of `coalesce_obj` and is not a general vector, is never
stored to. -/
structure Separate (p : Platform) (level : Int) (Slot : Nat → Prop) (h0 : Heap) : Prop where
  elements : ∀ v, referenced p Slot h0 hopscotch_create v →
    widetag_of p (h0 v) = p.SIMPLE_VECTOR_WIDETAG →
    ∀ i ∈ elt_indices p h0 v, Slot (word_at p v i)
  vectors : ∀ v, referenced p Slot h0 hopscotch_create v →
    widetag_of p (h0 v) = p.SIMPLE_VECTOR_WIDETAG →
    ∀ i, i < max 2 (obj_size p h0 v) → i ∉ elt_indices p h0 v → fixed p Slot h0 (word_at p v i)
  leaves : ∀ x, referenced p Slot h0 hopscotch_create x →
    coalesce_obj_test p level h0 x = true →
    widetag_of p (h0 x) ≠ p.SIMPLE_VECTOR_WIDETAG → ∀ w ∈ object_words p h0 x, fixed p Slot h0 w
  lengths : ∀ v, referenced p Slot h0 hopscotch_create v →
    widetag_of p (h0 v) = p.SIMPLE_VECTOR_WIDETAG →
    -2 ^ 31 < fixnum_value p (h0 (word_at p v 1))
    ∧ fixnum_value p (h0 (word_at p v 1)) ≤ 2 ^ 31

/-- The word `x` of an element slot is settled: it is no general-object-pointer,
or it references an object that is not a general vector and either fails the
test of `coalesce_obj` or is a key of the table. -/
def settled (p : Platform) (level : Int) (h0 : Heap) (ht : hopscotch_table) (x : Nat) : Prop :=
  lowtag_of p x ≠ p.OTHER_POINTER_LOWTAG
  ∨ (widetag_of p (h0 (native_pointer p x)) ≠ p.SIMPLE_VECTOR_WIDETAG
      ∧ (coalesce_obj_test p level h0 (native_pointer p x) = false
          ∨ native_pointer p x ∈ ht.keys))

/-- What visits of the slots `Slot` from the heap `h0` and the empty table
keep true of the heap `h` and the table `ht` they have reached: the state is
framed, a key that is not a general vector has words that are never stored
to, the elements of a key that is a general vector are settled, no key is
content-equal to a later key, and a word that changed is a pointer to a key,
which is content-equal to the object the word referenced at the start when
that object is not a general vector; the object then passes the test of
`coalesce_obj`. -/
structure FirstSeen (p : Platform) (level : Int) (Slot : Nat → Prop) (h0 h : Heap)
    (ht : hopscotch_table) : Prop where
  framed : Framed p Slot h0 hopscotch_create h ht
  leaves : ∀ k ∈ ht.keys, widetag_of p (h0 k) ≠ p.SIMPLE_VECTOR_WIDETAG →
    ∀ w ∈ object_words p h0 k, fixed p Slot h0 w
  elements : ∀ k ∈ ht.keys, widetag_of p (h0 k) = p.SIMPLE_VECTOR_WIDETAG →
    ∀ i ∈ elt_indices p h0 k, settled p level h0 ht (h (word_at p k i))
  first : ht.keys.Pairwise (fun k r => vector_eql p h k r = false)
  redirects : ∀ s, h s ≠ h0 s →
    ∃ k ∈ ht.keys, h s = make_lispobj k p.OTHER_POINTER_LOWTAG
      ∧ (widetag_of p (h0 (native_pointer p (h0 s))) ≠ p.SIMPLE_VECTOR_WIDETAG →
          coalesce_obj_test p level h0 (native_pointer p (h0 s)) = true
          ∧ vector_eql p h0 k (native_pointer p (h0 s)) = true)

/-! ## Theorems -/

theorem example_platform_sane : example_platform.Sane where
  widetags_nodup := by decide
  other_lt := by decide
  list_ne_other := by decide
  instance_ne_other := by decide
  instance_ne_list := by decide
  fixnum_bits_le := by decide
  other_not_fixnum := by decide
  list_not_fixnum := by decide
  instance_not_fixnum := by decide
  nil_lowtag := by decide
  word_bytes_pos := by decide
  not_specialized := by decide

/-- A word with a pointer lowtag is not a fixnum. -/
theorem fixnump_false_of_lowtag (p : Platform) (hle : p.N_FIXNUM_TAG_BITS ≤ p.N_LOWTAG_BITS)
    (v t : Nat) (hv : lowtag_of p v = t) (ht : t % 2 ^ p.N_FIXNUM_TAG_BITS ≠ 0) :
    fixnump p v = false := by
  have hdvd : 2 ^ p.N_FIXNUM_TAG_BITS ∣ 2 ^ p.N_LOWTAG_BITS := pow_dvd_pow 2 hle
  have hmod : v % 2 ^ p.N_FIXNUM_TAG_BITS = t % 2 ^ p.N_FIXNUM_TAG_BITS := by
    rw [← hv, lowtag_of, Nat.mod_mod_of_dvd _ hdvd]
  simp [fixnump, hmod, ht]

/-- C9: `coalescible_number_p` is true exactly for an arbitrary-precision
integer, for a ratio or complex-integer object whose two component words are
both immediate small integers, and for the floating-point and
complex-floating-point objects of the build: double, complex-single,
complex-double, and single where single floats are heap objects (not in a
64-bit build, where they are immediate).  It is false for every other type
tag. -/
theorem coalescible_number_p_iff (p : Platform) (h : Heap) (where_ : Nat) :
    (coalescible_number_p p h where_ = true ↔
      (widetag_of p (h where_) = p.BIGNUM_WIDETAG
       ∨ ((widetag_of p (h where_) = p.RATIO_WIDETAG
            ∨ widetag_of p (h where_) = p.COMPLEX_WIDETAG)
          ∧ fixnump p (h (word_at p where_ 1)) = true
          ∧ fixnump p (h (word_at p where_ 2)) = true)
       ∨ (p.feature_64_bit = false ∧ widetag_of p (h where_) = p.SINGLE_FLOAT_WIDETAG)
       ∨ widetag_of p (h where_) = p.DOUBLE_FLOAT_WIDETAG
       ∨ widetag_of p (h where_) = p.COMPLEX_SINGLE_FLOAT_WIDETAG
       ∨ widetag_of p (h where_) = p.COMPLEX_DOUBLE_FLOAT_WIDETAG))
    ∧ (widetag_of p (h where_) ∉ [p.BIGNUM_WIDETAG, p.RATIO_WIDETAG, p.COMPLEX_WIDETAG,
          p.SINGLE_FLOAT_WIDETAG, p.DOUBLE_FLOAT_WIDETAG, p.COMPLEX_SINGLE_FLOAT_WIDETAG,
          p.COMPLEX_DOUBLE_FLOAT_WIDETAG] →
        coalescible_number_p p h where_ = false) := by
  constructor
  · simp only [coalescible_number_p, Bool.or_eq_true, Bool.and_eq_true, beq_iff_eq,
      Bool.not_eq_true']
    tauto
  · intro hw
    simp only [List.mem_cons, List.mem_singleton, List.not_mem_nil, or_false, not_or] at hw
    simp [coalescible_number_p, hw]

/-- The test of `eql_comparable_p` as one Boolean expression. -/
theorem eql_comparable_p_eq (p : Platform) (h : Heap) (v : Nat) :
    eql_comparable_p p h v =
      (fixnump p v || v == p.NIL ||
        (lowtag_of p v == p.OTHER_POINTER_LOWTAG &&
          (widetag_of p (h (native_pointer p v)) == p.BIGNUM_WIDETAG
            || widetag_of p (h (native_pointer p v)) == p.SYMBOL_WIDETAG
            || p.SIMPLE_CHARACTER_STRING_WIDETAG == some (widetag_of p (h (native_pointer p v)))
            || widetag_of p (h (native_pointer p v)) == p.SIMPLE_BASE_STRING_WIDETAG))) := by
  unfold eql_comparable_p
  generalize fixnump p v = a
  generalize (v == p.NIL) = b
  generalize lowtag_of p v = l
  generalize widetag_of p (h (native_pointer p v)) = w
  cases hc : p.SIMPLE_CHARACTER_STRING_WIDETAG with
  | none =>
    by_cases hl : l = p.OTHER_POINTER_LOWTAG
    · subst hl
      cases a <;> cases b <;> simp
    · have : (l == p.OTHER_POINTER_LOWTAG) = false := by simpa using hl
      have h2 : (l != p.OTHER_POINTER_LOWTAG) = true := by simpa using hl
      cases a <;> cases b <;> simp [this, h2]
  | some c =>
    by_cases hl : l = p.OTHER_POINTER_LOWTAG
    · subst hl
      have hcw : (c == w) = (w == c) := by
        rw [Bool.eq_iff_iff]; simp only [beq_iff_eq]; exact eq_comm
      cases a <;> cases b <;> simp [hcw]
    · have : (l == p.OTHER_POINTER_LOWTAG) = false := by simpa using hl
      have h2 : (l != p.OTHER_POINTER_LOWTAG) = true := by simpa using hl
      cases a <;> cases b <;> simp [this, h2]
/-- Two entries of a duplicate-free list at different positions differ. -/
theorem ne_of_nodup_getElem? {l : List Nat} (hl : l.Nodup) (i j : Nat) (a b : Nat)
    (hi : l[i]? = some a) (hj : l[j]? = some b) (hij : i ≠ j) : a ≠ b := by
  intro hab
  subst hab
  obtain ⟨hi1, hi2⟩ := List.getElem?_eq_some.1 hi
  obtain ⟨hj1, hj2⟩ := List.getElem?_eq_some.1 hj
  exact hij ((List.Nodup.getElem_inj_iff hl).1 (hi2.trans hj2.symm))

/-- C10: `eql_comparable_p v` is true exactly when `v` is an immediate small
integer, or is `NIL`, or is a general-object-pointer to an object tagged
bignum, symbol, base string or (where the build has them) character string.
In particular it is false for a pointer to a general vector or a ratio, for a
pointer to a pair and for a pointer to a record. -/
theorem eql_comparable_p_iff (p : Platform) (hp : p.Sane) (h : Heap) (v : Nat) :
    (eql_comparable_p p h v = true ↔
      (fixnump p v = true ∨ v = p.NIL
       ∨ (lowtag_of p v = p.OTHER_POINTER_LOWTAG
          ∧ (widetag_of p (h (native_pointer p v)) = p.BIGNUM_WIDETAG
             ∨ widetag_of p (h (native_pointer p v)) = p.SYMBOL_WIDETAG
             ∨ widetag_of p (h (native_pointer p v)) = p.SIMPLE_BASE_STRING_WIDETAG
             ∨ p.SIMPLE_CHARACTER_STRING_WIDETAG
                 = some (widetag_of p (h (native_pointer p v)))))))
    ∧ (lowtag_of p v = p.OTHER_POINTER_LOWTAG →
        (widetag_of p (h (native_pointer p v)) = p.SIMPLE_VECTOR_WIDETAG
         ∨ widetag_of p (h (native_pointer p v)) = p.RATIO_WIDETAG) →
        eql_comparable_p p h v = false)
    ∧ (lowtag_of p v = p.LIST_POINTER_LOWTAG → v ≠ p.NIL → eql_comparable_p p h v = false)
    ∧ (lowtag_of p v = p.INSTANCE_POINTER_LOWTAG → eql_comparable_p p h v = false) := by
  have hnil : lowtag_of p p.NIL = p.LIST_POINTER_LOWTAG := hp.nil_lowtag
  rw [eql_comparable_p_eq]
  refine ⟨?_, ?_, ?_, ?_⟩
  · simp only [Bool.or_eq_true, Bool.and_eq_true, beq_iff_eq]
    tauto
  · intro hl hw
    have hfix := fixnump_false_of_lowtag p hp.fixnum_bits_le v _ hl hp.other_not_fixnum
    have hne : v ≠ p.NIL := by
      intro he
      rw [he, hnil] at hl
      exact hp.list_ne_other hl
    have hnd := hp.widetags_nodup
    have hne2 : (v == p.NIL) = false := by simpa using hne
    have hw1 : widetag_of p (h (native_pointer p v)) ≠ p.BIGNUM_WIDETAG := by
      rcases hw with hw | hw <;> rw [hw]
      · exact ne_of_nodup_getElem? hnd 9 0 _ _ (by simp [widetags]) (by simp [widetags])
          (by decide)
      · exact ne_of_nodup_getElem? hnd 1 0 _ _ (by simp [widetags]) (by simp [widetags])
          (by decide)
    have hw2 : widetag_of p (h (native_pointer p v)) ≠ p.SYMBOL_WIDETAG := by
      rcases hw with hw | hw <;> rw [hw]
      · exact ne_of_nodup_getElem? hnd 9 7 _ _ (by simp [widetags]) (by simp [widetags])
          (by decide)
      · exact ne_of_nodup_getElem? hnd 1 7 _ _ (by simp [widetags]) (by simp [widetags])
          (by decide)
    have hw3 : widetag_of p (h (native_pointer p v)) ≠ p.SIMPLE_BASE_STRING_WIDETAG := by
      rcases hw with hw | hw <;> rw [hw]
      · exact ne_of_nodup_getElem? hnd 9 8 _ _ (by simp [widetags]) (by simp [widetags])
          (by decide)
      · exact ne_of_nodup_getElem? hnd 1 8 _ _ (by simp [widetags]) (by simp [widetags])
          (by decide)
    have hw4 : p.SIMPLE_CHARACTER_STRING_WIDETAG
        ≠ some (widetag_of p (h (native_pointer p v))) := by
      intro hc
      rcases hw with hw | hw <;> rw [hw] at hc
      · exact ne_of_nodup_getElem? hnd 9 10 p.SIMPLE_VECTOR_WIDETAG p.SIMPLE_VECTOR_WIDETAG
          (by simp [widetags]) (by simp [widetags, hc]) (by decide) rfl
      · exact ne_of_nodup_getElem? hnd 1 10 p.RATIO_WIDETAG p.RATIO_WIDETAG
          (by simp [widetags]) (by simp [widetags, hc]) (by decide) rfl
    simp [hfix, hne2, hw1, hw2, hw3, hw4]
  · intro hl hne
    have hfix := fixnump_false_of_lowtag p hp.fixnum_bits_le v _ hl hp.list_not_fixnum
    have h3 : (lowtag_of p v == p.OTHER_POINTER_LOWTAG) = false := by
      rw [hl]; simpa using hp.list_ne_other
    have hne2 : (v == p.NIL) = false := by simpa using hne
    rw [hfix, hne2, h3]; rfl
  · intro hl
    have hfix := fixnump_false_of_lowtag p hp.fixnum_bits_le v _ hl hp.instance_not_fixnum
    have h3 : (lowtag_of p v == p.OTHER_POINTER_LOWTAG) = false := by
      rw [hl]; simpa using hp.instance_ne_other
    have hne : v ≠ p.NIL := by
      intro he
      rw [he, hnil] at hl
      exact hp.instance_ne_list hl.symm
    have hne2 : (v == p.NIL) = false := by simpa using hne
    rw [hfix, hne2, h3]; rfl

/-- Witness of C10 on the example platform: the word `0x810F`, a pointer to
the general vector at `0x8100`, is not eql-comparable. -/
theorem eql_comparable_p_iff_witness :
    example_platform.Sane ∧ eql_comparable_p example_platform heap_vectors 0x810F = false :=
  ⟨example_platform_sane,
   (eql_comparable_p_iff example_platform example_platform_sane heap_vectors 0x810F).2.1
     (by decide) (Or.inl (by decide))⟩

/-- Shifting distributes over bitwise or. -/
theorem shiftLeft_or (a b n : Nat) : (a ||| b) <<< n = a <<< n ||| b <<< n := by
  apply Nat.eq_of_testBit_eq
  intro i
  simp only [Nat.testBit_shiftLeft, Nat.testBit_or]
  cases decide (i ≥ n) <;> simp

/-- A bitwise or is zero when both sides are. -/
theorem or_eq_zero (a b : Nat) : a ||| b = 0 ↔ a = 0 ∧ b = 0 := by
  constructor
  · intro h
    constructor
    · apply Nat.eq_of_testBit_eq
      intro i
      have := congrArg (fun x => Nat.testBit x i) h
      simp only [Nat.testBit_or, Nat.zero_testBit, Bool.or_eq_false_iff] at this
      simp [this.1]
    · apply Nat.eq_of_testBit_eq
      intro i
      have := congrArg (fun x => Nat.testBit x i) h
      simp only [Nat.testBit_or, Nat.zero_testBit, Bool.or_eq_false_iff] at this
      simp [this.2]
  · rintro ⟨rfl, rfl⟩; rfl

/-- The mask test of `coalesce_obj` selects the standard shareable flag at
every level and the non-standard flag at the levels above 1. -/
theorem mask_test_iff (p : Platform) (level : Int) (header : Nat) :
    (header &&& shareable_mask p level != 0) = true ↔
      (header &&& (p.VECTOR_SHAREABLE <<< p.N_WIDETAG_BITS) ≠ 0
       ∨ (level > 1 ∧ header &&& (p.VECTOR_SHAREABLE_NONSTD <<< p.N_WIDETAG_BITS) ≠ 0)) := by
  unfold shareable_mask
  by_cases hl : level > 1
  · simp only [hl, if_true, bne_iff_ne, ne_eq, true_and]
    rw [shiftLeft_or, Nat.and_or_distrib_left, or_eq_zero]
    tauto
  · simp [hl]

/-- Conversion to `int` keeps the values in range. -/
theorem to_int_eq (x : Int) (h1 : -2 ^ 31 ≤ x) (h2 : x < 2 ^ 31) : to_int x = x := by
  unfold to_int
  norm_num at h1 h2 ⊢
  omega

/-- The loop of `vector_isevery` tests the elements below its start. -/
theorem vector_isevery_loop_iff (p : Platform) (pred : Nat → Bool) (h : Heap) (v k : Nat) :
    vector_isevery_loop p pred h v k = true ↔
      ∀ i, i < k → pred (h (word_at p v (2 + i))) = true := by
  induction k with
  | zero => simp [vector_isevery_loop]
  | succ k ih =>
    unfold vector_isevery_loop
    by_cases hk : pred (h (word_at p v (2 + k))) = true
    · simp only [hk, Bool.not_true, Bool.false_eq_true, if_false, ih]
      constructor
      · intro hall i hi
        rcases Nat.lt_succ_iff_lt_or_eq.1 hi with h1 | h1
        · exact hall i h1
        · rw [h1]; exact hk
      · intro hall i hi
        exact hall i (Nat.lt_succ_of_lt hi)
    · have hk' : pred (h (word_at p v (2 + k))) = false := by simpa using hk
      simp only [hk', Bool.not_false, if_true, Bool.false_eq_true, false_iff]
      intro hall
      have := hall k (Nat.lt_succ_self k)
      rw [hk'] at this
      exact Bool.false_ne_true this

/-- When the length of the vector fits the C type `int`, `vector_isevery`
tests every element. -/
theorem vector_isevery_iff (p : Platform) (pred : Nat → Bool) (h : Heap) (v : Nat)
    (h1 : -2 ^ 31 < fixnum_value p (h (word_at p v 1)))
    (h2 : fixnum_value p (h (word_at p v 1)) ≤ 2 ^ 31) :
    vector_isevery p pred h v = true ↔
      ∀ i, i < (fixnum_value p (h (word_at p v 1))).toNat →
        pred (h (word_at p v (2 + i))) = true := by
  unfold vector_isevery
  simp only
  rw [to_int_eq _ (by omega) (by omega), vector_isevery_loop_iff]
  simp
/-- The vector branch of the test of `coalesce_obj`, for a level of at least 1
and a vector whose length fits the C type `int`: it is true exactly when the
header has the standard shareable flag (level 1) or the standard or the
non-standard one (level 2 and above), and the object is a general vector all
of whose elements are eql-comparable, or has a specialized vector widetag. -/
theorem coalesce_obj_vector_test_iff (p : Platform) (level : Int) (h : Heap) (obj : Nat)
    (hlevel : 1 ≤ level)
    (h1 : -2 ^ 31 < fixnum_value p (h (word_at p obj 1)))
    (h2 : fixnum_value p (h (word_at p obj 1)) ≤ 2 ^ 31) :
    coalesce_obj_vector_test p level h obj = true ↔
      (((level = 1 ∧ h obj &&& (p.VECTOR_SHAREABLE <<< p.N_WIDETAG_BITS) ≠ 0)
        ∨ (2 ≤ level ∧ (h obj &&& (p.VECTOR_SHAREABLE <<< p.N_WIDETAG_BITS) ≠ 0
            ∨ h obj &&& (p.VECTOR_SHAREABLE_NONSTD <<< p.N_WIDETAG_BITS) ≠ 0)))
       ∧ ((widetag_of p (h obj) = p.SIMPLE_VECTOR_WIDETAG
            ∧ ∀ i, i < (fixnum_value p (h (word_at p obj 1))).toNat →
                eql_comparable_p p h (h (word_at p obj (2 + i))) = true)
          ∨ p.specialized_vector_widetag_p (widetag_of p (h obj)) = true)) := by
  unfold coalesce_obj_vector_test
  simp only [Bool.and_eq_true, Bool.or_eq_true, beq_iff_eq, mask_test_iff,
    vector_isevery_iff p _ h obj h1 h2]
  have hl : level = 1 ∨ 2 ≤ level := by omega
  constructor
  · rintro ⟨hf, hv⟩
    refine ⟨?_, hv⟩
    rcases hl with hl | hl
    · rcases hf with hf | ⟨hgt, -⟩
      · exact Or.inl ⟨hl, hf⟩
      · omega
    · rcases hf with hf | ⟨-, hf⟩
      · exact Or.inr ⟨hl, Or.inl hf⟩
      · exact Or.inr ⟨hl, Or.inr hf⟩
  · rintro ⟨hf, hv⟩
    refine ⟨?_, hv⟩
    rcases hf with ⟨-, hf⟩ | ⟨hge, hf | hf⟩
    · exact Or.inl hf
    · exact Or.inl hf
    · exact Or.inr ⟨by omega, hf⟩

/-- C8, at a vector longer than a C `int` counts: on the example platform the
general vector of `heap_huge_vector` has `2^31 + 1` elements and a first
element that is not eql-comparable, and the vector branch of the test of
`coalesce_obj` is true all the same.  The index `int i` of `vector_isevery`
starts at `-2^31`, so that no element is tested. -/
theorem coalesce_obj_vector_test_huge_vector :
    widetag_of example_platform (heap_huge_vector 0x8100)
        = example_platform.SIMPLE_VECTOR_WIDETAG
    ∧ example_platform.specialized_vector_widetag_p
        (widetag_of example_platform (heap_huge_vector 0x8100)) = false
    ∧ fixnum_value example_platform (heap_huge_vector (word_at example_platform 0x8100 1))
        = 2 ^ 31 + 1
    ∧ eql_comparable_p example_platform heap_huge_vector
        (heap_huge_vector (word_at example_platform 0x8100 2)) = false
    ∧ to_int (fixnum_value example_platform
        (heap_huge_vector (word_at example_platform 0x8100 1)) - 1) = -2 ^ 31
    ∧ coalesce_obj_vector_test example_platform 1 heap_huge_vector 0x8100 = true := by
  decide

/-- The address `native_pointer` gives has no lowtag. -/
theorem lowtag_of_native_pointer (p : Platform) (x : Nat) :
    lowtag_of p (native_pointer p x) = 0 := by
  unfold lowtag_of native_pointer
  exact Nat.sub_mod_eq_zero_of_mod_eq (Nat.mod_mod _ _).symm

/-- On an address without lowtag, `make_lispobj` adds the lowtag. -/
theorem make_lispobj_eq_add (p : Platform) (k t : Nat) (hk : lowtag_of p k = 0)
    (ht : t < 2 ^ p.N_LOWTAG_BITS) : make_lispobj k t = k + t := by
  unfold lowtag_of at hk
  unfold make_lispobj
  obtain ⟨c, hc⟩ := Nat.dvd_of_mod_eq_zero hk
  rw [hc, Nat.mul_add_lt_is_or ht]

/-- The lowtag of a word made by `make_lispobj` is the lowtag given. -/
theorem lowtag_of_make_lispobj (p : Platform) (k t : Nat) (hk : lowtag_of p k = 0)
    (ht : t < 2 ^ p.N_LOWTAG_BITS) : lowtag_of p (make_lispobj k t) = t := by
  rw [make_lispobj_eq_add p k t hk ht]
  unfold lowtag_of at hk ⊢
  rw [Nat.add_mod, hk, Nat.zero_add, Nat.mod_mod, Nat.mod_eq_of_lt ht]

/-- A tagged pointer is rebuilt from its address and its lowtag. -/
theorem make_lispobj_native_pointer (p : Platform) (x : Nat) :
    make_lispobj (native_pointer p x) (lowtag_of p x) = x := by
  have hlt : lowtag_of p x < 2 ^ p.N_LOWTAG_BITS := Nat.mod_lt _ (Nat.two_pow_pos _)
  rw [make_lispobj_eq_add p _ _ (lowtag_of_native_pointer p x) hlt]
  unfold native_pointer lowtag_of
  exact Nat.sub_add_cancel (Nat.mod_le _ _)

/-- The address of a pointer made by `make_lispobj`. -/
theorem native_pointer_make_lispobj (p : Platform) (k t : Nat) (hk : lowtag_of p k = 0)
    (ht : t < 2 ^ p.N_LOWTAG_BITS) : native_pointer p (make_lispobj k t) = k := by
  have h1 := lowtag_of_make_lispobj p k t hk ht
  unfold native_pointer
  unfold lowtag_of at h1
  rw [h1, make_lispobj_eq_add p k t hk ht]
  omega

/-- The probe fails exactly when no key is accepted. -/
theorem probe_eq_zero_iff (f : Nat → Bool) (ks : List Nat) (i : Nat) :
    probe f ks i = 0 ↔ ∀ k ∈ ks, f k = false := by
  induction ks generalizing i with
  | nil => simp [probe]
  | cons k ks ih =>
    unfold probe
    by_cases hk : f k = true
    · simp [hk]
    · have hk' : f k = false := by simpa using hk
      simp [hk', ih]

/-- A successful probe returns the position, plus one, of the first accepted
key. -/
theorem probe_pos (f : Nat → Bool) (ks : List Nat) (i : Nat) (h : probe f ks i ≠ 0) :
    i < probe f ks i ∧ probe f ks i - 1 - i < ks.length
      ∧ f (ks.getD (probe f ks i - 1 - i) 0) = true
      ∧ ∀ j, j < probe f ks i - 1 - i → f (ks.getD j 0) = false := by
  induction ks generalizing i with
  | nil => simp [probe] at h
  | cons k ks ih =>
    unfold probe at h ⊢
    by_cases hk : f k = true
    · simp [hk]
    · have hk' : f k = false := by simpa using hk
      simp only [hk', Bool.false_eq_true, if_false] at h ⊢
      obtain ⟨h1, h2, h3, h4⟩ := ih (i + 1) h
      have e : probe f ks (i + 1) - 1 - i = (probe f ks (i + 1) - 1 - (i + 1)) + 1 := by omega
      refine ⟨by omega, ?_, ?_, ?_⟩
      · rw [e]; simp only [List.length_cons]; omega
      · rw [e]; simpa using h3
      · intro j hj
        cases j with
        | zero => simpa using hk'
        | succ j =>
          simp only [List.getD_cons_succ]
          exact h4 j (by omega)

/-- The key a successful lookup returns is a key of the table, matches the
object looked up, and is the first to do so. -/
theorem hopscotch_get_pos (p : Platform) (h : Heap) (ht : hopscotch_table) (key : Nat)
    (hg : hopscotch_get p h ht key ≠ 0) :
    ht.keys.getD (hopscotch_get p h ht key - 1) 0 ∈ ht.keys
      ∧ vector_eql p h (ht.keys.getD (hopscotch_get p h ht key - 1) 0) key = true
      ∧ ∀ j, j < hopscotch_get p h ht key - 1 →
          vector_eql p h (ht.keys.getD j 0) key = false := by
  obtain ⟨-, h2, h3, h4⟩ := probe_pos _ ht.keys 0 hg
  simp only [Nat.sub_zero] at h2 h3 h4
  refine ⟨?_, h3, h4⟩
  unfold hopscotch_get
  rw [List.getD_eq_getElem _ _ h2]
  exact List.getElem_mem _

/-- Probing a list with more keys at its end. -/
theorem probe_append (f : Nat → Bool) (ks ls : List Nat) (i : Nat) :
    probe f (ks ++ ls) i =
      if probe f ks i ≠ 0 then probe f ks i else probe f ls (i + ks.length) := by
  induction ks generalizing i with
  | nil => simp [probe]
  | cons k ks ih =>
    simp only [List.cons_append, probe]
    by_cases hk : f k = true
    · simp [hk]
    · have hk' : f k = false := by simpa using hk
      simp only [hk', Bool.false_eq_true, if_false, List.length_cons]
      have e : i + (ks.length + 1) = i + 1 + ks.length := by omega
      rw [e]
      exact ih (i + 1)

/-- One unfolding of `coalesce_obj`. -/
theorem coalesce_obj_succ (p : Platform) (level : Int) (fuel where_ : Nat) (h : Heap)
    (ht : hopscotch_table) :
    coalesce_obj p level (fuel + 1) where_ h ht =
      if lowtag_of p (h where_) ≠ p.OTHER_POINTER_LOWTAG then .done h ht
      else if coalesce_obj_test p level h (native_pointer p (h where_)) then
        match coalesce_obj_children p (coalesce_obj p level fuel)
            (native_pointer p (h where_)) h ht with
        | .done h1 ht1 => coalesce_obj_intern p where_ (native_pointer p (h where_)) h1 ht1
        | r => r
      else .done h ht := rfl

/-- An invariant of `call` is an invariant of the element loop. -/
theorem coalesce_obj_elts_preserves (p : Platform) (call : Nat → Heap → hopscotch_table → Res)
    (Inv : Heap → hopscotch_table → Prop)
    (hcall : ∀ where_ h ht h1 ht1, Inv h ht → call where_ h ht = .done h1 ht1 → Inv h1 ht1)
    (obj : Nat) (is : List Nat) :
    ∀ h ht h1 ht1, Inv h ht → coalesce_obj_elts p call obj is h ht = .done h1 ht1 →
      Inv h1 ht1 := by
  induction is with
  | nil =>
    intro h ht h1 ht1 hinv hres
    simp only [coalesce_obj_elts, Res.done.injEq] at hres
    rw [← hres.1, ← hres.2]; exact hinv
  | cons i is ih =>
    intro h ht h1 ht1 hinv hres
    simp only [coalesce_obj_elts] at hres
    cases hc : call (word_at p obj i) h ht with
    | done h2 ht2 =>
      rw [hc] at hres
      exact ih h2 ht2 h1 ht1 (hcall _ h ht h2 ht2 hinv hc) hres
    | lost => rw [hc] at hres; cases hres
    | out_of_fuel => rw [hc] at hres; cases hres

/-- An invariant of the element visit, given one of `call`. -/
theorem coalesce_obj_children_preserves (p : Platform)
    (call : Nat → Heap → hopscotch_table → Res) (Inv : Heap → hopscotch_table → Prop)
    (hcall : ∀ where_ h ht h1 ht1, Inv h ht → call where_ h ht = .done h1 ht1 → Inv h1 ht1)
    (obj : Nat) (h : Heap) (ht : hopscotch_table) (h1 : Heap) (ht1 : hopscotch_table)
    (hinv : Inv h ht) (hres : coalesce_obj_children p call obj h ht = .done h1 ht1) :
    Inv h1 ht1 := by
  unfold coalesce_obj_children at hres
  split at hres
  · exact coalesce_obj_elts_preserves p call Inv hcall _ _ h ht h1 ht1 hinv hres
  · simp only [Res.done.injEq] at hres
    rw [← hres.1, ← hres.2]; exact hinv

/-- The anatomy of a completed call: either the slot does not hold a
general-object-pointer to an eligible object and nothing changes, or the
elements were visited and then the object was looked up. -/
theorem coalesce_obj_done (p : Platform) (level : Int) (fuel where_ : Nat) (h : Heap)
    (ht : hopscotch_table) (h1 : Heap) (ht1 : hopscotch_table)
    (hres : coalesce_obj p level fuel where_ h ht = .done h1 ht1) :
    ((lowtag_of p (h where_) ≠ p.OTHER_POINTER_LOWTAG
        ∨ coalesce_obj_test p level h (native_pointer p (h where_)) = false)
      ∧ h1 = h ∧ ht1 = ht)
    ∨ (lowtag_of p (h where_) = p.OTHER_POINTER_LOWTAG
        ∧ coalesce_obj_test p level h (native_pointer p (h where_)) = true
        ∧ ∃ fuel' h2 ht2, fuel = fuel' + 1
          ∧ coalesce_obj_children p (coalesce_obj p level fuel')
              (native_pointer p (h where_)) h ht = .done h2 ht2
          ∧ coalesce_obj_intern p where_ (native_pointer p (h where_)) h2 ht2
              = .done h1 ht1) := by
  cases fuel with
  | zero => simp [coalesce_obj] at hres
  | succ fuel =>
    rw [coalesce_obj_succ] at hres
    split at hres
    · rename_i hl
      simp only [Res.done.injEq] at hres
      exact Or.inl ⟨Or.inl hl, hres.1.symm, hres.2.symm⟩
    · rename_i hl
      split at hres
      · rename_i ht'
        right
        refine ⟨not_not.1 hl, ht', fuel, ?_⟩
        cases hc : coalesce_obj_children p (coalesce_obj p level fuel)
            (native_pointer p (h where_)) h ht with
        | done h2 ht2 =>
          rw [hc] at hres
          exact ⟨h2, ht2, rfl, rfl, hres⟩
        | lost => rw [hc] at hres; cases hres
        | out_of_fuel => rw [hc] at hres; cases hres
      · rename_i ht'
        simp only [Res.done.injEq] at hres
        exact Or.inl ⟨Or.inr (by simpa using ht'), hres.1.symm, hres.2.symm⟩

/-- An invariant of the lookup-insert-or-rewrite step of `coalesce_obj` is an
invariant of every completed call.  The step may use that the slot held a
general-object-pointer to an eligible object when the call was entered, in a
state that satisfied the invariant. -/
theorem coalesce_obj_preserves (p : Platform) (level : Int)
    (Inv : Heap → hopscotch_table → Prop)
    (hstep : ∀ where_ h0 ht0 h ht h1 ht1,
      lowtag_of p (h0 where_) = p.OTHER_POINTER_LOWTAG →
      coalesce_obj_test p level h0 (native_pointer p (h0 where_)) = true →
      Inv h0 ht0 → Inv h ht →
      coalesce_obj_intern p where_ (native_pointer p (h0 where_)) h ht = .done h1 ht1 →
      Inv h1 ht1) :
    ∀ fuel where_ h ht h1 ht1, Inv h ht →
      coalesce_obj p level fuel where_ h ht = .done h1 ht1 → Inv h1 ht1 := by
  intro fuel
  induction fuel with
  | zero =>
    intro where_ h ht h1 ht1 _ hres
    simp [coalesce_obj] at hres
  | succ fuel ih =>
    intro where_ h ht h1 ht1 hinv hres
    rcases coalesce_obj_done p level _ where_ h ht h1 ht1 hres with
      ⟨-, e1, e2⟩ | ⟨hl, ht', fuel', h2, ht2, hf, hc, hi⟩
    · rw [e1, e2]; exact hinv
    · have hf' : fuel' = fuel := by omega
      subst hf'
      have hinv2 : Inv h2 ht2 :=
        coalesce_obj_children_preserves p _ Inv ih _ h ht h2 ht2 hinv hc
      exact hstep where_ h ht h2 ht2 h1 ht1 hl ht' hinv hinv2 hi

/-- The two ways the lookup-insert-or-rewrite step completes. -/
theorem coalesce_obj_intern_done (p : Platform) (where_ obj : Nat) (h : Heap)
    (ht : hopscotch_table) (h1 : Heap) (ht1 : hopscotch_table)
    (hres : coalesce_obj_intern p where_ obj h ht = .done h1 ht1) :
    (hopscotch_get p h ht obj = 0 ∧ h1 = h ∧ ht1 = hopscotch_insert ht obj)
    ∨ (hopscotch_get p h ht obj ≠ 0
        ∧ ¬ (where_ ≥ p.READ_ONLY_SPACE_START ∧ where_ < p.READ_ONLY_SPACE_END ∧
              gcable_pointer_p p (make_lispobj (ht.keys.getD (hopscotch_get p h ht obj - 1) 0)
                p.OTHER_POINTER_LOWTAG) = true)
        ∧ h1 = write h where_ (make_lispobj (ht.keys.getD (hopscotch_get p h ht obj - 1) 0)
                p.OTHER_POINTER_LOWTAG)
        ∧ ht1 = ht) := by
  unfold coalesce_obj_intern at hres
  simp only at hres
  split at hres
  · rename_i h0
    simp only [Res.done.injEq] at hres
    exact Or.inl ⟨h0, hres.1.symm, hres.2.symm⟩
  · rename_i h0
    split at hres
    · cases hres
    · rename_i hg
      simp only [Res.done.injEq] at hres
      exact Or.inr ⟨h0, hg, hres.1.symm, hres.2.symm⟩

/-- Reading the word just stored. -/
theorem write_same (h : Heap) (a v : Nat) : write h a v a = v := by
  simp [write]

/-- Reading another word than the one stored. -/
theorem write_other (h : Heap) (a v x : Nat) (hx : x ≠ a) : write h a v x = h x := by
  simp [write, hx]

/-- C2: a completed call of `coalesce_obj`, on a table whose keys are object
addresses (no lowtag bits, as every key the pass inserts), leaves the lowtag of
every heap word as it was, the word of the slot included: a word that
changed held a general-object-pointer before and holds one after.  The keys
of the table are object addresses afterwards too. -/
theorem coalesce_obj_lowtag (p : Platform) (level : Int)
    (hlt : p.OTHER_POINTER_LOWTAG < 2 ^ p.N_LOWTAG_BITS)
    (fuel where_ : Nat) (h : Heap) (ht : hopscotch_table) (h1 : Heap) (ht1 : hopscotch_table)
    (hkeys : ∀ k ∈ ht.keys, lowtag_of p k = 0)
    (hres : coalesce_obj p level fuel where_ h ht = .done h1 ht1) :
    (∀ a, lowtag_of p (h1 a) = lowtag_of p (h a))
    ∧ (∀ a, h1 a ≠ h a → lowtag_of p (h a) = p.OTHER_POINTER_LOWTAG
          ∧ lowtag_of p (h1 a) = p.OTHER_POINTER_LOWTAG)
    ∧ (∀ k ∈ ht1.keys, lowtag_of p k = 0) := by
  have key := coalesce_obj_preserves p level
    (fun h' ht' => (∀ a, lowtag_of p (h' a) = lowtag_of p (h a))
      ∧ (∀ a, h' a ≠ h a → lowtag_of p (h a) = p.OTHER_POINTER_LOWTAG)
      ∧ (∀ k ∈ ht'.keys, lowtag_of p k = 0))
    (by
      intro w h0 ht0 h2 ht2 h3 ht3 hl _ hinv0 hinv hi
      obtain ⟨i1, i2, i3⟩ := hinv
      have hw : lowtag_of p (h w) = p.OTHER_POINTER_LOWTAG := by rw [← hinv0.1 w]; exact hl
      rcases coalesce_obj_intern_done p _ _ h2 ht2 h3 ht3 hi with
        ⟨-, e1, e2⟩ | ⟨hg, -, e1, e2⟩
      · rw [e1, e2]
        refine ⟨i1, i2, ?_⟩
        intro k hk
        simp only [hopscotch_insert, List.mem_append, List.mem_singleton] at hk
        rcases hk with hk | hk
        · exact i3 k hk
        · rw [hk]; exact lowtag_of_native_pointer p _
      · rw [e1, e2]
        have hmem := (hopscotch_get_pos p h2 ht2 _ hg).1
        have hptr := lowtag_of_make_lispobj p _ _ (i3 _ hmem) hlt
        refine ⟨?_, ?_, i3⟩
        · intro a
          by_cases ha : a = w
          · subst ha; rw [write_same, hptr, hw]
          · rw [write_other _ _ _ _ ha]; exact i1 a
        · intro a hne
          by_cases ha : a = w
          · subst ha; exact hw
          · rw [write_other _ _ _ _ ha] at hne; exact i2 a hne)
    fuel where_ h ht h1 ht1 ⟨fun _ => rfl, fun _ hne => absurd rfl hne, hkeys⟩ hres
  obtain ⟨k1, k2, k3⟩ := key
  refine ⟨k1, ?_, k3⟩
  intro a hne
  have := k2 a hne
  exact ⟨this, by rw [k1 a]; exact this⟩

/-- Witness of C2: on the example platform, with the bignum at `0x8020` in
the table, the call on the slot `0x3008` of `heap_bignums` rewrites the slot
to `0x802F`. -/
theorem coalesce_obj_lowtag_witness :
    (∀ a, lowtag_of example_platform (write heap_bignums 0x3008 0x802F a)
        = lowtag_of example_platform (heap_bignums a))
    ∧ (∀ a, write heap_bignums 0x3008 0x802F a ≠ heap_bignums a →
        lowtag_of example_platform (heap_bignums a) = example_platform.OTHER_POINTER_LOWTAG
        ∧ lowtag_of example_platform (write heap_bignums 0x3008 0x802F a)
            = example_platform.OTHER_POINTER_LOWTAG)
    ∧ (∀ k ∈ (⟨[0x8020]⟩ : hopscotch_table).keys, lowtag_of example_platform k = 0) :=
  coalesce_obj_lowtag example_platform 1 (by decide) 1 0x3008 heap_bignums ⟨[0x8020]⟩
    (write heap_bignums 0x3008 0x802F) ⟨[0x8020]⟩ (by decide) rfl

/-- C5, as stated, fails for numbers: on the example platform the bignums of
`heap_bignums` have no shareable flag in their header, and yet the call on
the slot `0x3000`, with an empty table, inserts the address `0x8020` of the
bignum it references, and the call on the slot `0x3008` then rewrites that
slot from `0x800F` to `0x802F`. -/
theorem coalesce_obj_unflagged_bignum :
    heap_bignums 0x8020 &&& shareable_mask example_platform 2 = 0
    ∧ native_pointer example_platform (heap_bignums 0x3000) = 0x8020
    ∧ (coalesce_obj example_platform 2 1 0x3000 heap_bignums hopscotch_create).table_keys
        = some [0x8020]
    ∧ heap_bignums 0x8000 &&& shareable_mask example_platform 2 = 0
    ∧ native_pointer example_platform (heap_bignums 0x3008) = 0x8000
    ∧ heap_bignums 0x3008 = 0x800F
    ∧ (coalesce_obj example_platform 2 1 0x3008 heap_bignums ⟨[0x8020]⟩).word 0x3008
        = some 0x802F := by
  decide

/-- C5, amended: when the header of the object a slot references has none of
the shareable flag bits the level selects, and the object is not a coalescible
number, `coalesce_obj` returns with the heap and the table unchanged,
whatever the type tag of the object. -/
theorem coalesce_obj_unflagged (p : Platform) (level : Int) (fuel where_ : Nat) (h : Heap)
    (ht : hopscotch_table)
    (hflag : h (native_pointer p (h where_)) &&& shareable_mask p level = 0)
    (hnum : coalescible_number_p p h (native_pointer p (h where_)) = false) :
    coalesce_obj p level (fuel + 1) where_ h ht = .done h ht := by
  rw [coalesce_obj_succ]
  have ht' : coalesce_obj_test p level h (native_pointer p (h where_)) = false := by
    simp [coalesce_obj_test, coalesce_obj_vector_test, hflag, hnum]
  simp [ht']

/-- Witness of the amended C5: the string at `0x8280` of `heap_vectors` has no
shareable flag, and the call on the slot `0x3010` that references it changes
nothing, although the table holds the content-equal string at `0x8200`. -/
theorem coalesce_obj_unflagged_witness :
    coalesce_obj example_platform 2 1 0x3010 heap_vectors ⟨[0x8200]⟩
      = .done heap_vectors ⟨[0x8200]⟩ :=
  coalesce_obj_unflagged example_platform 2 0 0x3010 heap_vectors ⟨[0x8200]⟩
    (by decide) (by decide)

/-- C6: a ratio or complex-integer object with a component word that is not
an immediate small integer is not a coalescible number, and `coalesce_obj` on
a slot that references it returns with the heap and the table unchanged, at
every level, whatever the table holds and whatever bits are set in the
header above the widetag. -/
theorem coalesce_obj_ratio_with_pointer (p : Platform) (hp : p.Sane) (h : Heap) (obj : Nat)
    (hw : widetag_of p (h obj) = p.RATIO_WIDETAG ∨ widetag_of p (h obj) = p.COMPLEX_WIDETAG)
    (hc : ¬ (fixnump p (h (word_at p obj 1)) = true ∧ fixnump p (h (word_at p obj 2)) = true)) :
    coalescible_number_p p h obj = false
    ∧ ∀ (level : Int) (fuel where_ : Nat) (ht : hopscotch_table),
        native_pointer p (h where_) = obj →
        coalesce_obj p level (fuel + 1) where_ h ht = .done h ht := by
  have hnd := hp.widetags_nodup
  have hfix : (fixnump p (h (word_at p obj 1)) && fixnump p (h (word_at p obj 2))) = false := by
    rw [Bool.and_eq_false_iff]
    by_cases h1 : fixnump p (h (word_at p obj 1)) = true
    · right
      by_cases h2 : fixnump p (h (word_at p obj 2)) = true
      · exact absurd ⟨h1, h2⟩ hc
      · simpa using h2
    · left; simpa using h1
  have hnum : coalescible_number_p p h obj = false := by
    unfold coalescible_number_p
    simp only [Bool.and_assoc, hfix, Bool.and_false, Bool.or_false]
    rcases hw with hw | hw <;> rw [hw]
    · have n0 := ne_of_nodup_getElem? hnd 1 0 p.RATIO_WIDETAG p.BIGNUM_WIDETAG
        (by simp [widetags]) (by simp [widetags]) (by decide)
      have n3 := ne_of_nodup_getElem? hnd 1 3 p.RATIO_WIDETAG p.SINGLE_FLOAT_WIDETAG
        (by simp [widetags]) (by simp [widetags]) (by decide)
      have n4 := ne_of_nodup_getElem? hnd 1 4 p.RATIO_WIDETAG p.DOUBLE_FLOAT_WIDETAG
        (by simp [widetags]) (by simp [widetags]) (by decide)
      have n5 := ne_of_nodup_getElem? hnd 1 5 p.RATIO_WIDETAG p.COMPLEX_SINGLE_FLOAT_WIDETAG
        (by simp [widetags]) (by simp [widetags]) (by decide)
      have n6 := ne_of_nodup_getElem? hnd 1 6 p.RATIO_WIDETAG p.COMPLEX_DOUBLE_FLOAT_WIDETAG
        (by simp [widetags]) (by simp [widetags]) (by decide)
      simp [n0, n3, n4, n5, n6]
    · have n0 := ne_of_nodup_getElem? hnd 2 0 p.COMPLEX_WIDETAG p.BIGNUM_WIDETAG
        (by simp [widetags]) (by simp [widetags]) (by decide)
      have n3 := ne_of_nodup_getElem? hnd 2 3 p.COMPLEX_WIDETAG p.SINGLE_FLOAT_WIDETAG
        (by simp [widetags]) (by simp [widetags]) (by decide)
      have n4 := ne_of_nodup_getElem? hnd 2 4 p.COMPLEX_WIDETAG p.DOUBLE_FLOAT_WIDETAG
        (by simp [widetags]) (by simp [widetags]) (by decide)
      have n5 := ne_of_nodup_getElem? hnd 2 5 p.COMPLEX_WIDETAG p.COMPLEX_SINGLE_FLOAT_WIDETAG
        (by simp [widetags]) (by simp [widetags]) (by decide)
      have n6 := ne_of_nodup_getElem? hnd 2 6 p.COMPLEX_WIDETAG p.COMPLEX_DOUBLE_FLOAT_WIDETAG
        (by simp [widetags]) (by simp [widetags]) (by decide)
      simp [n0, n3, n4, n5, n6]
  refine ⟨hnum, ?_⟩
  intro level fuel where_ ht hobj
  have hvec : coalesce_obj_vector_test p level h obj = false := by
    unfold coalesce_obj_vector_test
    have hsv : widetag_of p (h obj) ≠ p.SIMPLE_VECTOR_WIDETAG := by
      rcases hw with hw | hw <;> rw [hw]
      · exact ne_of_nodup_getElem? hnd 1 9 p.RATIO_WIDETAG p.SIMPLE_VECTOR_WIDETAG
          (by simp [widetags]) (by simp [widetags]) (by decide)
      · exact ne_of_nodup_getElem? hnd 2 9 p.COMPLEX_WIDETAG p.SIMPLE_VECTOR_WIDETAG
          (by simp [widetags]) (by simp [widetags]) (by decide)
    have hsp : p.specialized_vector_widetag_p (widetag_of p (h obj)) = false := by
      rcases hw with hw | hw <;> rw [hw]
      · exact hp.not_specialized _ (by simp)
      · exact hp.not_specialized _ (by simp)
    simp [hsv, hsp]
  rw [coalesce_obj_succ, hobj]
  simp [coalesce_obj_test, hvec, hnum]

/-- Witness of C6: the ratio at `0x8300` of `heap_ratios` has a pointer to a
bignum as numerator; the call on the slot `0x3000` changes nothing although
the table holds the identical ratio at `0x8320`. -/
theorem coalesce_obj_ratio_with_pointer_witness :
    example_platform.Sane
    ∧ coalescible_number_p example_platform heap_ratios 0x8300 = false
    ∧ coalesce_obj example_platform 2 1 0x3000 heap_ratios ⟨[0x8320]⟩
        = .done heap_ratios ⟨[0x8320]⟩ :=
  have w := coalesce_obj_ratio_with_pointer example_platform example_platform_sane heap_ratios
    0x8300 (Or.inl (by decide)) (by decide)
  ⟨example_platform_sane, w.1, w.2 2 0 0x3000 ⟨[0x8320]⟩ (by decide)⟩

/-- C4: the fatal abort at a slot.  Take a call of `coalesce_obj` on a slot
that holds a general-object-pointer to an eligible object, and whose visit of
the elements (if the object is a general vector) returned.  If the object
has a representative `T` in the table, the call ends in `lose` exactly when
the slot lies in read-only space and `T` is a collectible pointer, and
otherwise it stores `T` in the slot and returns; if the object has no
representative, the call inserts it and returns. -/
theorem coalesce_obj_guard (p : Platform) (level : Int) (fuel where_ : Nat) (h : Heap)
    (ht : hopscotch_table) (h1 : Heap) (ht1 : hopscotch_table)
    (hlow : lowtag_of p (h where_) = p.OTHER_POINTER_LOWTAG)
    (helig : coalesce_obj_test p level h (native_pointer p (h where_)) = true)
    (hch : coalesce_obj_children p (coalesce_obj p level fuel)
        (native_pointer p (h where_)) h ht = .done h1 ht1) :
    (hopscotch_get p h1 ht1 (native_pointer p (h where_)) ≠ 0 →
      (coalesce_obj p level (fuel + 1) where_ h ht = .lost ↔
        (p.READ_ONLY_SPACE_START ≤ where_ ∧ where_ < p.READ_ONLY_SPACE_END
          ∧ gcable_pointer_p p (make_lispobj (ht1.keys.getD
              (hopscotch_get p h1 ht1 (native_pointer p (h where_)) - 1) 0)
              p.OTHER_POINTER_LOWTAG) = true))
      ∧ (¬ (p.READ_ONLY_SPACE_START ≤ where_ ∧ where_ < p.READ_ONLY_SPACE_END
          ∧ gcable_pointer_p p (make_lispobj (ht1.keys.getD
              (hopscotch_get p h1 ht1 (native_pointer p (h where_)) - 1) 0)
              p.OTHER_POINTER_LOWTAG) = true) →
        coalesce_obj p level (fuel + 1) where_ h ht
          = .done (write h1 where_ (make_lispobj (ht1.keys.getD
              (hopscotch_get p h1 ht1 (native_pointer p (h where_)) - 1) 0)
              p.OTHER_POINTER_LOWTAG)) ht1))
    ∧ (hopscotch_get p h1 ht1 (native_pointer p (h where_)) = 0 →
        coalesce_obj p level (fuel + 1) where_ h ht
          = .done h1 (hopscotch_insert ht1 (native_pointer p (h where_)))) := by
  have hcall : coalesce_obj p level (fuel + 1) where_ h ht
      = coalesce_obj_intern p where_ (native_pointer p (h where_)) h1 ht1 := by
    rw [coalesce_obj_succ]
    simp [hlow, helig, hch]
  rw [hcall]
  unfold coalesce_obj_intern
  refine ⟨?_, ?_⟩
  · intro hg
    simp only [hg, if_false, ge_iff_le]
    refine ⟨?_, ?_⟩
    · constructor
      · intro hl
        by_contra hn
        rw [if_neg hn] at hl
        cases hl
      · intro hro
        rw [if_pos hro]
    · intro hn
      rw [if_neg hn]
  · intro hg
    simp only [hg, if_true]

/-- Witness of C4: on the example platform the slot `0x1008` of read-only
space references the static bignum at `0x2100`; with the content-equal
collectible bignum at `0x8000` in the table, the call ends in `lose`. -/
theorem coalesce_obj_guard_witness :
    coalesce_obj example_platform 1 1 0x1008 heap_read_only ⟨[0x8000]⟩ = .lost :=
  ((coalesce_obj_guard example_platform 1 0 0x1008 heap_read_only ⟨[0x8000]⟩
      heap_read_only ⟨[0x8000]⟩ (by decide) (by decide) rfl).1 (by decide)).1.2 (by decide)

/-- A sequence of two steps returned: so did the first, and the second on the
state it left. -/
theorem Res.bind_done (r : Res) (f : Heap → hopscotch_table → Res) (h1 : Heap)
    (ht1 : hopscotch_table) (hres : r.bind f = .done h1 ht1) :
    ∃ h2 ht2, r = .done h2 ht2 ∧ f h2 ht2 = .done h1 ht1 := by
  cases r with
  | done h2 ht2 => exact ⟨h2, ht2, rfl, hres⟩
  | lost => cases hres
  | out_of_fuel => cases hres

/-- An invariant of `call` is an invariant of the loop over a record. -/
theorem coalesce_range_instance_preserves (p : Platform)
    (call : Nat → Heap → hopscotch_table → Res) (Inv : Heap → hopscotch_table → Prop)
    (hcall : ∀ where_ h ht h1 ht1, Inv h ht → call where_ h ht = .done h1 ht1 → Inv h1 ht1)
    (where_ bitmap : Nat) (is : List Nat) :
    ∀ h ht h1 ht1, Inv h ht →
      coalesce_range_instance p call where_ bitmap is h ht = .done h1 ht1 → Inv h1 ht1 := by
  induction is with
  | nil =>
    intro h ht h1 ht1 hinv hres
    simp only [coalesce_range_instance, Res.done.injEq] at hres
    rw [← hres.1, ← hres.2]; exact hinv
  | cons i is ih =>
    intro h ht h1 ht1 hinv hres
    simp only [coalesce_range_instance] at hres
    obtain ⟨h2, ht2, e1, e2⟩ := Res.bind_done _ _ h1 ht1 hres
    refine ih h2 ht2 h1 ht1 ?_ e2
    split at e1
    · exact hcall _ h ht h2 ht2 hinv e1
    · simp only [Res.done.injEq] at e1
      rw [← e1.1, ← e1.2]; exact hinv

/-- An invariant of `call` is an invariant of the loop over the functions of
a code object. -/
theorem coalesce_range_funs_preserves (p : Platform)
    (call : Nat → Heap → hopscotch_table → Res) (Inv : Heap → hopscotch_table → Prop)
    (hcall : ∀ where_ h ht h1 ht1, Inv h ht → call where_ h ht = .done h1 ht1 → Inv h1 ht1)
    (where_ : Nat) (ks : List Nat) :
    ∀ h ht h1 ht1, Inv h ht →
      coalesce_range_funs p call where_ ks h ht = .done h1 ht1 → Inv h1 ht1 := by
  induction ks with
  | nil =>
    intro h ht h1 ht1 hinv hres
    simp only [coalesce_range_funs, Res.done.injEq] at hres
    rw [← hres.1, ← hres.2]; exact hinv
  | cons k ks ih =>
    intro h ht h1 ht1 hinv hres
    simp only [coalesce_range_funs] at hres
    obtain ⟨h2, ht2, e1, e2⟩ := Res.bind_done _ _ h1 ht1 hres
    exact ih h2 ht2 h1 ht1
      (coalesce_obj_elts_preserves p call Inv hcall _ _ h ht h2 ht2 hinv e1) e2

/-- An invariant of `call` is an invariant of the visit of one object by
`coalesce_range`. -/
theorem coalesce_range_object_preserves (p : Platform)
    (call : Nat → Heap → hopscotch_table → Res) (Inv : Heap → hopscotch_table → Prop)
    (hcall : ∀ where_ h ht h1 ht1, Inv h ht → call where_ h ht = .done h1 ht1 → Inv h1 ht1)
    (where_ : Nat) (h : Heap) (ht : hopscotch_table) (h1 : Heap) (ht1 : hopscotch_table)
    (hinv : Inv h ht) (hres : coalesce_range_object p call where_ h ht = .done h1 ht1) :
    Inv h1 ht1 := by
  unfold coalesce_range_object at hres
  simp only at hres
  split at hres
  · obtain ⟨h2, ht2, e1, e2⟩ := Res.bind_done _ _ h1 ht1 hres
    exact hcall _ h2 ht2 h1 ht1 (hcall _ h ht h2 ht2 hinv e1) e2
  · split at hres
    · exact coalesce_range_instance_preserves p call Inv hcall _ _ _ h ht h1 ht1 hinv hres
    · split at hres
      · obtain ⟨h2, ht2, e1, e2⟩ := Res.bind_done _ _ h1 ht1 hres
        exact coalesce_obj_elts_preserves p call Inv hcall _ _ h2 ht2 h1 ht1
          (coalesce_range_funs_preserves p call Inv hcall _ _ h ht h2 ht2 hinv e1) e2
      · split at hres
        · simp only [Res.done.injEq] at hres
          rw [← hres.1, ← hres.2]; exact hinv
        · exact coalesce_obj_elts_preserves p call Inv hcall _ _ h ht h1 ht1 hinv hres

/-- An invariant of the calls of `coalesce_obj` is an invariant of
`coalesce_range`. -/
theorem coalesce_range_preserves (p : Platform) (level : Int) (depth : Nat)
    (Inv : Heap → hopscotch_table → Prop)
    (hcall : ∀ where_ h ht h1 ht1, Inv h ht →
      coalesce_obj p level depth where_ h ht = .done h1 ht1 → Inv h1 ht1)
    (steps : Nat) :
    ∀ where_ limit h ht h1 ht1, Inv h ht →
      coalesce_range p level depth steps where_ limit h ht = .done h1 ht1 → Inv h1 ht1 := by
  induction steps with
  | zero =>
    intro where_ limit h ht h1 ht1 hinv hres
    simp only [coalesce_range] at hres
    split at hres
    · cases hres
    · simp only [Res.done.injEq] at hres
      rw [← hres.1, ← hres.2]; exact hinv
  | succ steps ih =>
    intro where_ limit h ht h1 ht1 hinv hres
    simp only [coalesce_range] at hres
    split at hres
    · obtain ⟨h2, ht2, e1, e2⟩ := Res.bind_done _ _ h1 ht1 hres
      exact ih _ _ h2 ht2 h1 ht1
        (coalesce_range_object_preserves p _ Inv hcall where_ h ht h2 ht2 hinv e1) e2
    · simp only [Res.done.injEq] at hres
      rw [← hres.1, ← hres.2]; exact hinv

/-- An invariant of the lookup-insert-or-rewrite step of `coalesce_obj` is an
invariant of every pass. -/
theorem Pass.preserves (p : Platform) (level : Int) (Inv : Heap → hopscotch_table → Prop)
    (hstep : ∀ where_ h0 ht0 h ht h1 ht1,
      lowtag_of p (h0 where_) = p.OTHER_POINTER_LOWTAG →
      coalesce_obj_test p level h0 (native_pointer p (h0 where_)) = true →
      Inv h0 ht0 → Inv h ht →
      coalesce_obj_intern p where_ (native_pointer p (h0 where_)) h ht = .done h1 ht1 →
      Inv h1 ht1)
    (h : Heap) (ht : hopscotch_table) (h1 : Heap) (ht1 : hopscotch_table)
    (hpass : Pass p level h ht h1 ht1) (hinv : Inv h ht) : Inv h1 ht1 := by
  induction hpass with
  | nil => exact hinv
  | obj fuel where_ h ht h1 ht1 h2 ht2 hcall _ ih =>
    exact ih (coalesce_obj_preserves p level Inv hstep fuel where_ h ht h1 ht1 hinv hcall)
  | range depth steps where_ limit h ht h1 ht1 h2 ht2 hcall _ ih =>
    exact ih (coalesce_range_preserves p level depth Inv
      (coalesce_obj_preserves p level Inv hstep depth) steps where_ limit h ht h1 ht1 hinv hcall)

/-- C3: a slot of read-only space that references a non-collectible object
(`gcable_pointer_p` false on its word) before a pass still does after the
pass, for every pass that returns: every sequence of calls of
`coalesce_range` and `coalesce_obj`, the recursive visits of vector elements
included. -/
theorem read_only_slot_not_gcable (p : Platform) (level : Int) (slot : Nat)
    (hro : p.READ_ONLY_SPACE_START ≤ slot ∧ slot < p.READ_ONLY_SPACE_END)
    (h : Heap) (ht : hopscotch_table) (h1 : Heap) (ht1 : hopscotch_table)
    (hpass : Pass p level h ht h1 ht1) (hn : gcable_pointer_p p (h slot) = false) :
    gcable_pointer_p p (h1 slot) = false := by
  refine Pass.preserves p level (fun h' _ => gcable_pointer_p p (h' slot) = false) ?_
    h ht h1 ht1 hpass hn
  intro w h0 ht0 h2 ht2 h3 ht3 _ _ _ hinv hi
  rcases coalesce_obj_intern_done p _ _ h2 ht2 h3 ht3 hi with ⟨-, e1, -⟩ | ⟨-, hg, e1, -⟩
  · rw [e1]; exact hinv
  · rw [e1]
    by_cases hw : slot = w
    · subst hw
      rw [write_same]
      by_contra hc
      exact hg ⟨hro.1, hro.2, by simpa using hc⟩
    · rw [write_other _ _ _ _ hw]; exact hinv

/-- Witness of C3: `coalesce_range` over the two words `[0x1000, 0x1010)` of
read-only space of `heap_read_only`, with the static bignum at `0x2110` in
the table, rewrites the slot `0x1008` from `0x210F` to `0x211F`, which is
not collectible either. -/
theorem read_only_slot_not_gcable_witness :
    gcable_pointer_p example_platform (write heap_read_only 0x1008 0x211F 0x1008) = false :=
  read_only_slot_not_gcable example_platform 1 0x1008 (by decide)
    heap_read_only ⟨[0x2110]⟩ (write heap_read_only 0x1008 0x211F) ⟨[0x2110]⟩
    (Pass.range 1 1 0x1000 0x1010 _ _ _ _ _ _ rfl (Pass.nil _ _)) (by decide)

/-- The comparison of keys is reflexive. -/
theorem vector_eql_refl (p : Platform) (h : Heap) (a : Nat) : vector_eql p h a a = true := by
  simp [vector_eql]

/-- Probing with two tests that agree on the keys. -/
theorem probe_congr (f g : Nat → Bool) (ks : List Nat) (i : Nat)
    (hfg : ∀ k ∈ ks, f k = g k) : probe f ks i = probe g ks i := by
  induction ks generalizing i with
  | nil => rfl
  | cons k ks ih =>
    simp only [probe]
    rw [hfg k (List.mem_cons_self _ _), ih (i + 1) (fun k' hk' => hfg k' (List.mem_cons_of_mem _ hk'))]

/-- A call on a slot that holds a general-object-pointer to an eligible
object is the visit of the elements followed by the lookup. -/
theorem coalesce_obj_eq_intern (p : Platform) (level : Int) (fuel where_ : Nat) (h : Heap)
    (ht : hopscotch_table) (h1 : Heap) (ht1 : hopscotch_table)
    (hlow : lowtag_of p (h where_) = p.OTHER_POINTER_LOWTAG)
    (helig : coalesce_obj_test p level h (native_pointer p (h where_)) = true)
    (hch : coalesce_obj_children p (coalesce_obj p level fuel)
        (native_pointer p (h where_)) h ht = .done h1 ht1) :
    coalesce_obj p level (fuel + 1) where_ h ht
      = coalesce_obj_intern p where_ (native_pointer p (h where_)) h1 ht1 := by
  rw [coalesce_obj_succ]
  simp [hlow, helig, hch]

/-- A completed call only adds keys to the table, at its end. -/
theorem coalesce_obj_keys_extend (p : Platform) (level : Int) (fuel where_ : Nat) (h : Heap)
    (ht : hopscotch_table) (h1 : Heap) (ht1 : hopscotch_table)
    (hres : coalesce_obj p level fuel where_ h ht = .done h1 ht1) :
    ∃ l, ht1.keys = ht.keys ++ l := by
  refine coalesce_obj_preserves p level (fun _ ht' => ∃ l, ht'.keys = ht.keys ++ l) ?_
    fuel where_ h ht h1 ht1 ⟨[], by simp⟩ hres
  intro w h0 ht0 h2 ht2 h3 ht3 _ _ _ hinv hi
  obtain ⟨l, hl⟩ := hinv
  rcases coalesce_obj_intern_done p _ _ h2 ht2 h3 ht3 hi with ⟨-, -, e2⟩ | ⟨-, -, -, e2⟩
  · rw [e2]
    exact ⟨l ++ [native_pointer p (h0 w)], by simp [hopscotch_insert, hl]⟩
  · rw [e2]; exact ⟨l, hl⟩

/-- The visit of the elements only adds keys to the table, at its end. -/
theorem coalesce_obj_children_keys_extend (p : Platform) (level : Int) (fuel obj : Nat)
    (h : Heap) (ht : hopscotch_table) (h1 : Heap) (ht1 : hopscotch_table)
    (hres : coalesce_obj_children p (coalesce_obj p level fuel) obj h ht = .done h1 ht1) :
    ∃ l, ht1.keys = ht.keys ++ l := by
  refine coalesce_obj_children_preserves p _ (fun _ ht' => ∃ l, ht'.keys = ht.keys ++ l) ?_
    obj h ht h1 ht1 ⟨[], by simp⟩ hres
  intro w h2 ht2 h3 ht3 hinv hc
  obtain ⟨l, hl⟩ := hinv
  obtain ⟨l', hl'⟩ := coalesce_obj_keys_extend p level fuel w h2 ht2 h3 ht3 hc
  exact ⟨l ++ l', by rw [hl', hl, List.append_assoc]⟩

/-- Reading a list extended at its end, at a position of the list. -/
theorem getD_append_left (ks l : List Nat) (i : Nat) (hi : i < ks.length) :
    (ks ++ l).getD i 0 = ks.getD i 0 := by
  rw [List.getD_eq_getElem _ _ hi, List.getD_eq_getElem _ _ (by simp; omega),
    List.getElem_append_left hi]

/-- C1, as stated, fails when a third content-equal object was seen first: on
the example platform the bignums at `0x8000` and `0x8010` of `heap_bignums`
are eligible and content-equal, the slot `0x3008` references the first and
the slot `0x3010` the second; after the calls on the slots `0x3000`, `0x3008`
and `0x3010`, in this order and from an empty table, both slots hold
`0x802F`, a reference to the bignum at `0x8020` and to neither of the two. -/
theorem coalesce_obj_third_representative :
    vector_eql example_platform heap_bignums 0x8000 0x8010 = true
    ∧ coalesce_obj_test example_platform 1 heap_bignums 0x8000 = true
    ∧ coalesce_obj_test example_platform 1 heap_bignums 0x8010 = true
    ∧ lowtag_of example_platform (heap_bignums 0x3008) = example_platform.OTHER_POINTER_LOWTAG
    ∧ native_pointer example_platform (heap_bignums 0x3008) = 0x8000
    ∧ lowtag_of example_platform (heap_bignums 0x3010) = example_platform.OTHER_POINTER_LOWTAG
    ∧ native_pointer example_platform (heap_bignums 0x3010) = 0x8010
    ∧ (((coalesce_obj example_platform 1 1 0x3000 heap_bignums hopscotch_create).bind
          (coalesce_obj example_platform 1 1 0x3008)).bind
          (coalesce_obj example_platform 1 1 0x3010)).word 0x3008 = some 0x802F
    ∧ (((coalesce_obj example_platform 1 1 0x3000 heap_bignums hopscotch_create).bind
          (coalesce_obj example_platform 1 1 0x3008)).bind
          (coalesce_obj example_platform 1 1 0x3010)).word 0x3010 = some 0x802F
    ∧ native_pointer example_platform 0x802F = 0x8020 := by
  decide

/-- C1, amended: take content-equal eligible objects `A` and `B`, two
different slots that reference them, and the calls of `coalesce_obj` on the
first slot and then on the second, with one table, both returning.  Suppose
that the keys of the table compare with `B`, when `B` is looked up, as they
compared with `A` when `A` was looked up (for numbers and specialized
vectors: the words of the objects are not touched in between; for general
vectors: their elements were coalesced to the same words), and that the
first slot is not an element slot of `A` or `B`.  Then both slots hold the
same reference afterwards: to the first key of the table that is
content-equal to `A`.  That is `A` itself when the table held no key
content-equal to `A` before the first call, and otherwise the key that was
there, a third object. -/
theorem coalesce_obj_same_representative (p : Platform) (level : Int) (fuel s1 s2 A B : Nat)
    (h0 : Heap) (t0 : hopscotch_table) (hA : Heap) (tA : hopscotch_table) (h1 : Heap)
    (t1 : hopscotch_table) (hB : Heap) (tB : hopscotch_table) (h2 : Heap)
    (t2 : hopscotch_table)
    (hs1 : lowtag_of p (h0 s1) = p.OTHER_POINTER_LOWTAG)
    (hA_def : native_pointer p (h0 s1) = A)
    (eligA : coalesce_obj_test p level h0 A = true)
    (visitA : coalesce_obj_children p (coalesce_obj p level fuel) A h0 t0 = .done hA tA)
    (call1 : coalesce_obj p level (fuel + 1) s1 h0 t0 = .done h1 t1)
    (hs2 : lowtag_of p (h1 s2) = p.OTHER_POINTER_LOWTAG)
    (hB_def : native_pointer p (h1 s2) = B)
    (eligB : coalesce_obj_test p level h1 B = true)
    (visitB : coalesce_obj_children p (coalesce_obj p level fuel) B h1 t1 = .done hB tB)
    (call2 : coalesce_obj p level (fuel + 1) s2 h1 t1 = .done h2 t2)
    (hne : s1 ≠ s2) (keep1 : hA s1 = h0 s1) (keep2 : hB s1 = h1 s1)
    (hequal : ∀ k ∈ t1.keys, vector_eql p hB k B = vector_eql p hA k A) :
    h2 s1 = h2 s2
    ∧ h2 s2 = make_lispobj (representative p hA (tA.keys ++ [A]) A) p.OTHER_POINTER_LOWTAG
    ∧ vector_eql p hA (representative p hA (tA.keys ++ [A]) A) A = true
    ∧ (hopscotch_get p hA tA A = 0 → representative p hA (tA.keys ++ [A]) A = A)
    ∧ (hopscotch_get p hA tA A ≠ 0 → representative p hA (tA.keys ++ [A]) A ∈ tA.keys) := by
  subst hA_def hB_def
  have e1 := coalesce_obj_eq_intern p level fuel s1 h0 t0 hA tA hs1 eligA visitA
  have e2 := coalesce_obj_eq_intern p level fuel s2 h1 t1 hB tB hs2 eligB visitB
  rw [e1] at call1
  rw [e2] at call2
  obtain ⟨l, hl⟩ := coalesce_obj_children_keys_extend p level fuel _ h1 t1 hB tB visitB
  have hptr : h0 s1 = make_lispobj (native_pointer p (h0 s1)) p.OTHER_POINTER_LOWTAG := by
    conv_lhs => rw [← make_lispobj_native_pointer p (h0 s1), hs1]
  have hrefl : vector_eql p hA (native_pointer p (h0 s1)) (native_pointer p (h0 s1)) = true :=
    vector_eql_refl p hA _
  have hgB : hopscotch_get p hB tB (native_pointer p (h1 s2))
      = if probe (fun k => vector_eql p hA k (native_pointer p (h0 s1))) t1.keys 0 ≠ 0
        then probe (fun k => vector_eql p hA k (native_pointer p (h0 s1))) t1.keys 0
        else probe (fun k => vector_eql p hB k (native_pointer p (h1 s2))) l
          (0 + t1.keys.length) := by
    unfold hopscotch_get
    rw [hl, probe_append, probe_congr _ _ t1.keys 0 hequal]
  rcases coalesce_obj_intern_done p _ _ hA tA h1 t1 call1 with
    ⟨g0, eh, et⟩ | ⟨g0, -, eh, et⟩
  · -- `A` is new: it is inserted and represents itself
    have hf0 : probe (fun k => vector_eql p hA k (native_pointer p (h0 s1))) tA.keys 0 = 0 := g0
    have hr : probe (fun k => vector_eql p hA k (native_pointer p (h0 s1)))
        (tA.keys ++ [native_pointer p (h0 s1)]) 0 = tA.keys.length + 1 := by
      rw [probe_append, hf0]
      simp [probe, hrefl]
    have hrep : representative p hA (tA.keys ++ [native_pointer p (h0 s1)])
        (native_pointer p (h0 s1)) = native_pointer p (h0 s1) := by
      unfold representative
      rw [hr]
      simp
    have ht1 : t1.keys = tA.keys ++ [native_pointer p (h0 s1)] := by rw [et]; rfl
    rw [ht1, hr] at hgB
    simp only [ne_eq, Nat.add_one_ne_zero, not_false_eq_true, if_true] at hgB
    rcases coalesce_obj_intern_done p _ _ hB tB h2 t2 call2 with
      ⟨g1, -, -⟩ | ⟨-, -, eh2, -⟩
    · rw [hgB] at g1; omega
    · rw [hgB, hl, ht1] at eh2
      have hk : ((tA.keys ++ [native_pointer p (h0 s1)]) ++ l).getD (tA.keys.length + 1 - 1) 0
          = native_pointer p (h0 s1) := by
        rw [getD_append_left _ _ _ (by simp)]
        simp
      rw [hk] at eh2
      have h2s2 : h2 s2 = make_lispobj (native_pointer p (h0 s1)) p.OTHER_POINTER_LOWTAG := by
        rw [eh2, write_same]
      have h2s1 : h2 s1 = make_lispobj (native_pointer p (h0 s1)) p.OTHER_POINTER_LOWTAG := by
        rw [eh2, write_other _ _ _ _ hne, keep2, eh, keep1]
        exact hptr
      refine ⟨by rw [h2s1, h2s2], by rw [h2s2, hrep], by rw [hrep]; exact hrefl,
        fun _ => hrep, fun hc => absurd g0 hc⟩
  · -- `A` has a representative in the table already
    have hf0 : probe (fun k => vector_eql p hA k (native_pointer p (h0 s1))) tA.keys 0 ≠ 0 := g0
    obtain ⟨-, hlen, hacc, -⟩ := probe_pos _ tA.keys 0 hf0
    simp only [Nat.sub_zero] at hlen hacc
    have hr : probe (fun k => vector_eql p hA k (native_pointer p (h0 s1)))
        (tA.keys ++ [native_pointer p (h0 s1)]) 0
        = probe (fun k => vector_eql p hA k (native_pointer p (h0 s1))) tA.keys 0 := by
      rw [probe_append, if_pos hf0]
    have hrep : representative p hA (tA.keys ++ [native_pointer p (h0 s1)])
        (native_pointer p (h0 s1))
        = tA.keys.getD (hopscotch_get p hA tA (native_pointer p (h0 s1)) - 1) 0 := by
      unfold representative hopscotch_get
      rw [hr, getD_append_left _ _ _ hlen]
    rw [et, if_pos hf0] at hgB
    rcases coalesce_obj_intern_done p _ _ hB tB h2 t2 call2 with
      ⟨g1, -, -⟩ | ⟨-, -, eh2, -⟩
    · rw [hgB] at g1; exact absurd g1 hf0
    · rw [hgB, hl, et, getD_append_left _ _ _ hlen] at eh2
      have h2s2 : h2 s2 = make_lispobj (tA.keys.getD
          (hopscotch_get p hA tA (native_pointer p (h0 s1)) - 1) 0) p.OTHER_POINTER_LOWTAG := by
        rw [eh2, write_same]; rfl
      have h2s1 : h2 s1 = make_lispobj (tA.keys.getD
          (hopscotch_get p hA tA (native_pointer p (h0 s1)) - 1) 0) p.OTHER_POINTER_LOWTAG := by
        rw [eh2, write_other _ _ _ _ hne, keep2, eh, write_same]
      refine ⟨by rw [h2s1, h2s2], by rw [h2s2, hrep], ?_, fun hc => absurd hc g0, fun _ => ?_⟩
      · rw [hrep]; exact hacc
      · rw [hrep]
        exact (hopscotch_get_pos p hA tA _ g0).1

/-- Witness of the amended C1: the slots `0x3008` and `0x3010` of
`heap_bignums`, with the bignum at `0x8020` in the table. -/
theorem coalesce_obj_same_representative_witness :
    write (write heap_bignums 0x3008 0x802F) 0x3010 0x802F 0x3008
      = write (write heap_bignums 0x3008 0x802F) 0x3010 0x802F 0x3010
    ∧ representative example_platform heap_bignums [0x8020, 0x8000] 0x8000 = 0x8020 :=
  have w := coalesce_obj_same_representative example_platform 1 0 0x3008 0x3010 0x8000 0x8010
    heap_bignums ⟨[0x8020]⟩ heap_bignums ⟨[0x8020]⟩
    (write heap_bignums 0x3008 0x802F) ⟨[0x8020]⟩
    (write heap_bignums 0x3008 0x802F) ⟨[0x8020]⟩
    (write (write heap_bignums 0x3008 0x802F) 0x3010 0x802F) ⟨[0x8020]⟩
    (by decide) (by decide) (by decide) rfl rfl (by decide) (by decide) (by decide) rfl rfl
    (by decide) rfl rfl (by decide)
  ⟨w.1, by decide⟩

/-- The word `0` of an object is at its address. -/
theorem word_at_zero (p : Platform) (a : Nat) : word_at p a 0 = a := by
  simp [word_at]

/-- The words of an object include every word below its size, the header
and the word after it. -/
theorem mem_object_words (p : Platform) (h : Heap) (a i : Nat)
    (hi : i < 2 ∨ i < obj_size p h a) : word_at p a i ∈ object_words p h a := by
  unfold object_words
  refine List.mem_map.2 ⟨i, List.mem_range.2 ?_, rfl⟩
  rcases hi with hi | hi
  · exact lt_of_lt_of_le hi (le_max_left _ _)
  · exact lt_of_lt_of_le hi (le_max_right _ _)

/-- Two heaps that agree on the words of an object give it the same size. -/
theorem obj_size_congr (p : Platform) (h h' : Heap) (a : Nat)
    (ha : ∀ w ∈ object_words p h a, h' w = h w) : obj_size p h' a = obj_size p h a := by
  have h0 := ha _ (mem_object_words p h a 0 (Or.inl (by decide)))
  have h1 := ha _ (mem_object_words p h a 1 (Or.inl (by decide)))
  rw [word_at_zero] at h0
  unfold obj_size
  rw [h0, h1]

/-- The table comparison reads the words of the two objects only. -/
theorem vector_eql_congr (p : Platform) (h h' : Heap) (a b : Nat)
    (ha : ∀ w ∈ object_words p h a, h' w = h w)
    (hb : ∀ w ∈ object_words p h b, h' w = h w) :
    vector_eql p h' a b = vector_eql p h a b := by
  have a0 := ha _ (mem_object_words p h a 0 (Or.inl (by decide)))
  have b0 := hb _ (mem_object_words p h b 0 (Or.inl (by decide)))
  rw [word_at_zero] at a0 b0
  have sa := obj_size_congr p h h' a ha
  have sb := obj_size_congr p h h' b hb
  unfold vector_eql
  rw [a0, b0, sa, sb]
  by_cases hs : obj_size p h a = obj_size p h b
  · have hall : ((List.range' 1 (obj_size p h a - 1)).all
          fun i => h' (word_at p a i) == h' (word_at p b i))
        = ((List.range' 1 (obj_size p h a - 1)).all
          fun i => h (word_at p a i) == h (word_at p b i)) := by
      rw [Bool.eq_iff_iff]
      simp only [List.all_eq_true, beq_iff_eq]
      have key : ∀ i ∈ List.range' 1 (obj_size p h a - 1),
          h' (word_at p a i) = h (word_at p a i) ∧ h' (word_at p b i) = h (word_at p b i) := by
        intro i hi
        have hi' := List.mem_range'_1.1 hi
        exact ⟨ha _ (mem_object_words p h a i (Or.inr (by omega))),
          hb _ (mem_object_words p h b i (Or.inr (by omega)))⟩
      constructor
      · intro hall i hi
        rw [← (key i hi).1, ← (key i hi).2]; exact hall i hi
      · intro hall i hi
        rw [(key i hi).1, (key i hi).2]; exact hall i hi
    rw [hall]
  · have : (obj_size p h a == obj_size p h b) = false := by simpa using hs
    simp [this]

/-- The table comparison is symmetric. -/
theorem vector_eql_symm (p : Platform) (h : Heap) (a b : Nat) :
    vector_eql p h a b = vector_eql p h b a := by
  unfold vector_eql
  by_cases hab : a = b
  · subst hab; rfl
  · have e1 : (a == b) = false := by simpa using hab
    have e2 : (b == a) = false := by simpa using Ne.symm hab
    rw [e1, e2, Bool.false_or, Bool.false_or]
    by_cases hs : obj_size p h a = obj_size p h b
    · rw [hs]
      rw [Bool.eq_iff_iff]
      simp only [Bool.and_eq_true, beq_iff_eq, List.all_eq_true]
      constructor
      · rintro ⟨⟨hw, -⟩, hall⟩
        exact ⟨⟨hw.symm, trivial⟩, fun i hi => (hall i hi).symm⟩
      · rintro ⟨⟨hw, -⟩, hall⟩
        exact ⟨⟨hw.symm, trivial⟩, fun i hi => (hall i hi).symm⟩
    · have f1 : (obj_size p h a == obj_size p h b) = false := by simpa using hs
      have f2 : (obj_size p h b == obj_size p h a) = false := by simpa using Ne.symm hs
      simp [f1, f2]

/-- The table comparison is transitive. -/
theorem vector_eql_trans (p : Platform) (h : Heap) (a b c : Nat)
    (hab : vector_eql p h a b = true) (hbc : vector_eql p h b c = true) :
    vector_eql p h a c = true := by
  by_cases e1 : a = b
  · subst e1; exact hbc
  · by_cases e2 : b = c
    · subst e2; exact hab
    · unfold vector_eql at hab hbc ⊢
      have f1 : (a == b) = false := by simpa using e1
      have f2 : (b == c) = false := by simpa using e2
      rw [f1, Bool.false_or] at hab
      rw [f2, Bool.false_or] at hbc
      simp only [Bool.and_eq_true, beq_iff_eq, List.all_eq_true] at hab hbc
      obtain ⟨⟨w1, s1⟩, a1⟩ := hab
      obtain ⟨⟨w2, s2⟩, a2⟩ := hbc
      simp only [Bool.or_eq_true, Bool.and_eq_true, beq_iff_eq, List.all_eq_true]
      right
      refine ⟨⟨w1.trans w2, s1.trans s2⟩, fun i hi => ?_⟩
      exact (a1 i hi).trans (a2 i (by rw [← s1]; exact hi))

/-- Content-equal objects compare alike with every key. -/
theorem vector_eql_of_eql (p : Platform) (h : Heap) (k x y : Nat)
    (hxy : vector_eql p h x y = true) : vector_eql p h k y = vector_eql p h k x := by
  rw [Bool.eq_iff_iff]
  constructor
  · intro hky
    exact vector_eql_trans p h k y x hky (by rw [vector_eql_symm]; exact hxy)
  · intro hkx
    exact vector_eql_trans p h k x y hkx hxy

/-- Objects with different widetags are not content-equal. -/
theorem vector_eql_of_widetag_ne (p : Platform) (h : Heap) (a b : Nat)
    (hw : widetag_of p (h a) ≠ widetag_of p (h b)) : vector_eql p h a b = false := by
  have hab : a ≠ b := by
    intro e; rw [e] at hw; exact hw rfl
  have e1 : (a == b) = false := by simpa using hab
  have e2 : (widetag_of p (h a) == widetag_of p (h b)) = false := by simpa using hw
  simp [vector_eql, e1, e2]

/-- A general-object-pointer that is eql-comparable references a bignum, a
symbol or a string: not a general vector, a ratio or a complex. -/
theorem widetag_of_eql_comparable (p : Platform) (hp : p.Sane) (h : Heap) (v : Nat)
    (hl : lowtag_of p v = p.OTHER_POINTER_LOWTAG) (hc : eql_comparable_p p h v = true) :
    widetag_of p (h (native_pointer p v)) ≠ p.SIMPLE_VECTOR_WIDETAG
    ∧ widetag_of p (h (native_pointer p v)) ≠ p.RATIO_WIDETAG
    ∧ widetag_of p (h (native_pointer p v)) ≠ p.COMPLEX_WIDETAG := by
  have hfix := fixnump_false_of_lowtag p hp.fixnum_bits_le v _ hl hp.other_not_fixnum
  have hne : v ≠ p.NIL := by
    intro he
    have hnil : lowtag_of p p.NIL = p.LIST_POINTER_LOWTAG := hp.nil_lowtag
    rw [he, hnil] at hl
    exact hp.list_ne_other hl
  have hne2 : (v == p.NIL) = false := by simpa using hne
  have hnd := hp.widetags_nodup
  rw [eql_comparable_p_eq, hfix, hne2] at hc
  simp only [Bool.false_or, Bool.and_eq_true, Bool.or_eq_true, beq_iff_eq] at hc
  obtain ⟨-, hw⟩ := hc
  have key : ∀ j (w : Nat), (widetags p)[j]? = some w → j ≠ 0 → j ≠ 7 → j ≠ 8 → j ≠ 10 →
      widetag_of p (h (native_pointer p v)) ≠ w := by
    intro j w hj j0 j7 j8 j10 e
    rcases hw with ((hw | hw) | hw) | hw
    · exact ne_of_nodup_getElem? hnd j 0 w p.BIGNUM_WIDETAG hj (by simp [widetags]) j0
        (by rw [← e, hw])
    · exact ne_of_nodup_getElem? hnd j 7 w p.SYMBOL_WIDETAG hj (by simp [widetags]) j7
        (by rw [← e, hw])
    · exact ne_of_nodup_getElem? hnd j 10 w (widetag_of p (h (native_pointer p v))) hj
        (by simp [widetags, hw]) j10 e.symm
    · exact ne_of_nodup_getElem? hnd j 8 w p.SIMPLE_BASE_STRING_WIDETAG hj
        (by simp [widetags]) j8 (by rw [← e, hw])
  exact ⟨key 9 _ (by simp [widetags]) (by decide) (by decide) (by decide) (by decide),
    key 1 _ (by simp [widetags]) (by decide) (by decide) (by decide) (by decide),
    key 2 _ (by simp [widetags]) (by decide) (by decide) (by decide) (by decide)⟩

/-- The test of `coalesce_obj` on an object that is not a general vector, a
ratio or a complex reads the header only. -/
theorem coalesce_obj_test_congr (p : Platform) (level : Int) (h h' : Heap) (x : Nat)
    (hx : h' x = h x)
    (h1 : widetag_of p (h x) ≠ p.SIMPLE_VECTOR_WIDETAG)
    (h2 : widetag_of p (h x) ≠ p.RATIO_WIDETAG)
    (h3 : widetag_of p (h x) ≠ p.COMPLEX_WIDETAG) :
    coalesce_obj_test p level h' x = coalesce_obj_test p level h x := by
  unfold coalesce_obj_test coalesce_obj_vector_test coalescible_number_p
  simp only [hx]
  have e1 : (widetag_of p (h x) == p.SIMPLE_VECTOR_WIDETAG) = false := by simpa using h1
  have e2 : (widetag_of p (h x) == p.RATIO_WIDETAG) = false := by simpa using h2
  have e3 : (widetag_of p (h x) == p.COMPLEX_WIDETAG) = false := by simpa using h3
  simp only [e1, e2, e3, Bool.false_and, Bool.or_false, Bool.false_or]

/-- A stable leaf is eligible in every heap that differs on the slots only. -/
theorem stable_leaf_test (p : Platform) (level : Int) (h h' : Heap) (ws : List Nat) (x : Nat)
    (hx : stable_leaf p level h ws x) (hag : agree_off ws h h') :
    h' x = h x ∧ coalesce_obj_test p level h' x = true := by
  obtain ⟨ht, h1, h2, h3, hw⟩ := hx
  have h0 : h' x = h x := by
    have := hag _ (hw _ (mem_object_words p h x 0 (Or.inl (by decide))))
    rwa [word_at_zero] at this
  exact ⟨h0, by rw [coalesce_obj_test_congr p level h h' x h0 h1 h2 h3]; exact ht⟩

/-- Stable leaves are stable keys of one another. -/
theorem stable_leaf_key (p : Platform) (level : Int) (h : Heap) (ws : List Nat) (k x : Nat)
    (hk : stable_leaf p level h ws k) (hx : stable_leaf p level h ws x) :
    stable_key p h ws k x := by
  intro h' hag
  exact vector_eql_congr p h h' k x (fun w hw => hag w (hk.2.2.2.2 w hw))
    (fun w hw => hag w (hx.2.2.2.2 w hw))

/-- A general vector whose header is not one of the slots is a stable key of
every stable leaf: it never matches. -/
theorem general_vector_key (p : Platform) (level : Int) (h : Heap) (ws : List Nat) (v x : Nat)
    (hv : widetag_of p (h v) = p.SIMPLE_VECTOR_WIDETAG) (hvw : v ∉ ws)
    (hx : stable_leaf p level h ws x) : stable_key p h ws v x := by
  intro h' hag
  have hx0 := (stable_leaf_test p level h h' ws x hx hag).1
  have hv0 : h' v = h v := hag v hvw
  rw [vector_eql_of_widetag_ne p h v x (by rw [hv]; exact Ne.symm hx.2.1),
    vector_eql_of_widetag_ne p h' v x (by rw [hv0, hx0, hv]; exact Ne.symm hx.2.1)]

/-- A call on a slot that references an eligible object other than a general
vector is the lookup of the object. -/
theorem coalesce_obj_leaf (p : Platform) (level : Int) (fuel where_ : Nat) (h : Heap)
    (ht : hopscotch_table)
    (hlow : lowtag_of p (h where_) = p.OTHER_POINTER_LOWTAG)
    (helig : coalesce_obj_test p level h (native_pointer p (h where_)) = true)
    (hsv : widetag_of p (h (native_pointer p (h where_))) ≠ p.SIMPLE_VECTOR_WIDETAG) :
    coalesce_obj p level (fuel + 1) where_ h ht
      = coalesce_obj_intern p where_ (native_pointer p (h where_)) h ht := by
  apply coalesce_obj_eq_intern p level fuel where_ h ht h ht hlow helig
  unfold coalesce_obj_children
  rw [if_neg hsv]

/-- The representative of an object that has one does not change when keys
are added to the table. -/
theorem representative_append (p : Platform) (h : Heap) (ks l : List Nat) (x : Nat)
    (hx : probe (fun k => vector_eql p h k x) ks 0 ≠ 0) :
    probe (fun k => vector_eql p h k x) (ks ++ l) 0 = probe (fun k => vector_eql p h k x) ks 0
    ∧ representative p h (ks ++ l) x = representative p h ks x := by
  have e : probe (fun k => vector_eql p h k x) (ks ++ l) 0
      = probe (fun k => vector_eql p h k x) ks 0 := by rw [probe_append, if_pos hx]
  refine ⟨e, ?_⟩
  obtain ⟨-, hlen, -, -⟩ := probe_pos _ ks 0 hx
  unfold representative
  rw [e, getD_append_left _ _ _ (by simpa using hlen)]

/-- An object that matches no key represents itself once inserted. -/
theorem representative_new (p : Platform) (h : Heap) (ks : List Nat) (x : Nat)
    (hx : probe (fun k => vector_eql p h k x) ks 0 = 0) :
    probe (fun k => vector_eql p h k x) (ks ++ [x]) 0 = ks.length + 1
    ∧ representative p h (ks ++ [x]) x = x := by
  have e : probe (fun k => vector_eql p h k x) (ks ++ [x]) 0 = ks.length + 1 := by
    rw [probe_append, hx]
    simp [probe, vector_eql_refl]
  refine ⟨e, ?_⟩
  unfold representative
  rw [e]
  simp

/-- The call on a slot that references a stable leaf `x`: unless it ends in
`lose`, which it can only at a slot of read-only space, it returns with the
slot holding a pointer to the representative of `x`, the only word that may
have changed, and with `x` added to the table if it had no representative. -/
theorem coalesce_obj_stable_leaf (p : Platform) (level : Int) (fuel : Nat) (h0 h : Heap)
    (ws : List Nat) (t : hopscotch_table) (e : Nat)
    (hag : agree_off ws h0 h) (he : h e = h0 e)
    (hl : lowtag_of p (h0 e) = p.OTHER_POINTER_LOWTAG)
    (hx : stable_leaf p level h0 ws (native_pointer p (h0 e)))
    (hk : ∀ k ∈ t.keys, stable_key p h0 ws k (native_pointer p (h0 e))) :
    (coalesce_obj p level (fuel + 1) e h t = .lost
      ∧ e ≥ p.READ_ONLY_SPACE_START ∧ e < p.READ_ONLY_SPACE_END)
    ∨ ∃ h' t', coalesce_obj p level (fuel + 1) e h t = .done h' t'
        ∧ (∀ a, a ≠ e → h' a = h a)
        ∧ h' e = make_lispobj (representative p h0 t'.keys (native_pointer p (h0 e)))
            p.OTHER_POINTER_LOWTAG
        ∧ probe (fun k => vector_eql p h0 k (native_pointer p (h0 e))) t'.keys 0 ≠ 0
        ∧ ((t'.keys = t.keys
              ∧ probe (fun k => vector_eql p h0 k (native_pointer p (h0 e))) t.keys 0 ≠ 0)
           ∨ (t'.keys = t.keys ++ [native_pointer p (h0 e)]
              ∧ probe (fun k => vector_eql p h0 k (native_pointer p (h0 e))) t.keys 0 = 0)) := by
  obtain ⟨hx0, htest⟩ := stable_leaf_test p level h0 h ws _ hx hag
  have hcall : coalesce_obj p level (fuel + 1) e h t
      = coalesce_obj_intern p e (native_pointer p (h0 e)) h t := by
    have := coalesce_obj_leaf p level fuel e h t (by rw [he]; exact hl)
      (by rw [he]; exact htest) (by rw [he, hx0]; exact hx.2.1)
    rw [he] at this
    exact this
  have hget : hopscotch_get p h t (native_pointer p (h0 e))
      = probe (fun k => vector_eql p h0 k (native_pointer p (h0 e))) t.keys 0 := by
    unfold hopscotch_get
    exact probe_congr _ _ t.keys 0 (fun k hk' => hk k hk' h hag)
  have hptr : h0 e = make_lispobj (native_pointer p (h0 e)) p.OTHER_POINTER_LOWTAG := by
    conv_lhs => rw [← make_lispobj_native_pointer p (h0 e), hl]
  rw [hcall]
  unfold coalesce_obj_intern
  simp only [hget]
  by_cases hg : probe (fun k => vector_eql p h0 k (native_pointer p (h0 e))) t.keys 0 = 0
  · right
    rw [if_pos hg]
    obtain ⟨r1, r2⟩ := representative_new p h0 t.keys _ hg
    refine ⟨h, hopscotch_insert t (native_pointer p (h0 e)), rfl, fun _ _ => rfl, ?_, ?_,
      Or.inr ⟨rfl, hg⟩⟩
    · show h e = make_lispobj (representative p h0 (t.keys ++ [native_pointer p (h0 e)]) _) _
      rw [r2, he]; exact hptr
    · show probe _ (t.keys ++ [native_pointer p (h0 e)]) 0 ≠ 0
      rw [r1]; omega
  · rw [if_neg hg]
    split
    · rename_i hro
      exact Or.inl ⟨rfl, hro.1, hro.2.1⟩
    · right
      refine ⟨_, t, rfl, fun a ha => write_other _ _ _ _ ha, ?_, hg, Or.inl ⟨rfl, hg⟩⟩
      rw [write_same]; rfl

/-- The element loop over slots that reference stable leaves: unless it ends
in `lose`, which it can only at one of the slots that lies in read-only
space, it returns with every slot holding a pointer to the representative
of the object it referenced; only these slots changed, and the keys added to
the table are objects the slots referenced.  No key is added when every
object had a representative. -/
theorem coalesce_obj_elts_stable_leaves (p : Platform) (level : Int) (fuel : Nat) (h0 : Heap)
    (ws : List Nat) (V : Nat) (is : List Nat) :
    ∀ (h : Heap) (t : hopscotch_table),
      agree_off ws h0 h →
      (is.map (word_at p V)).Nodup →
      (∀ i ∈ is, word_at p V i ∈ ws ∧ h (word_at p V i) = h0 (word_at p V i)
        ∧ lowtag_of p (h0 (word_at p V i)) = p.OTHER_POINTER_LOWTAG
        ∧ stable_leaf p level h0 ws (native_pointer p (h0 (word_at p V i)))) →
      (∀ k ∈ t.keys, ∀ i ∈ is,
        stable_key p h0 ws k (native_pointer p (h0 (word_at p V i)))) →
      (coalesce_obj_elts p (coalesce_obj p level (fuel + 1)) V is h t = .lost
        ∧ ∃ i ∈ is, word_at p V i ≥ p.READ_ONLY_SPACE_START
            ∧ word_at p V i < p.READ_ONLY_SPACE_END)
      ∨ ∃ h' t', coalesce_obj_elts p (coalesce_obj p level (fuel + 1)) V is h t = .done h' t'
          ∧ agree_off ws h0 h'
          ∧ (∀ a, a ∉ is.map (word_at p V) → h' a = h a)
          ∧ (∀ i ∈ is,
              h' (word_at p V i)
                = make_lispobj (representative p h0 t'.keys
                    (native_pointer p (h0 (word_at p V i)))) p.OTHER_POINTER_LOWTAG
              ∧ probe (fun k => vector_eql p h0 k (native_pointer p (h0 (word_at p V i))))
                  t'.keys 0 ≠ 0)
          ∧ (∃ l, t'.keys = t.keys ++ l
              ∧ ∀ k ∈ l, ∃ i ∈ is, k = native_pointer p (h0 (word_at p V i)))
          ∧ ((∀ i ∈ is,
                probe (fun k => vector_eql p h0 k (native_pointer p (h0 (word_at p V i))))
                  t.keys 0 ≠ 0) → t'.keys = t.keys) := by
  induction is with
  | nil =>
    intro h t hag _ _ _
    right
    exact ⟨h, t, rfl, hag, fun _ _ => rfl, fun i hi => absurd hi (List.not_mem_nil i),
      ⟨[], by simp, fun k hk => absurd hk (List.not_mem_nil k)⟩, fun _ => rfl⟩
  | cons i is ih =>
    intro h t hag hnd hslots hkeys
    simp only [List.map_cons, List.nodup_cons] at hnd
    obtain ⟨hnotin, hnd'⟩ := hnd
    obtain ⟨hiw, hih, hil, hix⟩ := hslots i (List.mem_cons_self _ _)
    simp only [coalesce_obj_elts]
    rcases coalesce_obj_stable_leaf p level fuel h0 h ws t (word_at p V i) hag hih hil hix
      (fun k hk => hkeys k hk i (List.mem_cons_self _ _)) with
      ⟨hlost, hro⟩ | ⟨h1, t1, hdone, hother, hslot, hprobe, hkeys1⟩
    · left; rw [hlost]; exact ⟨rfl, i, List.mem_cons_self _ _, hro⟩
    · rw [hdone]
      have hag1 : agree_off ws h0 h1 := by
        intro a ha
        have hne : a ≠ word_at p V i := fun e => ha (e ▸ hiw)
        rw [hother a hne]; exact hag a ha
      have hslots1 : ∀ j ∈ is, word_at p V j ∈ ws ∧ h1 (word_at p V j) = h0 (word_at p V j)
          ∧ lowtag_of p (h0 (word_at p V j)) = p.OTHER_POINTER_LOWTAG
          ∧ stable_leaf p level h0 ws (native_pointer p (h0 (word_at p V j))) := by
        intro j hj
        obtain ⟨a1, a2, a3, a4⟩ := hslots j (List.mem_cons_of_mem _ hj)
        have hne : word_at p V j ≠ word_at p V i := by
          intro e
          exact hnotin (e ▸ List.mem_map_of_mem _ hj)
        exact ⟨a1, by rw [hother _ hne]; exact a2, a3, a4⟩
      have hkeys1' : ∀ k ∈ t1.keys, ∀ j ∈ is,
          stable_key p h0 ws k (native_pointer p (h0 (word_at p V j))) := by
        intro k hk j hj
        have hxj := (hslots j (List.mem_cons_of_mem _ hj)).2.2.2
        rcases hkeys1 with ⟨e, -⟩ | ⟨e, -⟩
        · rw [e] at hk
          exact hkeys k hk j (List.mem_cons_of_mem _ hj)
        · rw [e, List.mem_append, List.mem_singleton] at hk
          rcases hk with hk | hk
          · exact hkeys k hk j (List.mem_cons_of_mem _ hj)
          · rw [hk]; exact stable_leaf_key p level h0 ws _ _ hix hxj
      rcases ih h1 t1 hag1 hnd' hslots1 hkeys1' with
        ⟨hlost, j, hj, hro⟩ | ⟨h', t', hdone', hag', hother', hslots', ⟨l', hl', hmem'⟩, hsame'⟩
      · left; exact ⟨hlost, j, List.mem_cons_of_mem _ hj, hro⟩
      · right
        refine ⟨h', t', hdone', hag', ?_, ?_, ?_, ?_⟩
        · intro a ha
          simp only [List.map_cons, List.mem_cons, not_or] at ha
          rw [hother' a ha.2, hother a ha.1]
        · intro j hj
          rcases List.mem_cons.1 hj with e | hj'
          · subst e
            obtain ⟨r1, r2⟩ := representative_append p h0 t1.keys l' _ hprobe
            rw [hother' _ hnotin, hslot, hl', r2, r1]
            exact ⟨rfl, hprobe⟩
          · exact hslots' j hj'
        · rcases hkeys1 with ⟨e, -⟩ | ⟨e, -⟩
          · refine ⟨l', by rw [hl', e], ?_⟩
            intro k hk
            obtain ⟨j, hj, ej⟩ := hmem' k hk
            exact ⟨j, List.mem_cons_of_mem _ hj, ej⟩
          · refine ⟨native_pointer p (h0 (word_at p V i)) :: l', by rw [hl', e]; simp, ?_⟩
            intro k hk
            rcases List.mem_cons.1 hk with e' | hk'
            · exact ⟨i, List.mem_cons_self _ _, e'⟩
            · obtain ⟨j, hj, ej⟩ := hmem' k hk'
              exact ⟨j, List.mem_cons_of_mem _ hj, ej⟩
        · intro hall
          rcases hkeys1 with ⟨e, -⟩ | ⟨-, e0⟩
          · rw [← e]
            apply hsame'
            intro j hj
            rw [e]
            exact hall j (List.mem_cons_of_mem _ hj)
          · exact absurd e0 (hall i (List.mem_cons_self _ _))

/-- The test `eql_comparable_p` reads the header of the object only. -/
theorem eql_comparable_p_congr (p : Platform) (h h' : Heap) (v : Nat)
    (hv : h' (native_pointer p v) = h (native_pointer p v)) :
    eql_comparable_p p h' v = eql_comparable_p p h v := by
  rw [eql_comparable_p_eq, eql_comparable_p_eq, hv]

/-- Conversion to `int` does not increase a value that is not negative. -/
theorem to_int_le (x : Int) (hx : -1 ≤ x) : to_int x ≤ x := by
  unfold to_int
  norm_num
  omega

/-- If every element of a vector of non-negative length passes the test, so
does `vector_isevery`, whatever the length. -/
theorem vector_isevery_of_forall (p : Platform) (pred : Nat → Bool) (h : Heap) (v : Nat)
    (hlen : 0 ≤ fixnum_value p (h (word_at p v 1)))
    (hall : ∀ i, i < (fixnum_value p (h (word_at p v 1))).toNat →
      pred (h (word_at p v (2 + i))) = true) :
    vector_isevery p pred h v = true := by
  unfold vector_isevery
  simp only
  rw [vector_isevery_loop_iff]
  intro i hi
  apply hall
  have := to_int_le (fixnum_value p (h (word_at p v 1)) - 1) (by omega)
  omega

/-- Different words of an object have different addresses. -/
theorem word_at_injective (p : Platform) (hW : 0 < p.N_WORD_BYTES) (a i j : Nat)
    (hij : word_at p a i = word_at p a j) : i = j := by
  unfold word_at at hij
  have := Nat.add_left_cancel hij
  exact Nat.eq_of_mul_eq_mul_right hW this

/-- The element slots of a vector are pairwise different. -/
theorem elt_words_nodup (p : Platform) (hW : 0 < p.N_WORD_BYTES) (v n : Nat) :
    ((List.range' 2 n).map (word_at p v)).Nodup := by
  apply List.Nodup.map
  · intro i j hij
    exact word_at_injective p hW v i j hij
  · exact List.nodup_range' 2 n

/-- The words the element loop visits are the element slots. -/
theorem map_word_at_range' (p : Platform) (v n : Nat) :
    (List.range' 2 n).map (word_at p v) = elt_slots p v n := by
  unfold elt_slots elt_slot
  rw [List.range'_eq_map_range, List.map_map]
  rfl

/-- The indices of the element loop of a vector of length `n`. -/
theorem elt_indices_eq (p : Platform) (h : Heap) (v n : Nat)
    (hn : fixnum_value p (h (word_at p v 1)) = (n : Int)) :
    elt_indices p h v = List.range' 2 n := by
  unfold elt_indices
  rw [hn]
  simp

/-- The indices of the element loop are the element numbers plus two. -/
theorem mem_range'_two (n i : Nat) (hi : i ∈ List.range' 2 n) : ∃ j, j < n ∧ i = 2 + j := by
  have := List.mem_range'_1.1 hi
  exact ⟨i - 2, by omega, by omega⟩

/-- In the scenario of two vectors, the objects the elements reference are
stable leaves. -/
theorem TwoVectors.leaves (p : Platform) (hp : p.Sane) (level : Int) (h : Heap)
    (s1 s2 V1 V2 n : Nat) (hsc : TwoVectors p level h s1 s2 V1 V2 n) (j : Nat) (hj : j < n) :
    stable_leaf p level h (elt_slots p V1 n ++ elt_slots p V2 n) (elt_target p h V1 j)
    ∧ stable_leaf p level h (elt_slots p V1 n ++ elt_slots p V2 n) (elt_target p h V2 j) := by
  obtain ⟨a1, a2, a3⟩ := hsc.elements1 j hj
  obtain ⟨b1, b2, b3⟩ := hsc.elements2 j hj
  obtain ⟨c1, c2, c3⟩ := widetag_of_eql_comparable p hp h _ a1 a2
  obtain ⟨d1, d2, d3⟩ := widetag_of_eql_comparable p hp h _ b1 b2
  have hw := hsc.targets_apart j hj
  exact ⟨⟨a3, c1, c2, c3, fun w hw' => hw w (List.mem_append_left _ hw')⟩,
    ⟨b3, d1, d2, d3, fun w hw' => hw w (List.mem_append_right _ hw')⟩⟩

/-- In the scenario of two vectors, the slots of the element loop of either
vector are as the loop over stable leaves needs them, in every heap that
still holds the initial words in these slots. -/
theorem TwoVectors.slots (p : Platform) (hp : p.Sane) (level : Int) (h : Heap)
    (s1 s2 V1 V2 n : Nat) (hsc : TwoVectors p level h s1 s2 V1 V2 n) (h' : Heap) :
    ((∀ a ∈ elt_slots p V1 n, h' a = h a) →
      ∀ i ∈ List.range' 2 n, word_at p V1 i ∈ elt_slots p V1 n ++ elt_slots p V2 n
        ∧ h' (word_at p V1 i) = h (word_at p V1 i)
        ∧ lowtag_of p (h (word_at p V1 i)) = p.OTHER_POINTER_LOWTAG
        ∧ stable_leaf p level h (elt_slots p V1 n ++ elt_slots p V2 n)
            (native_pointer p (h (word_at p V1 i))))
    ∧ ((∀ a ∈ elt_slots p V2 n, h' a = h a) →
      ∀ i ∈ List.range' 2 n, word_at p V2 i ∈ elt_slots p V1 n ++ elt_slots p V2 n
        ∧ h' (word_at p V2 i) = h (word_at p V2 i)
        ∧ lowtag_of p (h (word_at p V2 i)) = p.OTHER_POINTER_LOWTAG
        ∧ stable_leaf p level h (elt_slots p V1 n ++ elt_slots p V2 n)
            (native_pointer p (h (word_at p V2 i)))) := by
  constructor
  · intro hh i hi
    obtain ⟨j, hj, rfl⟩ := mem_range'_two n i hi
    have hmem : word_at p V1 (2 + j) ∈ elt_slots p V1 n :=
      List.mem_map.2 ⟨j, List.mem_range.2 hj, rfl⟩
    exact ⟨List.mem_append_left _ hmem, hh _ hmem, (hsc.elements1 j hj).1,
      (TwoVectors.leaves p hp level h s1 s2 V1 V2 n hsc j hj).1⟩
  · intro hh i hi
    obtain ⟨j, hj, rfl⟩ := mem_range'_two n i hi
    have hmem : word_at p V2 (2 + j) ∈ elt_slots p V2 n :=
      List.mem_map.2 ⟨j, List.mem_range.2 hj, rfl⟩
    exact ⟨List.mem_append_right _ hmem, hh _ hmem, (hsc.elements2 j hj).1,
      (TwoVectors.leaves p hp level h s1 s2 V1 V2 n hsc j hj).2⟩

/-- In the scenario of two vectors, either vector passes the test of
`coalesce_obj` in every heap that holds the initial words in its header, its
length word and its element slots, and the initial headers in the objects
its elements reference. -/
theorem TwoVectors.test (p : Platform) (level : Int) (h : Heap)
    (V n : Nat) (h' : Heap)
    (hgen : widetag_of p (h V) = p.SIMPLE_VECTOR_WIDETAG)
    (hflag : h V &&& shareable_mask p level ≠ 0)
    (hlen : fixnum_value p (h (word_at p V 1)) = (n : Int))
    (helts : ∀ i, i < n → eql_comparable_p p h (h (elt_slot p V i)) = true)
    (h0 : h' V = h V) (h1 : h' (word_at p V 1) = h (word_at p V 1))
    (h2 : ∀ i, i < n → h' (elt_slot p V i) = h (elt_slot p V i))
    (h3 : ∀ i, i < n → h' (elt_target p h V i) = h (elt_target p h V i)) :
    coalesce_obj_test p level h' V = true := by
  unfold coalesce_obj_test coalesce_obj_vector_test
  simp only [h0, hgen, beq_self_eq_true, Bool.true_and, Bool.or_eq_true, Bool.and_eq_true,
    bne_iff_ne, ne_eq]
  left
  refine ⟨hflag, Or.inl ?_⟩
  apply vector_isevery_of_forall
  · rw [h1, hlen]; exact Int.natCast_nonneg n
  · rw [h1, hlen]
    intro i hi
    have hi' : i < n := by simpa using hi
    have e : h' (word_at p V (2 + i)) = h (elt_slot p V i) := h2 i hi'
    rw [e, eql_comparable_p_congr p h h' _ (h3 i hi')]
    exact helts i hi'

/-- A stable leaf does not match a general vector whose header is not one of
the slots, in any heap that differs on the slots only. -/
theorem stable_leaf_ne_vector (p : Platform) (level : Int) (h h' : Heap) (ws : List Nat)
    (k v : Nat) (hk : stable_leaf p level h ws k) (hag : agree_off ws h h')
    (hv : widetag_of p (h v) = p.SIMPLE_VECTOR_WIDETAG) (hvw : v ∉ ws) :
    vector_eql p h' k v = false := by
  have hk0 := (stable_leaf_test p level h h' ws k hk hag).1
  have hv0 : h' v = h v := hag v hvw
  exact vector_eql_of_widetag_ne p h' k v (by rw [hk0, hv0, hv]; exact hk.2.1)

/-- The first call in the scenario of two vectors: unless it ends in `lose`,
which it can only at an element slot of `V1` that lies in read-only space,
it coalesces the elements of `V1` and inserts `V1` after the
representatives of its elements. -/
theorem TwoVectors.first_call (p : Platform) (hp : p.Sane) (level : Int) (fuel : Nat) (h : Heap)
    (s1 s2 V1 V2 n : Nat) (hsc : TwoVectors p level h s1 s2 V1 V2 n) :
    (coalesce_obj p level (fuel + 2) s1 h hopscotch_create = .lost
      ∧ ∃ a ∈ elt_slots p V1 n, a ≥ p.READ_ONLY_SPACE_START ∧ a < p.READ_ONLY_SPACE_END)
    ∨ ∃ hA tA, coalesce_obj p level (fuel + 2) s1 h hopscotch_create
          = .done hA (hopscotch_insert tA V1)
        ∧ agree_off (elt_slots p V1 n ++ elt_slots p V2 n) h hA
        ∧ (∀ a, a ∉ elt_slots p V1 n → hA a = h a)
        ∧ (∀ j, j < n →
            hA (elt_slot p V1 j)
              = make_lispobj (representative p h tA.keys (elt_target p h V1 j))
                  p.OTHER_POINTER_LOWTAG
            ∧ probe (fun k => vector_eql p h k (elt_target p h V1 j)) tA.keys 0 ≠ 0)
        ∧ (∀ k ∈ tA.keys, ∃ j, j < n ∧ k = elt_target p h V1 j) := by
  have hV1w : V1 ∉ elt_slots p V1 n ++ elt_slots p V2 n := by
    have := (hsc.vectors_apart 0 (lt_of_lt_of_le (by decide) (le_max_left _ _))
      (Or.inl (by decide))).1
    rwa [word_at_zero] at this
  have htest : coalesce_obj_test p level h (native_pointer p (h s1)) = true := by
    rw [hsc.slot1.2]
    exact TwoVectors.test p level h V1 n h hsc.general1 hsc.flag1 hsc.length1
      (fun i hi => (hsc.elements1 i hi).2.1) rfl rfl (fun _ _ => rfl) (fun _ _ => rfl)
  have hloop := coalesce_obj_elts_stable_leaves p level fuel h
    (elt_slots p V1 n ++ elt_slots p V2 n) V1 (List.range' 2 n) h hopscotch_create
    (fun _ _ => rfl) (elt_words_nodup p hp.word_bytes_pos V1 n)
    ((TwoVectors.slots p hp level h s1 s2 V1 V2 n hsc h).1 (fun _ _ => rfl))
    (fun k hk => absurd hk (List.not_mem_nil k))
  have hchildren : coalesce_obj_children p (coalesce_obj p level (fuel + 1))
      (native_pointer p (h s1)) h hopscotch_create
      = coalesce_obj_elts p (coalesce_obj p level (fuel + 1)) V1 (List.range' 2 n) h
          hopscotch_create := by
    unfold coalesce_obj_children
    rw [hsc.slot1.2, if_pos hsc.general1, elt_indices_eq p h V1 n hsc.length1]
  rcases hloop with ⟨hlost, i, hi, hro⟩ | ⟨hA, tA, hdone, hag, hother, hslots, ⟨l, hl, hmem⟩, -⟩
  · left
    refine ⟨?_, word_at p V1 i, ?_, hro⟩
    · rw [coalesce_obj_succ]
      simp only [hsc.slot1.1, ne_eq, not_true_eq_false, if_false, htest, if_true, hchildren,
        hlost]
    · rw [← map_word_at_range']; exact List.mem_map_of_mem _ hi
  · have hkeys : ∀ k ∈ tA.keys, ∃ j, j < n ∧ k = elt_target p h V1 j := by
      intro k hk
      rw [hl] at hk
      simp only [hopscotch_create, List.nil_append] at hk
      obtain ⟨i, hi, e⟩ := hmem k hk
      obtain ⟨j, hj, rfl⟩ := mem_range'_two n i hi
      exact ⟨j, hj, e⟩
    have hget : hopscotch_get p hA tA V1 = 0 := by
      unfold hopscotch_get
      rw [probe_eq_zero_iff]
      intro k hk
      obtain ⟨j, hj, rfl⟩ := hkeys k hk
      exact stable_leaf_ne_vector p level h hA _ _ V1
        (TwoVectors.leaves p hp level h s1 s2 V1 V2 n hsc j hj).1 hag hsc.general1 hV1w
    right
    refine ⟨hA, tA, ?_, hag, ?_, ?_, hkeys⟩
    · rw [coalesce_obj_eq_intern p level (fuel + 1) s1 h hopscotch_create hA tA hsc.slot1.1
        htest (by rw [hchildren]; exact hdone)]
      rw [hsc.slot1.2]
      unfold coalesce_obj_intern
      simp only [hget, if_true]
    · intro a ha
      exact hother a (by rw [map_word_at_range']; exact ha)
    · intro j hj
      exact hslots (2 + j) (List.mem_range'_1.2 ⟨by omega, by omega⟩)

/-- Two different objects with the same widetag, the same size and the same
words after the header are content-equal. -/
theorem vector_eql_of_words (p : Platform) (h : Heap) (a b : Nat)
    (hw : widetag_of p (h a) = widetag_of p (h b)) (hs : obj_size p h a = obj_size p h b)
    (hall : ∀ i, 1 ≤ i → i < obj_size p h a → h (word_at p a i) = h (word_at p b i)) :
    vector_eql p h a b = true := by
  unfold vector_eql
  simp only [Bool.or_eq_true, Bool.and_eq_true, beq_iff_eq, List.all_eq_true]
  right
  refine ⟨⟨hw, hs⟩, fun i hi => ?_⟩
  have := List.mem_range'_1.1 hi
  exact hall i this.1 (by omega)

/-- A table is its list of keys. -/
theorem hopscotch_table_ext (t t' : hopscotch_table) (hk : t.keys = t'.keys) : t = t' := by
  cases t; cases t'; simp only at hk; rw [hk]

/-- The representative of an object is that of every object content-equal
to it. -/
theorem representative_congr (p : Platform) (h : Heap) (ks : List Nat) (x y : Nat)
    (hxy : vector_eql p h x y = true) :
    probe (fun k => vector_eql p h k y) ks 0 = probe (fun k => vector_eql p h k x) ks 0
    ∧ representative p h ks y = representative p h ks x := by
  have e : probe (fun k => vector_eql p h k y) ks 0 = probe (fun k => vector_eql p h k x) ks 0 :=
    probe_congr _ _ ks 0 (fun k _ => vector_eql_of_eql p h k x y hxy)
  exact ⟨e, by unfold representative; rw [e]⟩

/-- The second call in the scenario of two vectors, on the state the first
call left: unless it ends in `lose`, which it can only at the slot `s2` or
at an element slot of `V2` that lies in read-only space, it rewrites the
elements of `V2` to the words the elements of `V1` hold, finds `V1` for `V2`,
and stores the pointer to `V1` in the slot; the table is not changed. -/
theorem TwoVectors.second_call (p : Platform) (hp : p.Sane) (level : Int) (fuel : Nat)
    (h : Heap) (s1 s2 V1 V2 n : Nat) (hsc : TwoVectors p level h s1 s2 V1 V2 n)
    (hA : Heap) (tA : hopscotch_table)
    (hag : agree_off (elt_slots p V1 n ++ elt_slots p V2 n) h hA)
    (hother : ∀ a, a ∉ elt_slots p V1 n → hA a = h a)
    (hslots : ∀ j, j < n →
      hA (elt_slot p V1 j)
        = make_lispobj (representative p h tA.keys (elt_target p h V1 j))
            p.OTHER_POINTER_LOWTAG
      ∧ probe (fun k => vector_eql p h k (elt_target p h V1 j)) tA.keys 0 ≠ 0)
    (hkeys : ∀ k ∈ tA.keys, ∃ j, j < n ∧ k = elt_target p h V1 j) :
    (coalesce_obj p level (fuel + 2) s2 hA (hopscotch_insert tA V1) = .lost
      ∧ ∃ a ∈ s2 :: elt_slots p V2 n,
          a ≥ p.READ_ONLY_SPACE_START ∧ a < p.READ_ONLY_SPACE_END)
    ∨ ∃ h2, coalesce_obj p level (fuel + 2) s2 hA (hopscotch_insert tA V1)
          = .done h2 (hopscotch_insert tA V1)
        ∧ (∀ j, j < n → h2 (elt_slot p V1 j) = h2 (elt_slot p V2 j))
        ∧ (∀ j, j < n → h2 (elt_slot p V1 j) = hA (elt_slot p V1 j))
        ∧ h2 s1 = h s1 ∧ h2 s2 = h s1 := by
  -- the layout
  have hV1w : V1 ∉ elt_slots p V1 n ++ elt_slots p V2 n := by
    have := (hsc.vectors_apart 0 (lt_of_lt_of_le (by decide) (le_max_left _ _))
      (Or.inl (by decide))).1
    rwa [word_at_zero] at this
  have hV2w : V2 ∉ elt_slots p V1 n ++ elt_slots p V2 n := by
    have := (hsc.vectors_apart 0 (lt_of_lt_of_le (by decide) (le_max_left _ _))
      (Or.inl (by decide))).2
    rwa [word_at_zero] at this
  have hL1w := (hsc.vectors_apart 1 (lt_of_lt_of_le (by decide) (le_max_left _ _))
      (Or.inl (by decide))).1
  have hL2w := (hsc.vectors_apart 1 (lt_of_lt_of_le (by decide) (le_max_left _ _))
      (Or.inl (by decide))).2
  have hmem1 : ∀ j, j < n → elt_slot p V1 j ∈ elt_slots p V1 n :=
    fun j hj => List.mem_map.2 ⟨j, List.mem_range.2 hj, rfl⟩
  have hmem2 : ∀ j, j < n → elt_slot p V2 j ∈ elt_slots p V2 n :=
    fun j hj => List.mem_map.2 ⟨j, List.mem_range.2 hj, rfl⟩
  have h21 : ∀ a ∈ elt_slots p V2 n, a ∉ elt_slots p V1 n :=
    fun a ha2 ha1 => hsc.slots_apart a ha1 ha2
  have hs1w1 : s1 ∉ elt_slots p V1 n := fun hc => hsc.s1_apart.2 (List.mem_append_left _ hc)
  have hs1w2 : s1 ∉ elt_slots p V2 n := fun hc => hsc.s1_apart.2 (List.mem_append_right _ hc)
  have hlen2 : fixnum_value p (h (word_at p V2 1)) = (n : Int) := by
    rw [hsc.same_length]; exact hsc.length1
  have hs2A : hA s2 = h s2 := hag s2 hsc.s2_apart
  have hptr : h s1 = make_lispobj V1 p.OTHER_POINTER_LOWTAG := by
    conv_lhs => rw [← make_lispobj_native_pointer p (h s1), hsc.slot1.1, hsc.slot1.2]
  -- the second vector is still eligible
  have hlow2 : lowtag_of p (hA s2) = p.OTHER_POINTER_LOWTAG := by rw [hs2A]; exact hsc.slot2.1
  have hnat2 : native_pointer p (hA s2) = V2 := by rw [hs2A]; exact hsc.slot2.2
  have htest : coalesce_obj_test p level hA (native_pointer p (hA s2)) = true := by
    rw [hnat2]
    exact TwoVectors.test p level h V2 n hA hsc.general2 hsc.flag2 hlen2
      (fun i hi => (hsc.elements2 i hi).2.1) (hag V2 hV2w) (hag _ hL2w)
      (fun i hi => hother _ (h21 _ (hmem2 i hi)))
      (fun i hi => (stable_leaf_test p level h hA _ _
        (TwoVectors.leaves p hp level h s1 s2 V1 V2 n hsc i hi).2 hag).1)
  have hchildren : coalesce_obj_children p (coalesce_obj p level (fuel + 1))
      (native_pointer p (hA s2)) hA (hopscotch_insert tA V1)
      = coalesce_obj_elts p (coalesce_obj p level (fuel + 1)) V2 (List.range' 2 n) hA
          (hopscotch_insert tA V1) := by
    unfold coalesce_obj_children
    have e1 : elt_indices p hA V2 = List.range' 2 n := by
      apply elt_indices_eq
      rw [hag _ hL2w]; exact hlen2
    rw [hnat2, hag V2 hV2w, if_pos hsc.general2, e1]
  -- the element loop
  have hloop := coalesce_obj_elts_stable_leaves p level fuel h
    (elt_slots p V1 n ++ elt_slots p V2 n) V2 (List.range' 2 n) hA (hopscotch_insert tA V1)
    hag (elt_words_nodup p hp.word_bytes_pos V2 n)
    ((TwoVectors.slots p hp level h s1 s2 V1 V2 n hsc hA).2
      (fun a ha => hother a (h21 a ha)))
    (by
      intro k hk i hi
      obtain ⟨j, hj, rfl⟩ := mem_range'_two n i hi
      have hy := (TwoVectors.leaves p hp level h s1 s2 V1 V2 n hsc j hj).2
      simp only [hopscotch_insert, List.mem_append, List.mem_singleton] at hk
      rcases hk with hk | hk
      · obtain ⟨j', hj', rfl⟩ := hkeys k hk
        exact stable_leaf_key p level h _ _ _
          (TwoVectors.leaves p hp level h s1 s2 V1 V2 n hsc j' hj').1 hy
      · rw [hk]
        exact general_vector_key p level h _ V1 _ hsc.general1 hV1w hy)
  rcases hloop with ⟨hlost, i, hi, hro⟩ | ⟨hB, tB, hdone, hagB, hotherB, hslotsB, -, hsame⟩
  · left
    refine ⟨?_, word_at p V2 i, List.mem_cons_of_mem _ ?_, hro⟩
    · rw [coalesce_obj_succ]
      simp only [hlow2, ne_eq, not_true_eq_false, if_false, htest, if_true, hchildren, hlost]
    · rw [← map_word_at_range']; exact List.mem_map_of_mem _ hi
  · -- every element of the second vector has the representative of its twin
    have hrep : ∀ j, j < n →
        probe (fun k => vector_eql p h k (elt_target p h V2 j)) (tA.keys ++ [V1]) 0 ≠ 0
        ∧ representative p h (tA.keys ++ [V1]) (elt_target p h V2 j)
            = representative p h tA.keys (elt_target p h V1 j) := by
      intro j hj
      obtain ⟨c1, c2⟩ := representative_congr p h (tA.keys ++ [V1]) _ _ (hsc.content_equal j hj)
      obtain ⟨a1, a2⟩ := representative_append p h tA.keys [V1] _ (hslots j hj).2
      exact ⟨by rw [c1, a1]; exact (hslots j hj).2, by rw [c2, a2]⟩
    have htB : tB.keys = tA.keys ++ [V1] := by
      apply hsame
      intro i hi
      obtain ⟨j, hj, rfl⟩ := mem_range'_two n i hi
      exact (hrep j hj).1
    have htB' : tB = hopscotch_insert tA V1 := hopscotch_table_ext _ _ htB
    have helts : ∀ j, j < n → hB (elt_slot p V1 j) = hB (elt_slot p V2 j) := by
      intro j hj
      have e2 := (hslotsB (2 + j) (List.mem_range'_1.2 ⟨by omega, by omega⟩)).1
      have e1 : hB (elt_slot p V1 j) = hA (elt_slot p V1 j) :=
        hotherB _ (by rw [map_word_at_range']; exact hsc.slots_apart _ (hmem1 j hj))
      rw [e1, (hslots j hj).1]
      show _ = hB (word_at p V2 (2 + j))
      rw [e2, htB]
      exact congrArg (fun x => make_lispobj x p.OTHER_POINTER_LOWTAG) (hrep j hj).2.symm
    -- the lookup of the second vector finds the first
    have heql : vector_eql p hB V1 V2 = true := by
      have s1' : obj_size p hB V1 = obj_size p h V1 := by
        unfold obj_size; rw [hagB V1 hV1w, hagB _ hL1w]
      have s2' : obj_size p hB V2 = obj_size p h V2 := by
        unfold obj_size; rw [hagB V2 hV2w, hagB _ hL2w]
      apply vector_eql_of_words
      · rw [hagB V1 hV1w, hagB V2 hV2w, hsc.general1, hsc.general2]
      · rw [s1', s2', hsc.same_size]
      · intro i hi1 hi2
        rw [s1'] at hi2
        by_cases hi3 : i < 2
        · have : i = 1 := by omega
          subst this
          rw [hagB _ hL1w, hagB _ hL2w, hsc.same_length]
        · by_cases hi4 : i < n + 2
          · have := helts (i - 2) (by omega)
            unfold elt_slot at this
            rwa [show 2 + (i - 2) = i by omega] at this
          · have hw := hsc.vectors_apart i (lt_of_lt_of_le hi2 (le_max_right _ _))
              (Or.inr (by omega))
            rw [hagB _ hw.1, hagB _ hw.2, hsc.same_padding i (by omega) hi2]
    have hget : hopscotch_get p hB tB V2 = tA.keys.length + 1 := by
      unfold hopscotch_get
      rw [htB, probe_append]
      have h0 : probe (fun k => vector_eql p hB k V2) tA.keys 0 = 0 := by
        rw [probe_eq_zero_iff]
        intro k hk
        obtain ⟨j, hj, rfl⟩ := hkeys k hk
        exact stable_leaf_ne_vector p level h hB _ _ V2
          (TwoVectors.leaves p hp level h s1 s2 V1 V2 n hsc j hj).1 hagB hsc.general2 hV2w
      rw [h0]
      simp [probe, heql]
    have hkey : tB.keys.getD (hopscotch_get p hB tB V2 - 1) 0 = V1 := by
      rw [hget, htB]
      simp
    have hcall : coalesce_obj p level (fuel + 2) s2 hA (hopscotch_insert tA V1)
        = coalesce_obj_intern p s2 V2 hB tB := by
      rw [coalesce_obj_eq_intern p level (fuel + 1) s2 hA (hopscotch_insert tA V1) hB tB hlow2
        htest (by rw [hchildren]; exact hdone), hnat2]
    rw [hcall]
    unfold coalesce_obj_intern
    simp only [hkey]
    rw [if_neg (by rw [hget]; omega)]
    split
    · rename_i hro
      exact Or.inl ⟨rfl, s2, List.mem_cons_self _ _, hro.1, hro.2.1⟩
    · right
      have hs2e : ∀ j, j < n → elt_slot p V1 j ≠ s2 ∧ elt_slot p V2 j ≠ s2 := by
        intro j hj
        exact ⟨fun e => hsc.s2_apart (e ▸ List.mem_append_left _ (hmem1 j hj)),
          fun e => hsc.s2_apart (e ▸ List.mem_append_right _ (hmem2 j hj))⟩
      refine ⟨_, by rw [htB'], ?_, ?_, ?_, ?_⟩
      · intro j hj
        rw [write_other _ _ _ _ (hs2e j hj).1, write_other _ _ _ _ (hs2e j hj).2]
        exact helts j hj
      · intro j hj
        rw [write_other _ _ _ _ (hs2e j hj).1]
        exact hotherB _ (by rw [map_word_at_range']; exact hsc.slots_apart _ (hmem1 j hj))
      · rw [write_other _ _ _ _ hsc.s1_apart.1,
          hotherB _ (by rw [map_word_at_range']; exact hs1w2), hother _ hs1w1]
      · rw [write_same, hptr]

/-- The representative of an object that has one is a key of the table. -/
theorem representative_mem (p : Platform) (h : Heap) (ks : List Nat) (x : Nat)
    (hx : probe (fun k => vector_eql p h k x) ks 0 ≠ 0) : representative p h ks x ∈ ks := by
  obtain ⟨-, hlen, -, -⟩ := probe_pos _ ks 0 hx
  simp only [Nat.sub_zero] at hlen
  unfold representative
  rw [List.getD_eq_getElem _ _ hlen]
  exact List.getElem_mem _

/-- The example heap `heap_vectors` is an instance of the scenario of two
vectors. -/
theorem heap_vectors_scenario :
    TwoVectors example_platform 1 heap_vectors 0x3000 0x3008 0x8100 0x8120 2 where
  slot1 := by decide
  slot2 := by decide
  general1 := by decide
  general2 := by decide
  flag1 := by decide
  flag2 := by decide
  length1 := by decide
  same_length := by decide
  same_size := by decide
  same_padding := by decide
  elements1 := by decide
  elements2 := by decide
  content_equal := by decide
  slots_apart := by decide
  s1_apart := by decide
  s2_apart := by decide
  targets_apart := by decide
  vectors_apart := by decide

/-- C7, amended: two general vectors `V1` and `V2` of the same length, both
with a shareable flag the level selects, whose corresponding elements
reference content-equal eligible strings, in a heap of separate objects, and
two slots `s1` and `s2` that reference them.  Take `coalesce_obj` on `s1` and
then on `s2`, from an empty table.  Either a call ends in `lose`, and then
`s2` or an element slot of `V1` or of `V2` lies in read-only space; or the
calls return, and then the element slots of `V1` and `V2` hold identical
words, `s1` and `s2` both hold the pointer to `V1`, and `V1` is the last key
of the table: the objects its elements reference were entered before it,
children before parent. -/
theorem coalesce_obj_two_vectors (p : Platform) (hp : p.Sane) (level : Int) (fuel : Nat)
    (h : Heap) (s1 s2 V1 V2 n : Nat) (hsc : TwoVectors p level h s1 s2 V1 V2 n) :
    ((coalesce_obj p level (fuel + 2) s1 h hopscotch_create).bind
        (coalesce_obj p level (fuel + 2) s2) = .lost
      ∧ ∃ a ∈ s2 :: (elt_slots p V1 n ++ elt_slots p V2 n),
          a ≥ p.READ_ONLY_SPACE_START ∧ a < p.READ_ONLY_SPACE_END)
    ∨ ∃ h2 t2, (coalesce_obj p level (fuel + 2) s1 h hopscotch_create).bind
          (coalesce_obj p level (fuel + 2) s2) = .done h2 t2
        ∧ (∀ j, j < n → h2 (elt_slot p V1 j) = h2 (elt_slot p V2 j))
        ∧ h2 s1 = h s1 ∧ h2 s2 = h s1 ∧ native_pointer p (h2 s2) = V1
        ∧ ∃ l, t2.keys = l ++ [V1]
            ∧ ∀ j, j < n → native_pointer p (h2 (elt_slot p V1 j)) ∈ l := by
  rcases TwoVectors.first_call p hp level fuel h s1 s2 V1 V2 n hsc with
    ⟨hlost, a, ha, hro⟩ | ⟨hA, tA, hdone, hag, hother, hslots, hkeys⟩
  · left; rw [hlost]
    exact ⟨rfl, a, List.mem_cons_of_mem _ (List.mem_append_left _ ha), hro⟩
  · rw [hdone]
    simp only [Res.bind]
    rcases TwoVectors.second_call p hp level fuel h s1 s2 V1 V2 n hsc hA tA hag hother hslots
      hkeys with ⟨hlost, a, ha, hro⟩ | ⟨h2, hdone2, helts, hkeep, hs1, hs2⟩
    · left
      refine ⟨hlost, a, ?_, hro⟩
      rcases List.mem_cons.1 ha with e | ha'
      · rw [e]; exact List.mem_cons_self _ _
      · exact List.mem_cons_of_mem _ (List.mem_append_right _ ha')
    · right
      refine ⟨h2, hopscotch_insert tA V1, hdone2, helts, hs1, hs2, ?_, tA.keys, rfl, ?_⟩
      · rw [hs2]; exact hsc.slot1.2
      · intro j hj
        have hmem := representative_mem p h tA.keys _ (hslots j hj).2
        obtain ⟨j', -, e⟩ := hkeys _ hmem
        rw [hkeep j hj, (hslots j hj).1,
          native_pointer_make_lispobj p _ _ (by rw [e]; exact lowtag_of_native_pointer p _)
            hp.other_lt]
        exact hmem

/-- Witness of the amended C7: the two vectors of `heap_vectors` on the example
platform.  The calls return: both slots hold `0x810F`, and the table holds
the two strings and then the first vector. -/
theorem coalesce_obj_two_vectors_witness :
    example_platform.Sane
    ∧ TwoVectors example_platform 1 heap_vectors 0x3000 0x3008 0x8100 0x8120 2
    ∧ ((coalesce_obj example_platform 1 2 0x3000 heap_vectors hopscotch_create).bind
          (coalesce_obj example_platform 1 2 0x3008)).table_keys
        = some [0x8200, 0x8220, 0x8100]
    ∧ ∃ h2 t2, (coalesce_obj example_platform 1 2 0x3000 heap_vectors hopscotch_create).bind
          (coalesce_obj example_platform 1 2 0x3008) = .done h2 t2
        ∧ (∀ j, j < 2 → h2 (elt_slot example_platform 0x8100 j)
            = h2 (elt_slot example_platform 0x8120 j))
        ∧ h2 0x3000 = heap_vectors 0x3000 ∧ h2 0x3008 = heap_vectors 0x3000
        ∧ native_pointer example_platform (h2 0x3008) = 0x8100
        ∧ ∃ l, t2.keys = l ++ [0x8100]
            ∧ ∀ j, j < 2 → native_pointer example_platform
                (h2 (elt_slot example_platform 0x8100 j)) ∈ l :=
  ⟨example_platform_sane, heap_vectors_scenario, by decide,
    (coalesce_obj_two_vectors example_platform example_platform_sane 1 0 heap_vectors
      0x3000 0x3008 0x8100 0x8120 2 heap_vectors_scenario).resolve_left
      (fun hl => by
        have hk := congrArg Res.table_keys hl.1
        revert hk
        decide)⟩

/-- C11: when the word of the slot is not a general-object-pointer, and also
when it is one but the object it references fails the test of `coalesce_obj`
(neither a coalescible number nor an eligible vector at the level), the call
returns with the whole heap and the table as they were: no element of the
object is visited and nothing is looked up or inserted, whatever the object
contains. -/
theorem coalesce_obj_noop (p : Platform) (level : Int) (fuel where_ : Nat) (h : Heap)
    (ht : hopscotch_table)
    (hc : lowtag_of p (h where_) ≠ p.OTHER_POINTER_LOWTAG
      ∨ coalesce_obj_test p level h (native_pointer p (h where_)) = false) :
    coalesce_obj p level (fuel + 1) where_ h ht = .done h ht := by
  rw [coalesce_obj_succ]
  rcases hc with hc | hc
  · rw [if_pos hc]
  · by_cases hl : lowtag_of p (h where_) ≠ p.OTHER_POINTER_LOWTAG
    · rw [if_pos hl]
    · rw [if_neg hl, hc]
      rfl

/-- Witness of C11: the ratio at `0x8300` of `heap_ratios` is not eligible, and
the call on the slot `0x3000` that references it changes nothing, although
the numerator of the ratio references the eligible bignum at `0x8340`. -/
theorem coalesce_obj_noop_witness :
    coalesce_obj_test example_platform 1 heap_ratios 0x8340 = true
    ∧ coalesce_obj example_platform 1 3 0x3000 heap_ratios hopscotch_create
        = .done heap_ratios hopscotch_create :=
  ⟨by decide,
   coalesce_obj_noop example_platform 1 2 0x3000 heap_ratios hopscotch_create
     (Or.inr (by decide))⟩

theorem example_platform_headers : example_platform.Headers where
  lowtag_le := by decide
  other_lt := by decide
  named := by decide
  specialized := by
    intro w hw
    simp only [example_platform, decide_eq_true_eq] at hw
    show w % 2 ^ 4 ≠ 15
    omega

/-- A word whose widetag does not end in the lowtag of a general-object-pointer
is not a general-object-pointer. -/
theorem lowtag_ne_of_widetag (p : Platform) (hle : p.N_LOWTAG_BITS ≤ p.N_WIDETAG_BITS)
    (x w : Nat) (hx : widetag_of p x = w)
    (hw : w % 2 ^ p.N_LOWTAG_BITS ≠ p.OTHER_POINTER_LOWTAG) :
    lowtag_of p x ≠ p.OTHER_POINTER_LOWTAG := by
  have hdvd : 2 ^ p.N_LOWTAG_BITS ∣ 2 ^ p.N_WIDETAG_BITS := pow_dvd_pow 2 hle
  have e : lowtag_of p x = w % 2 ^ p.N_LOWTAG_BITS := by
    rw [← hx]; unfold lowtag_of widetag_of
    rw [Nat.mod_mod_of_dvd _ hdvd]
  rw [e]; exact hw

/-- Nothing changes between a heap and itself. -/
theorem pointer_changes_refl (p : Platform) (h : Heap) : pointer_changes p h h :=
  ⟨fun _ => rfl, fun _ hne => absurd rfl hne⟩

/-- A word that is not a general-object-pointer is not changed. -/
theorem pointer_changes_eq (p : Platform) (h h' : Heap) (hpc : pointer_changes p h h') (a : Nat)
    (ha : lowtag_of p (h a) ≠ p.OTHER_POINTER_LOWTAG) : h' a = h a := by
  by_contra hne
  exact ha (hpc.2 a hne)

/-- The lookup-insert-or-rewrite step changes general-object-pointers only,
and keeps the keys of the table object addresses. -/
theorem coalesce_obj_intern_pointer_changes (p : Platform)
    (hlt : p.OTHER_POINTER_LOWTAG < 2 ^ p.N_LOWTAG_BITS) (h : Heap) (w x : Nat)
    (h2 : Heap) (ht2 : hopscotch_table) (h3 : Heap) (ht3 : hopscotch_table)
    (hw : lowtag_of p (h w) = p.OTHER_POINTER_LOWTAG)
    (hinv : pointer_changes p h h2 ∧ keys_aligned p ht2)
    (hi : coalesce_obj_intern p w (native_pointer p x) h2 ht2 = .done h3 ht3) :
    pointer_changes p h h3 ∧ keys_aligned p ht3 := by
  obtain ⟨⟨i1, i2⟩, i3⟩ := hinv
  rcases coalesce_obj_intern_done p _ _ h2 ht2 h3 ht3 hi with ⟨-, e1, e2⟩ | ⟨hg, -, e1, e2⟩
  · rw [e1, e2]
    refine ⟨⟨i1, i2⟩, ?_⟩
    intro k hk
    simp only [hopscotch_insert, List.mem_append, List.mem_singleton] at hk
    rcases hk with hk | hk
    · exact i3 k hk
    · rw [hk]; exact lowtag_of_native_pointer p _
  · rw [e1, e2]
    have hmem := (hopscotch_get_pos p h2 ht2 _ hg).1
    have hptr := lowtag_of_make_lispobj p _ _ (i3 _ hmem) hlt
    refine ⟨⟨?_, ?_⟩, i3⟩
    · intro a
      by_cases ha : a = w
      · subst ha; rw [write_same, hptr, hw]
      · rw [write_other _ _ _ _ ha]; exact i1 a
    · intro a hne
      by_cases ha : a = w
      · subst ha; exact hw
      · rw [write_other _ _ _ _ ha] at hne; exact i2 a hne

/-- Every pass changes general-object-pointers only, and keeps the keys of
the table object addresses. -/
theorem Pass.pointer_changes (p : Platform) (level : Int)
    (hlt : p.OTHER_POINTER_LOWTAG < 2 ^ p.N_LOWTAG_BITS)
    (h : Heap) (ht : hopscotch_table) (h1 : Heap) (ht1 : hopscotch_table)
    (hkeys : keys_aligned p ht) (hpass : Pass p level h ht h1 ht1) :
    Coalesce.pointer_changes p h h1 ∧ keys_aligned p ht1 := by
  refine Pass.preserves p level
    (fun h' ht' => Coalesce.pointer_changes p h h' ∧ keys_aligned p ht') ?_ h ht h1 ht1 hpass
    ⟨pointer_changes_refl p h, hkeys⟩
  intro w h0 ht0 h2 ht2 h3 ht3 hl _ hinv0 hinv hi
  have hw : lowtag_of p (h w) = p.OTHER_POINTER_LOWTAG := by rw [← hinv0.1.1 w]; exact hl
  exact coalesce_obj_intern_pointer_changes p hlt h w _ h2 ht2 h3 ht3 hw hinv hi

/-- The element loop runs `call` on the first slot and then goes on with the
others. -/
theorem coalesce_obj_elts_cons (p : Platform) (call : Nat → Heap → hopscotch_table → Res)
    (obj i : Nat) (is : List Nat) (h : Heap) (ht : hopscotch_table) :
    coalesce_obj_elts p call obj (i :: is) h ht
      = (call (word_at p obj i) h ht).bind (coalesce_obj_elts p call obj is) := by
  simp only [coalesce_obj_elts, Res.bind]

/-- What holds of `0` and of each of the finitely many words that give a heap
holds of every word of the heap. -/
theorem heap_of_forall (l : List (Nat × Nat)) (P : Nat → Prop) (h0 : P 0)
    (hl : ∀ x ∈ l.map Prod.snd, P x) (a : Nat) : P (heap_of l a) := by
  induction l with
  | nil => simpa [heap_of] using h0
  | cons kv l ih =>
    obtain ⟨k, v⟩ := kv
    unfold heap_of at ih ⊢
    rw [List.lookup_cons]
    cases hk : a == k
    · exact ih (fun x hx => hl x (by simp only [List.map_cons, List.mem_cons]; exact Or.inr hx))
    · exact hl v (by simp)

/-- C14, as stated, fails for funcallable instances on builds without
compact instance headers, the example platform for one: there
`coalesce_range` gives a funcallable instance the default treatment.  The funcallable instance at
`0x3100` of `heap_records` has four words and a bitmap that marks its second
slot as raw data; the walk over it, with the bignum at `0x8020` in the table,
rewrites the word of that slot from `0x800F` to `0x802F`. -/
theorem coalesce_range_funcallable_raw_slot :
    example_platform.feature_compact_instance_header = false
    ∧ widetag_of example_platform (heap_records 0x3100)
        = example_platform.FUNCALLABLE_INSTANCE_WIDETAG
    ∧ example_platform.is_cons_half (heap_records 0x3100) = false
    ∧ obj_size example_platform heap_records 0x3100 = 4
    ∧ example_platform.layout_bitmap_logbitp heap_records (2 - 1)
        (example_platform.layout_bitmap heap_records
          (example_platform.instance_layout heap_records 0x3100)) = false
    ∧ heap_records (word_at example_platform 0x3100 2) = 0x800F
    ∧ (coalesce_obj example_platform 1 1 0x3000 heap_records hopscotch_create).table_keys
        = some [0x8020]
    ∧ ((coalesce_obj example_platform 1 1 0x3000 heap_records hopscotch_create).bind
        (coalesce_range example_platform 1 1 1 0x3100 0x3120)).word
          (word_at example_platform 0x3100 2) = some 0x802F := by
  decide

theorem code_platform_headers : code_platform.Headers where
  lowtag_le := by decide
  other_lt := by decide
  named := by decide
  specialized := by
    intro w hw
    simp only [code_platform, example_platform, decide_eq_true_eq] at hw
    show w % 2 ^ 4 ≠ 15
    omega

/-- The calls on the slots of two lists in a row. -/
theorem coalesce_slots_append (call : Nat → Heap → hopscotch_table → Res) (as bs : List Nat) :
    ∀ h ht, coalesce_slots call (as ++ bs) h ht
      = (coalesce_slots call as h ht).bind (coalesce_slots call bs) := by
  induction as with
  | nil => intro h ht; rfl
  | cons a as ih =>
    intro h ht
    simp only [List.cons_append, coalesce_slots]
    cases call a h ht with
    | done h1 ht1 => exact ih h1 ht1
    | lost => rfl
    | out_of_fuel => rfl

/-- The element loop is the calls on the words of the indices. -/
theorem coalesce_obj_elts_eq_slots (p : Platform) (call : Nat → Heap → hopscotch_table → Res)
    (obj : Nat) (is : List Nat) :
    ∀ h ht, coalesce_obj_elts p call obj is h ht
      = coalesce_slots call (is.map (word_at p obj)) h ht := by
  induction is with
  | nil => intro h ht; rfl
  | cons i is ih =>
    intro h ht
    rw [coalesce_obj_elts_cons]
    simp only [List.map_cons, coalesce_slots]
    cases call (word_at p obj i) h ht with
    | done h1 ht1 => exact ih h1 ht1
    | lost => rfl
    | out_of_fuel => rfl

/-- An invariant of `call` on the slots `Ok` is an invariant of the calls on
a list of slots that are all `Ok`. -/
theorem coalesce_slots_preserves_at (call : Nat → Heap → hopscotch_table → Res)
    (Inv : Heap → hopscotch_table → Prop) (Ok : Nat → Prop)
    (hcall : ∀ where_ h ht h1 ht1, Ok where_ → Inv h ht → call where_ h ht = .done h1 ht1 →
      Inv h1 ht1)
    (as : List Nat) (hok : ∀ a ∈ as, Ok a) :
    ∀ h ht h1 ht1, Inv h ht → coalesce_slots call as h ht = .done h1 ht1 → Inv h1 ht1 := by
  induction as with
  | nil =>
    intro h ht h1 ht1 hinv hres
    simp only [coalesce_slots, Res.done.injEq] at hres
    rw [← hres.1, ← hres.2]; exact hinv
  | cons a as ih =>
    intro h ht h1 ht1 hinv hres
    simp only [coalesce_slots] at hres
    obtain ⟨h2, ht2, e1, e2⟩ := Res.bind_done _ _ h1 ht1 hres
    exact ih (fun b hb => hok b (List.mem_cons_of_mem _ hb)) h2 ht2 h1 ht1
      (hcall a h ht h2 ht2 (hok a (List.mem_cons_self _ _)) hinv e1) e2

/-- The loop body of `coalesce_range` on an unboxed object makes no call and
goes on after the object. -/
theorem coalesce_range_object_unboxed (p : Platform)
    (call : Nat → Heap → hopscotch_table → Res) (where_ : Nat) (h : Heap) (ht : hopscotch_table)
    (hu : unboxed_object p h where_ = true) :
    coalesce_range_object p call where_ h ht = .done h ht
    ∧ coalesce_range_next p where_ h = word_at p where_ (obj_size p h where_) := by
  simp only [unboxed_object, Bool.and_eq_true, Bool.not_eq_true', decide_eq_true_eq,
    Bool.and_eq_false_imp, decide_eq_false_iff_not] at hu
  obtain ⟨⟨⟨⟨h1, h2⟩, h3⟩, h4⟩, h5⟩ := hu
  constructor
  · unfold coalesce_range_object
    simp only
    rw [h1, if_neg (by simp),
      if_neg (by
        intro hc
        rcases hc with hc | hc
        · exact h2 hc
        · exact h3 hc.1 hc.2),
      if_neg h4, h5, if_pos rfl]
  · unfold coalesce_range_next
    rw [h1, if_neg (by simp)]

/-- Sequencing is associative. -/
theorem Res.bind_assoc (r : Res) (f g : Heap → hopscotch_table → Res) :
    (r.bind f).bind g = r.bind (fun h ht => (f h ht).bind g) := by
  cases r <;> rfl

/-- Sequencing after a step that returned. -/
theorem Res.done_bind (h : Heap) (ht : hopscotch_table) (f : Heap → hopscotch_table → Res) :
    (Res.done h ht).bind f = f h ht := rfl

/-- Sequencing with a step that does nothing. -/
theorem Res.bind_done_right (r : Res) : r.bind (fun h ht => .done h ht) = r := by
  cases r <;> rfl

/-- Walking no region. -/
theorem walk_regions_nil (p : Platform) (level : Int) (depth steps : Nat) :
    walk_regions p level depth steps [] = fun h ht => .done h ht := by
  funext h ht; rfl

/-- Walking a region and then others. -/
theorem walk_regions_cons (p : Platform) (level : Int) (depth steps : Nat) (r : Nat × Nat)
    (rs : List (Nat × Nat)) :
    walk_regions p level depth steps (r :: rs)
      = fun h ht => (coalesce_range p level depth steps r.1 r.2 h ht).bind
          (walk_regions p level depth steps rs) := by
  funext h ht; rfl

/-- The walk of the collectible pages is the walk of their runs in order. -/
theorem walk_generation_eq_fn (p : Platform) (level : Int) (depth steps : Nat)
    (rs : List (Nat × Nat)) :
    walk_generation (coalesce_range p level depth steps) rs
      = walk_regions p level depth steps rs := by
  induction rs with
  | nil => funext h ht; rfl
  | cons r rs ih =>
    funext h ht
    simp only [walk_generation, walk_regions]
    rw [ih]

/-- Walking two lists of regions in a row. -/
theorem walk_regions_append (p : Platform) (level : Int) (depth steps : Nat)
    (rs1 rs2 : List (Nat × Nat)) :
    ∀ h ht, walk_regions p level depth steps (rs1 ++ rs2) h ht
      = (walk_regions p level depth steps rs1 h ht).bind
          (walk_regions p level depth steps rs2) := by
  induction rs1 with
  | nil => intro h ht; rfl
  | cons r rs ih =>
    intro h ht
    simp only [List.cons_append, walk_regions]
    rw [Res.bind_assoc]
    congr 1
    funext a b
    exact ih a b

/-- A completed walk of a region only adds keys to the table, at its end. -/
theorem coalesce_range_keys_extend (p : Platform) (level : Int) (depth steps where_ limit : Nat)
    (h : Heap) (ht : hopscotch_table) (h1 : Heap) (ht1 : hopscotch_table)
    (hres : coalesce_range p level depth steps where_ limit h ht = .done h1 ht1) :
    ∃ l, ht1.keys = ht.keys ++ l := by
  refine coalesce_range_preserves p level depth (fun _ ht' => ∃ l, ht'.keys = ht.keys ++ l) ?_
    steps where_ limit h ht h1 ht1 ⟨[], by simp⟩ hres
  intro w x t x1 t1 hinv hc
  obtain ⟨l, hl⟩ := hinv
  obtain ⟨l1, hl1⟩ := coalesce_obj_keys_extend p level depth w x t x1 t1 hc
  exact ⟨l ++ l1, by rw [hl1, hl, List.append_assoc]⟩

/-- A completed walk of a list of regions only adds keys to the table, at
its end. -/
theorem walk_regions_keys_extend (p : Platform) (level : Int) (depth steps : Nat)
    (rs : List (Nat × Nat)) :
    ∀ h ht h1 ht1, walk_regions p level depth steps rs h ht = .done h1 ht1 →
      ∃ l, ht1.keys = ht.keys ++ l := by
  induction rs with
  | nil =>
    intro h ht h1 ht1 hres
    simp only [walk_regions, Res.done.injEq] at hres
    exact ⟨[], by rw [← hres.2]; simp⟩
  | cons r rs ih =>
    intro h ht h1 ht1 hres
    simp only [walk_regions] at hres
    obtain ⟨h2, ht2, e1, e2⟩ := Res.bind_done _ _ h1 ht1 hres
    obtain ⟨l, hl⟩ := coalesce_range_keys_extend p level depth steps _ _ h ht h2 ht2 e1
    obtain ⟨l1, hl1⟩ := ih h2 ht2 h1 ht1 e2
    exact ⟨l ++ l1, by rw [hl1, hl, List.append_assoc]⟩

set_option maxRecDepth 1000000 in
/-- C17, as stated, fails on a Windows build, which walks neither the
read-only nor the static space.  On the example platform with the spaces of
such a build, the driver on `heap_spaces` leaves the static slot `0x3000` out,
makes the collectible bignum `B` at `0x8000` the key and redirects the second
half of the pair at `0x8010` to it; walking the regions in the order of the
claim makes the static bignum `A` at `0x2100` the key and redirects the first
half of the pair to it. -/
theorem coalesce_similar_objects_win32 :
    win32_spaces.feature_win32 = true
    ∧ (coalesce_similar_objects_walks example_platform win32_spaces 1 1 2000
        heap_spaces).table_keys = some [0x8000]
    ∧ (coalesce_similar_objects_walks example_platform win32_spaces 1 1 2000
        heap_spaces).word 0x8018 = some 0x800F
    ∧ (walk_regions example_platform 1 1 2000 (spec_regions example_platform win32_spaces)
        heap_spaces hopscotch_create).table_keys = some [0x2100]
    ∧ (walk_regions example_platform 1 1 2000 (spec_regions example_platform win32_spaces)
        heap_spaces hopscotch_create).word 0x8018 = some 0x210F
    ∧ (walk_regions example_platform 1 1 2000 (spec_regions example_platform win32_spaces)
        heap_spaces hopscotch_create).word 0x8010 = some 0x210F := by
  decide

/-- C18, as stated, fails for a run that ends in the fatal abort: `lose` does
not return, and the call of `hopscotch_destroy` comes after the walks.  On
`heap_guard`, in which no slot of read-only space references a collectible
object, the walk of read-only space first inserts the collectible bignum at
`0x8000`, an element of the vector the slot `0x1000` references, and then
finds it for the static bignum the slot `0x1008` references: the guard ends
the run, and the table is not destroyed. -/
theorem coalesce_similar_objects_lost :
    gcable_pointer_p example_platform (heap_guard 0x1000) = false
    ∧ gcable_pointer_p example_platform (heap_guard 0x1008) = false
    ∧ coalesce_obj example_platform 1 2 0x1000 heap_guard hopscotch_create
        = .done heap_guard ⟨[0x8000, 0x2200]⟩
    ∧ coalesce_obj example_platform 1 2 0x1008 heap_guard ⟨[0x8000, 0x2200]⟩ = .lost
    ∧ (coalesce_similar_objects example_platform example_spaces 1 2 2000 heap_guard).outcome
        = .lost
    ∧ (coalesce_similar_objects example_platform example_spaces 1 2 2000
        heap_guard).table_destroyed = false :=
  ⟨by decide, by decide, rfl, rfl, rfl, rfl⟩

/-- C18, amended: `coalesce_similar_objects` destroys the table exactly when
all its walks returned, that is when the pass completes normally; the run
then leaves the heap of the last walk.  When a walk ends in the fatal abort
of the guard, the run ends there and the table is not destroyed. -/
theorem coalesce_similar_objects_destroys (p : Platform) (s : Spaces) (level : Int)
    (depth steps : Nat) (h : Heap) :
    ((coalesce_similar_objects p s level depth steps h).table_destroyed = true
      ↔ ∃ h1 ht1, coalesce_similar_objects_walks p s level depth steps h = .done h1 ht1)
    ∧ (∀ h1 ht1, coalesce_similar_objects_walks p s level depth steps h = .done h1 ht1 →
        (coalesce_similar_objects p s level depth steps h).outcome = .done h1 ht1
        ∧ (coalesce_similar_objects p s level depth steps h).table_destroyed = true)
    ∧ (coalesce_similar_objects_walks p s level depth steps h = .lost →
        (coalesce_similar_objects p s level depth steps h).outcome = .lost
        ∧ (coalesce_similar_objects p s level depth steps h).table_destroyed = false) := by
  unfold coalesce_similar_objects
  cases hw : coalesce_similar_objects_walks p s level depth steps h with
  | done h1 ht1 =>
    refine ⟨⟨fun _ => ⟨h1, ht1, rfl⟩, fun _ => rfl⟩, ?_, ?_⟩
    · intro h2 ht2 e
      rw [← e]
      exact ⟨rfl, rfl⟩
    · intro e; cases e
  | lost =>
    refine ⟨⟨fun e => (by cases e), fun ⟨_, _, e⟩ => (by cases e)⟩, ?_, ?_⟩
    · intro h2 ht2 e; cases e
    · intro _; exact ⟨rfl, rfl⟩
  | out_of_fuel =>
    refine ⟨⟨fun e => (by cases e), fun ⟨_, _, e⟩ => (by cases e)⟩, ?_, ?_⟩
    · intro h2 ht2 e; cases e
    · intro e; cases e

set_option maxRecDepth 1000000 in
/-- Witness of the amended C18: the run on `heap_spaces` completes and
destroys the table; the run on `heap_guard` ends in the guard and does
not. -/
theorem coalesce_similar_objects_destroys_witness :
    (coalesce_similar_objects example_platform example_spaces 1 1 2000
        heap_spaces).table_destroyed = true
    ∧ (coalesce_similar_objects example_platform example_spaces 1 2 2000
        heap_guard).table_destroyed = false :=
  ⟨((coalesce_similar_objects_destroys example_platform example_spaces 1 1 2000
      heap_spaces).2.1 (write (write heap_spaces 0x8010 0x210F) 0x8018 0x210F) ⟨[0x2100]⟩
      rfl).2,
   ((coalesce_similar_objects_destroys example_platform example_spaces 1 2 2000
      heap_guard).2.2 rfl).2⟩

/-- A call on a slot that holds no general-object-pointer, or one to an object
that fails the test, returns at once. -/
theorem coalesce_obj_noop_of (p : Platform) (level : Int) (fuel where_ : Nat) (h : Heap)
    (ht : hopscotch_table)
    (hc : lowtag_of p (h where_) ≠ p.OTHER_POINTER_LOWTAG
      ∨ coalesce_obj_test p level h (native_pointer p (h where_)) = false) :
    coalesce_obj p level (fuel + 1) where_ h ht = .done h ht := by
  rw [coalesce_obj_succ]
  rcases hc with hc | hc
  · rw [if_pos hc]
  · by_cases hl : lowtag_of p (h where_) ≠ p.OTHER_POINTER_LOWTAG
    · rw [if_pos hl]
    · rw [if_neg hl, hc]
      rfl

/-- On `heap_cyclic_vector` a call on a slot that references the vector at
`0x8100` recurses into its first element, which references it again: no
depth of recursion is enough. -/
theorem coalesce_obj_cyclic (level : Int) (hl : level = 1) (fuel : Nat) :
    ∀ where_ ht, heap_cyclic_vector where_ = 0x810F →
      coalesce_obj example_platform level fuel where_ heap_cyclic_vector ht = .out_of_fuel := by
  subst hl
  induction fuel with
  | zero => intro where_ ht _; rfl
  | succ fuel ih =>
    intro where_ ht hw
    rw [coalesce_obj_succ, hw]
    have h1 : lowtag_of example_platform 0x810F = example_platform.OTHER_POINTER_LOWTAG := by
      decide
    have h2 : native_pointer example_platform 0x810F = 0x8100 := by decide
    have h3 : coalesce_obj_test example_platform 1 heap_cyclic_vector 0x8100 = true := by
      decide
    have h4 : widetag_of example_platform (heap_cyclic_vector 0x8100)
        = example_platform.SIMPLE_VECTOR_WIDETAG := by decide
    have h5 : elt_indices example_platform heap_cyclic_vector 0x8100
        = 2 :: List.range' 3 2147483648 := by
      have e : fixnum_value example_platform
          (heap_cyclic_vector (word_at example_platform 0x8100 1)) = (2147483649 : Nat) := by
        decide
      rw [elt_indices_eq example_platform heap_cyclic_vector 0x8100 2147483649 e]
      exact List.range'_succ 2 2147483648 1
    have h6 : word_at example_platform 0x8100 2 = 0x8110 := by decide
    rw [if_neg (not_not.2 h1), h2, h3, if_pos rfl]
    unfold coalesce_obj_children
    rw [if_pos h4, h5]
    rw [coalesce_obj_elts_cons, h6, ih 0x8110 ht (by decide)]
    rfl

/-- The lookup-insert-or-rewrite step has no recursion. -/
theorem coalesce_obj_intern_ne_out_of_fuel (p : Platform) (where_ obj : Nat) (h : Heap)
    (ht : hopscotch_table) : coalesce_obj_intern p where_ obj h ht ≠ .out_of_fuel := by
  unfold coalesce_obj_intern
  simp only
  split
  · exact fun e => Res.noConfusion e
  · split
    · exact fun e => Res.noConfusion e
    · exact fun e => Res.noConfusion e

/-- A general vector that passes the test of `coalesce_obj` passed
`vector_isevery`. -/
theorem vector_isevery_of_test (p : Platform) (hp : p.Sane) (level : Int) (h : Heap) (v : Nat)
    (hsv : widetag_of p (h v) = p.SIMPLE_VECTOR_WIDETAG)
    (ht : coalesce_obj_test p level h v = true) :
    vector_isevery p (eql_comparable_p p h) h v = true := by
  have hnd := hp.widetags_nodup
  have hsp : p.specialized_vector_widetag_p p.SIMPLE_VECTOR_WIDETAG = false :=
    hp.not_specialized _ (by simp)
  have d0 : p.SIMPLE_VECTOR_WIDETAG ≠ p.BIGNUM_WIDETAG :=
    ne_of_nodup_getElem? hnd 9 0 p.SIMPLE_VECTOR_WIDETAG p.BIGNUM_WIDETAG
      (by simp [widetags]) (by simp [widetags]) (by decide)
  have d1 : p.SIMPLE_VECTOR_WIDETAG ≠ p.RATIO_WIDETAG :=
    ne_of_nodup_getElem? hnd 9 1 p.SIMPLE_VECTOR_WIDETAG p.RATIO_WIDETAG
      (by simp [widetags]) (by simp [widetags]) (by decide)
  have d2 : p.SIMPLE_VECTOR_WIDETAG ≠ p.COMPLEX_WIDETAG :=
    ne_of_nodup_getElem? hnd 9 2 p.SIMPLE_VECTOR_WIDETAG p.COMPLEX_WIDETAG
      (by simp [widetags]) (by simp [widetags]) (by decide)
  have d3 : p.SIMPLE_VECTOR_WIDETAG ≠ p.SINGLE_FLOAT_WIDETAG :=
    ne_of_nodup_getElem? hnd 9 3 p.SIMPLE_VECTOR_WIDETAG p.SINGLE_FLOAT_WIDETAG
      (by simp [widetags]) (by simp [widetags]) (by decide)
  have d4 : p.SIMPLE_VECTOR_WIDETAG ≠ p.DOUBLE_FLOAT_WIDETAG :=
    ne_of_nodup_getElem? hnd 9 4 p.SIMPLE_VECTOR_WIDETAG p.DOUBLE_FLOAT_WIDETAG
      (by simp [widetags]) (by simp [widetags]) (by decide)
  have d5 : p.SIMPLE_VECTOR_WIDETAG ≠ p.COMPLEX_SINGLE_FLOAT_WIDETAG :=
    ne_of_nodup_getElem? hnd 9 5 p.SIMPLE_VECTOR_WIDETAG p.COMPLEX_SINGLE_FLOAT_WIDETAG
      (by simp [widetags]) (by simp [widetags]) (by decide)
  have d6 : p.SIMPLE_VECTOR_WIDETAG ≠ p.COMPLEX_DOUBLE_FLOAT_WIDETAG :=
    ne_of_nodup_getElem? hnd 9 6 p.SIMPLE_VECTOR_WIDETAG p.COMPLEX_DOUBLE_FLOAT_WIDETAG
      (by simp [widetags]) (by simp [widetags]) (by decide)
  have hnum : coalescible_number_p p h v = false := by
    unfold coalescible_number_p
    simp [hsv, d0, d1, d2, d3, d4, d5, d6]
  unfold coalesce_obj_test at ht
  rw [hnum, Bool.or_false] at ht
  unfold coalesce_obj_vector_test at ht
  simp only [hsv, hsp, Bool.or_false, Bool.and_eq_true, beq_self_eq_true, true_and] at ht
  exact ht.2

/-- A call on a slot that does not reference a general vector that passes the
test makes no recursive call: any depth of at least one is enough.  When it
returns, general-object-pointers only have changed, no word but that of the
slot has, and the keys are object addresses. -/
theorem coalesce_obj_flat (p : Platform) (hh : p.Headers) (level : Int) (fuel where_ : Nat)
    (h h' : Heap) (ht' : hopscotch_table)
    (hinv : pointer_changes p h h' ∧ keys_aligned p ht')
    (hflat : lowtag_of p (h' where_) = p.OTHER_POINTER_LOWTAG →
      coalesce_obj_test p level h' (native_pointer p (h' where_)) = true →
      widetag_of p (h' (native_pointer p (h' where_))) ≠ p.SIMPLE_VECTOR_WIDETAG) :
    coalesce_obj p level (fuel + 1) where_ h' ht' = .lost
    ∨ ∃ h1 ht1, coalesce_obj p level (fuel + 1) where_ h' ht' = .done h1 ht1
        ∧ (pointer_changes p h h1 ∧ keys_aligned p ht1)
        ∧ ∀ a, a ≠ where_ → h1 a = h' a := by
  by_cases hl : lowtag_of p (h' where_) = p.OTHER_POINTER_LOWTAG
  · cases htest : coalesce_obj_test p level h' (native_pointer p (h' where_)) with
    | false =>
      right
      exact ⟨h', ht', coalesce_obj_noop_of p level fuel where_ h' ht' (Or.inr htest), hinv,
        fun _ _ => rfl⟩
    | true =>
      have hleaf := coalesce_obj_leaf p level fuel where_ h' ht' hl htest (hflat hl htest)
      rw [hleaf]
      cases hi : coalesce_obj_intern p where_ (native_pointer p (h' where_)) h' ht' with
      | lost => exact Or.inl rfl
      | out_of_fuel => exact absurd hi (coalesce_obj_intern_ne_out_of_fuel p _ _ _ _)
      | done h1 ht1 =>
        right
        have hw : lowtag_of p (h where_) = p.OTHER_POINTER_LOWTAG := by
          rw [← hinv.1.1 where_]; exact hl
        refine ⟨h1, ht1, rfl,
          coalesce_obj_intern_pointer_changes p hh.other_lt h where_ _ h' ht' h1 ht1 hw hinv hi,
          ?_⟩
        intro a ha
        rcases coalesce_obj_intern_done p _ _ h' ht' h1 ht1 hi with ⟨-, e1, -⟩ | ⟨-, -, e1, -⟩
        · rw [e1]
        · rw [e1, write_other _ _ _ _ ha]
  · right
    exact ⟨h', ht', coalesce_obj_noop_of p level fuel where_ h' ht' (Or.inl hl), hinv,
      fun _ _ => rfl⟩

/-- The element loop over slots that hold eql-comparable words makes no
recursive call beyond its own calls: a depth of one is enough for each. -/
theorem coalesce_obj_elts_flat (p : Platform) (hp : p.Sane) (hh : p.Headers) (level : Int)
    (fuel : Nat) (h : Heap) (v : Nat) (is : List Nat) :
    ∀ h' ht', is.Nodup → pointer_changes p h h' ∧ keys_aligned p ht' →
      (∀ j ∈ is, h' (word_at p v j) = h (word_at p v j)) →
      (∀ j ∈ is, eql_comparable_p p h (h (word_at p v j)) = true) →
      coalesce_obj_elts p (coalesce_obj p level (fuel + 1)) v is h' ht' ≠ .out_of_fuel := by
  induction is with
  | nil =>
    intro h' ht' _ _ _ _
    exact fun e => Res.noConfusion e
  | cons i is ih =>
    intro h' ht' hnd hinv hsame hcmp
    rw [coalesce_obj_elts_cons]
    have hflat : lowtag_of p (h' (word_at p v i)) = p.OTHER_POINTER_LOWTAG →
        coalesce_obj_test p level h' (native_pointer p (h' (word_at p v i))) = true →
        widetag_of p (h' (native_pointer p (h' (word_at p v i))))
          ≠ p.SIMPLE_VECTOR_WIDETAG := by
      intro hl _ hsv
      rw [hsame i (List.mem_cons_self _ _)] at hl hsv
      have hsvmem : p.SIMPLE_VECTOR_WIDETAG ∈ widetags p ++ [p.INSTANCE_WIDETAG,
          p.FUNCALLABLE_INSTANCE_WIDETAG, p.CODE_HEADER_WIDETAG] := by simp [widetags]
      have hlx := lowtag_ne_of_widetag p hh.lowtag_le _ _ hsv (hh.named _ hsvmem)
      rw [hinv.1.1] at hlx
      rw [pointer_changes_eq p h h' hinv.1 _ hlx] at hsv
      exact (widetag_of_eql_comparable p hp h _ hl (hcmp i (List.mem_cons_self _ _))).1 hsv
    rcases coalesce_obj_flat p hh level fuel (word_at p v i) h h' ht' hinv hflat with
      e | ⟨h1, ht1, e, hinv1, hoth⟩
    · rw [e]; exact fun e => Res.noConfusion e
    · rw [e]
      have hnd' := List.nodup_cons.1 hnd
      refine ih h1 ht1 hnd'.2 hinv1 ?_ (fun j hj => hcmp j (List.mem_cons_of_mem _ hj))
      intro j hj
      have hne : word_at p v j ≠ word_at p v i := by
        intro e
        have := word_at_injective p hp.word_bytes_pos v j i e
        rw [this] at hj
        exact hnd'.1 hj
      rw [hoth _ hne]
      exact hsame j (List.mem_cons_of_mem _ hj)

/-- Apart from vectors longer than a C `int` counts, `coalesce_obj` terminates
with a recursion of depth one: on a table whose keys are object addresses, a
call on a slot that does not reference a general vector whose length is
outside the range of `int` returns or ends in `lose` when the model allows
for the top-level call and one level of recursive calls. -/
theorem coalesce_obj_depth_two (p : Platform) (hp : p.Sane) (hh : p.Headers) (level : Int)
    (fuel where_ : Nat) (h : Heap) (ht : hopscotch_table) (hkeys : keys_aligned p ht)
    (hlen : widetag_of p (h (native_pointer p (h where_))) = p.SIMPLE_VECTOR_WIDETAG →
      -2 ^ 31 < fixnum_value p (h (word_at p (native_pointer p (h where_)) 1))
      ∧ fixnum_value p (h (word_at p (native_pointer p (h where_)) 1)) ≤ 2 ^ 31) :
    coalesce_obj p level (fuel + 2) where_ h ht ≠ .out_of_fuel := by
  rw [coalesce_obj_succ]
  split
  · exact fun e => Res.noConfusion e
  · split
    · rename_i hl htest
      have hch : coalesce_obj_children p (coalesce_obj p level (fuel + 1))
          (native_pointer p (h where_)) h ht ≠ .out_of_fuel := by
        unfold coalesce_obj_children
        split
        · rename_i hsv
          have hev := vector_isevery_of_test p hp level h _ hsv htest
          rw [vector_isevery_iff p _ h _ (hlen hsv).1 (hlen hsv).2] at hev
          refine coalesce_obj_elts_flat p hp hh level fuel h _ _ h ht (List.nodup_range' _ _)
            ⟨pointer_changes_refl p h, hkeys⟩ (fun _ _ => rfl) ?_
          intro j hj
          obtain ⟨i, hi, e⟩ := mem_range'_two _ j hj
          rw [e]
          exact hev i hi
        · exact fun e => Res.noConfusion e
      cases hc : coalesce_obj_children p (coalesce_obj p level (fuel + 1))
          (native_pointer p (h where_)) h ht with
      | done h1 ht1 => exact coalesce_obj_intern_ne_out_of_fuel p _ _ _ _
      | lost => exact fun e => Res.noConfusion e
      | out_of_fuel => exact absurd hc hch
    · exact fun e => Res.noConfusion e

/-- C19 fails for a general vector longer than a C `int` counts, by the defect
of `vector_isevery` that C8 records: on `heap_cyclic_vector` the vector at
`0x8100` has `2^31 + 1` elements and passes the test of `coalesce_obj`
although its first element is not eql-comparable but a reference to the
vector itself.  The call on the slot `0x3000` recurses into that element and
from there into the same element again, without end: in the model, no depth
of recursion lets the call return. -/
theorem coalesce_obj_cyclic_huge_vector :
    widetag_of example_platform (heap_cyclic_vector 0x8100)
        = example_platform.SIMPLE_VECTOR_WIDETAG
    ∧ fixnum_value example_platform (heap_cyclic_vector (word_at example_platform 0x8100 1))
        = 2 ^ 31 + 1
    ∧ native_pointer example_platform (heap_cyclic_vector 0x3000) = 0x8100
    ∧ native_pointer example_platform
        (heap_cyclic_vector (word_at example_platform 0x8100 2)) = 0x8100
    ∧ eql_comparable_p example_platform heap_cyclic_vector
        (heap_cyclic_vector (word_at example_platform 0x8100 2)) = false
    ∧ coalesce_obj_test example_platform 1 heap_cyclic_vector 0x8100 = true
    ∧ ∀ fuel, coalesce_obj example_platform 1 fuel 0x3000 heap_cyclic_vector hopscotch_create
        = .out_of_fuel :=
  ⟨by decide, by decide, by decide, by decide, by decide, by decide,
   fun fuel => coalesce_obj_cyclic 1 rfl fuel 0x3000 hopscotch_create (by decide)⟩

/-- The element loop over slots none of which holds a general-object-pointer
changes nothing. -/
theorem coalesce_obj_elts_noop (p : Platform) (level : Int) (fuel obj : Nat) (h : Heap)
    (ht : hopscotch_table) (is : List Nat)
    (hno : ∀ i ∈ is, lowtag_of p (h (word_at p obj i)) ≠ p.OTHER_POINTER_LOWTAG) :
    coalesce_obj_elts p (coalesce_obj p level (fuel + 1)) obj is h ht = .done h ht := by
  induction is with
  | nil => rfl
  | cons i is ih =>
    rw [coalesce_obj_elts_cons,
      coalesce_obj_noop_of p level fuel _ h ht (Or.inl (hno i (List.mem_cons_self _ _)))]
    exact ih (fun j hj => hno j (List.mem_cons_of_mem _ hj))

/-- No element of the vector of `heap_huge_vector` is a
general-object-pointer. -/
theorem heap_huge_vector_elements (i : Nat) (hi : 2 ≤ i) :
    lowtag_of example_platform (heap_huge_vector (word_at example_platform 0x8100 i))
      ≠ example_platform.OTHER_POINTER_LOWTAG := by
  have e : word_at example_platform 0x8100 i = 0x8100 + i * 8 := rfl
  rw [e]
  by_cases h2 : i = 2
  · subst h2; decide
  · have h0 : heap_huge_vector (0x8100 + i * 8) = 0 := by
      unfold heap_huge_vector heap_of
      have a1 : (0x8100 + i * 8 == 0x3000) = false := by simp; omega
      have a2 : (0x8100 + i * 8 == 0x8100) = false := by simp; omega
      have a3 : (0x8100 + i * 8 == 0x8108) = false := by simp; omega
      have a4 : (0x8100 + i * 8 == 0x8110) = false := by simp; omega
      simp only [List.lookup, a1, a2, a3, a4]
    rw [h0]; decide

/-- C20 fails for a general vector longer than a C `int` counts, by the defect
of `vector_isevery` that C8 records: from the empty table, the call on the
slot `0x3000` of `heap_huge_vector` returns with the vector at `0x8100` as a
key of the table, a general vector whose first element is a pointer to a
pair and not eql-comparable, and which is neither a coalescible number nor a
specialized vector. -/
theorem coalesce_obj_inserts_huge_vector :
    widetag_of example_platform (heap_huge_vector 0x8100)
        = example_platform.SIMPLE_VECTOR_WIDETAG
    ∧ example_platform.specialized_vector_widetag_p
        (widetag_of example_platform (heap_huge_vector 0x8100)) = false
    ∧ coalescible_number_p example_platform heap_huge_vector 0x8100 = false
    ∧ eql_comparable_p example_platform heap_huge_vector
        (heap_huge_vector (word_at example_platform 0x8100 2)) = false
    ∧ ∀ fuel, coalesce_obj example_platform 1 (fuel + 2) 0x3000 heap_huge_vector
        hopscotch_create = .done heap_huge_vector ⟨[0x8100]⟩ := by
  refine ⟨by decide, by decide, by decide, by decide, ?_⟩
  intro fuel
  have hl : lowtag_of example_platform (heap_huge_vector 0x3000)
      = example_platform.OTHER_POINTER_LOWTAG := by decide
  have hn : native_pointer example_platform (heap_huge_vector 0x3000) = 0x8100 := by decide
  have ht : coalesce_obj_test example_platform 1 heap_huge_vector 0x8100 = true := by decide
  have hsv : widetag_of example_platform (heap_huge_vector 0x8100)
      = example_platform.SIMPLE_VECTOR_WIDETAG := by decide
  rw [coalesce_obj_eq_intern example_platform 1 (fuel + 1) 0x3000 heap_huge_vector
    hopscotch_create heap_huge_vector hopscotch_create hl (by rw [hn]; exact ht)
    (by
      rw [hn]
      unfold coalesce_obj_children
      rw [if_pos hsv]
      apply coalesce_obj_elts_noop
      intro i hi
      exact heap_huge_vector_elements i (List.mem_range'_1.1 hi).1), hn]
  rfl

/-- The table invariant of a pass, with the test of `coalesce_obj` as it is
coded: after any pass from a table whose keys are object addresses, every
key that was not in the table at the start passed the test of `coalesce_obj`
in a heap of the pass, the one of the call that inserted it, and every word
that differs from the initial one is a general-object-pointer to a key. -/
theorem Pass.table_invariant (p : Platform) (level : Int)
    (hlt : p.OTHER_POINTER_LOWTAG < 2 ^ p.N_LOWTAG_BITS)
    (h : Heap) (ht : hopscotch_table) (h1 : Heap) (ht1 : hopscotch_table)
    (hkeys : keys_aligned p ht) (hpass : Pass p level h ht h1 ht1) :
    (∀ k ∈ ht1.keys, k ∈ ht.keys
      ∨ ∃ h0, Coalesce.pointer_changes p h h0 ∧ coalesce_obj_test p level h0 k = true)
    ∧ (∀ a, h1 a ≠ h a →
        ∃ k ∈ ht1.keys, h1 a = make_lispobj k p.OTHER_POINTER_LOWTAG
          ∧ lowtag_of p (h1 a) = p.OTHER_POINTER_LOWTAG ∧ native_pointer p (h1 a) = k) := by
  have key := Pass.preserves p level
    (fun h' ht' => (Coalesce.pointer_changes p h h' ∧ keys_aligned p ht')
      ∧ (∀ k ∈ ht'.keys, k ∈ ht.keys
          ∨ ∃ h0, Coalesce.pointer_changes p h h0 ∧ coalesce_obj_test p level h0 k = true)
      ∧ (∀ a, h' a ≠ h a →
          ∃ k ∈ ht'.keys, h' a = make_lispobj k p.OTHER_POINTER_LOWTAG
            ∧ lowtag_of p (h' a) = p.OTHER_POINTER_LOWTAG ∧ native_pointer p (h' a) = k))
    ?_ h ht h1 ht1 hpass
    ⟨⟨pointer_changes_refl p h, hkeys⟩, fun k hk => Or.inl hk, fun a ha => absurd rfl ha⟩
  · exact key.2
  · intro w h0 ht0 h2 ht2 h3 ht3 hl htest hinv0 hinv hi
    have hw : lowtag_of p (h w) = p.OTHER_POINTER_LOWTAG := by
      rw [← hinv0.1.1.1 w]; exact hl
    refine ⟨coalesce_obj_intern_pointer_changes p hlt h w _ h2 ht2 h3 ht3 hw hinv.1 hi, ?_⟩
    rcases coalesce_obj_intern_done p _ _ h2 ht2 h3 ht3 hi with ⟨-, e1, e2⟩ | ⟨hg, -, e1, e2⟩
    · rw [e1, e2]
      constructor
      · intro k hk
        simp only [hopscotch_insert, List.mem_append, List.mem_singleton] at hk
        rcases hk with hk | hk
        · exact hinv.2.1 k hk
        · rw [hk]
          exact Or.inr ⟨h0, hinv0.1.1, htest⟩
      · intro a ha
        obtain ⟨k, hk, e⟩ := hinv.2.2 a ha
        exact ⟨k, by simp only [hopscotch_insert, List.mem_append]; exact Or.inl hk, e⟩
    · rw [e1, e2]
      refine ⟨hinv.2.1, ?_⟩
      have hmem := (hopscotch_get_pos p h2 ht2 _ hg).1
      intro a ha
      by_cases haw : a = w
      · subst haw
        rw [write_same]
        exact ⟨_, hmem, rfl, lowtag_of_make_lispobj p _ _ (hinv.1.2 _ hmem) hlt,
          native_pointer_make_lispobj p _ _ (hinv.1.2 _ hmem) hlt⟩
      · rw [write_other _ _ _ _ haw] at ha ⊢
        exact hinv.2.2 a ha

/-- The header of an object that passes the test of `coalesce_obj` is not a
general-object-pointer. -/
theorem lowtag_ne_of_test (p : Platform) (hh : p.Headers) (level : Int) (h : Heap) (x : Nat)
    (ht : coalesce_obj_test p level h x = true) :
    lowtag_of p (h x) ≠ p.OTHER_POINTER_LOWTAG := by
  have hn : ∀ w, w ∈ widetags p → widetag_of p (h x) = w →
      lowtag_of p (h x) ≠ p.OTHER_POINTER_LOWTAG := by
    intro w hw e
    exact lowtag_ne_of_widetag p hh.lowtag_le (h x) w e
      (hh.named w (List.mem_append_left _ hw))
  unfold coalesce_obj_test coalesce_obj_vector_test coalescible_number_p at ht
  simp only [Bool.or_eq_true, Bool.and_eq_true, beq_iff_eq, Bool.not_eq_true'] at ht
  rcases ht with ⟨-, ⟨e, -⟩ | e⟩ | ((((((e | ⟨⟨e | e, -⟩, -⟩) | ⟨-, e⟩) | e) | e) | e))
  · exact hn _ (by simp [widetags]) e
  · exact lowtag_ne_of_widetag p hh.lowtag_le (h x) _ rfl (hh.specialized _ e)
  · exact hn _ (by simp [widetags]) e
  · exact hn _ (by simp [widetags]) e
  · exact hn _ (by simp [widetags]) e
  · exact hn _ (by simp [widetags]) e
  · exact hn _ (by simp [widetags]) e
  · exact hn _ (by simp [widetags]) e
  · exact hn _ (by simp [widetags]) e

/-- A pass does not change whether a word is a fixnum. -/
theorem fixnump_of_pointer_changes (p : Platform) (hp : p.Sane) (h0 h : Heap)
    (hpc : pointer_changes p h0 h) (a : Nat) : fixnump p (h a) = fixnump p (h0 a) := by
  by_cases e : h a = h0 a
  · rw [e]
  · have h1 := hpc.2 a e
    have h2 : lowtag_of p (h a) = p.OTHER_POINTER_LOWTAG := by rw [hpc.1 a]; exact h1
    rw [fixnump_false_of_lowtag p hp.fixnum_bits_le _ _ h1 hp.other_not_fixnum,
      fixnump_false_of_lowtag p hp.fixnum_bits_le _ _ h2 hp.other_not_fixnum]

/-- An object that is not a general vector and passes the test of
`coalesce_obj` in a heap of a pass passed it in the initial heap, with the
same header. -/
theorem coalesce_obj_test_of_pointer_changes (p : Platform) (hp : p.Sane) (hh : p.Headers)
    (level : Int) (h0 h : Heap) (hpc : pointer_changes p h0 h) (x : Nat)
    (ht : coalesce_obj_test p level h x = true)
    (hsv : widetag_of p (h x) ≠ p.SIMPLE_VECTOR_WIDETAG) :
    h x = h0 x ∧ coalesce_obj_test p level h0 x = true := by
  have hl := lowtag_ne_of_test p hh level h x ht
  rw [hpc.1 x] at hl
  have hx := pointer_changes_eq p h0 h hpc x hl
  refine ⟨hx, ?_⟩
  rw [← ht]
  rw [hx] at hsv
  have hsv' : (widetag_of p (h0 x) == p.SIMPLE_VECTOR_WIDETAG) = false := by simpa using hsv
  unfold coalesce_obj_test coalesce_obj_vector_test coalescible_number_p
  simp only [hx, hsv', Bool.false_and, Bool.false_or,
    fixnump_of_pointer_changes p hp h0 h hpc]

/-- Storing the word a slot holds changes nothing. -/
theorem write_self (h : Heap) (a : Nat) : write h a (h a) = h := by
  funext x
  by_cases hx : x = a
  · rw [hx, write_same]
  · rw [write_other _ _ _ _ hx]

/-- The lookup of a key that no earlier key matches returns the key. -/
theorem probe_first (f : Nat → Bool) (ks : List Nat) (r : Nat) (l : List Nat)
    (hks : ∀ k ∈ ks, f k = false) (hr : f r = true) :
    probe f (ks ++ r :: l) 0 = ks.length + 1
    ∧ (ks ++ r :: l).getD (probe f (ks ++ r :: l) 0 - 1) 0 = r := by
  have e : probe f (ks ++ r :: l) 0 = ks.length + 1 := by
    rw [probe_append, (probe_eq_zero_iff f ks 0).2 hks]
    simp [probe, hr]
  rw [e]
  refine ⟨rfl, ?_⟩
  rw [Nat.add_sub_cancel, List.getD_eq_getElem _ _ (by simp),
    List.getElem_append_right (le_refl _)]
  simp


/-- The changes of a pass, read backwards. -/
theorem pointer_changes_symm (p : Platform) (h0 h : Heap) (hpc : pointer_changes p h0 h) :
    pointer_changes p h h0 := by
  refine ⟨fun a => (hpc.1 a).symm, ?_⟩
  intro a hne
  rw [hpc.1 a]
  exact hpc.2 a (fun e => hne e.symm)

/-- A pass does not change the header of a general vector, nor make a word
the header of one. -/
theorem vector_header_eq (p : Platform) (hh : p.Headers) (h0 h : Heap)
    (hpc : pointer_changes p h0 h) (a : Nat)
    (hsv : widetag_of p (h a) = p.SIMPLE_VECTOR_WIDETAG
      ∨ widetag_of p (h0 a) = p.SIMPLE_VECTOR_WIDETAG) : h a = h0 a := by
  have hsvmem : p.SIMPLE_VECTOR_WIDETAG ∈ widetags p ++ [p.INSTANCE_WIDETAG,
      p.FUNCALLABLE_INSTANCE_WIDETAG, p.CODE_HEADER_WIDETAG] := by simp [widetags]
  rcases hsv with hsv | hsv
  · have hl := lowtag_ne_of_widetag p hh.lowtag_le _ _ hsv (hh.named _ hsvmem)
    rw [hpc.1 a] at hl
    exact pointer_changes_eq p h0 h hpc a hl
  · exact pointer_changes_eq p h0 h hpc a
      (lowtag_ne_of_widetag p hh.lowtag_le _ _ hsv (hh.named _ hsvmem))

/-- A pass does not change whether an object that is not a general vector
passes the test of `coalesce_obj`. -/
theorem coalesce_obj_test_leaf_eq (p : Platform) (hp : p.Sane) (hh : p.Headers) (level : Int)
    (h0 h : Heap) (hpc : pointer_changes p h0 h) (x : Nat)
    (hsv : widetag_of p (h0 x) ≠ p.SIMPLE_VECTOR_WIDETAG) :
    coalesce_obj_test p level h x = coalesce_obj_test p level h0 x := by
  have hsv' : widetag_of p (h x) ≠ p.SIMPLE_VECTOR_WIDETAG := by
    intro e
    rw [vector_header_eq p hh h0 h hpc x (Or.inl e)] at e
    exact hsv e
  cases h1 : coalesce_obj_test p level h x with
  | true =>
    exact (coalesce_obj_test_of_pointer_changes p hp hh level h0 h hpc x h1 hsv').2.symm
  | false =>
    cases h2 : coalesce_obj_test p level h0 x with
    | false => rfl
    | true =>
      have := (coalesce_obj_test_of_pointer_changes p hp hh level h h0
        (pointer_changes_symm p h0 h hpc) x h2 hsv).2
      rw [h1] at this
      exact this

/-- The indices of the element loop are at least two. -/
theorem two_le_of_mem_elt_indices (p : Platform) (h : Heap) (v i : Nat)
    (hi : i ∈ elt_indices p h v) : 2 ≤ i := (List.mem_range'_1.1 hi).1

/-- A word of a heap given by finitely many words that is not `0` is at one
of their addresses. -/
theorem heap_of_support (l : List (Nat × Nat)) (a : Nat) (ha : heap_of l a ≠ 0) :
    a ∈ l.map Prod.fst := by
  induction l with
  | nil => exact absurd rfl ha
  | cons kv l ih =>
    obtain ⟨k, v⟩ := kv
    unfold heap_of at ih ha
    rw [List.lookup_cons] at ha
    by_cases hk : a = k
    · rw [hk]; exact List.mem_cons_self _ _
    · have hk' : (a == k) = false := by simpa using hk
      rw [hk'] at ha
      exact List.mem_cons_of_mem _ (ih ha)

/-- An invariant of `call` on the slots `Ok` is an invariant of the loop over
element slots that are all `Ok`. -/
theorem coalesce_obj_elts_preserves_at (p : Platform)
    (call : Nat → Heap → hopscotch_table → Res) (Inv : Heap → hopscotch_table → Prop)
    (Ok : Nat → Prop)
    (hcall : ∀ where_ h ht h1 ht1, Ok where_ → Inv h ht → call where_ h ht = .done h1 ht1 →
      Inv h1 ht1)
    (obj : Nat) (is : List Nat) (hok : ∀ i ∈ is, Ok (word_at p obj i)) :
    ∀ h ht h1 ht1, Inv h ht → coalesce_obj_elts p call obj is h ht = .done h1 ht1 →
      Inv h1 ht1 := by
  induction is with
  | nil =>
    intro h ht h1 ht1 hinv hres
    simp only [coalesce_obj_elts, Res.done.injEq] at hres
    rw [← hres.1, ← hres.2]; exact hinv
  | cons i is ih =>
    intro h ht h1 ht1 hinv hres
    simp only [coalesce_obj_elts] at hres
    cases hc : call (word_at p obj i) h ht with
    | done h2 ht2 =>
      rw [hc] at hres
      exact ih (fun j hj => hok j (List.mem_cons_of_mem _ hj)) h2 ht2 h1 ht1
        (hcall _ h ht h2 ht2 (hok i (List.mem_cons_self _ _)) hinv hc) hres
    | lost => rw [hc] at hres; cases hres
    | out_of_fuel => rw [hc] at hres; cases hres

/-- An invariant of the lookup-insert-or-rewrite step on the slots `Ok` is an
invariant of every completed call on a slot that is `Ok`, when the element
slots of a general vector that passes the test and that a slot that is `Ok`
references are `Ok` too. -/
theorem coalesce_obj_preserves_at (p : Platform) (level : Int)
    (Inv : Heap → hopscotch_table → Prop) (Ok : Nat → Prop)
    (hstep : ∀ where_ h0 ht0 h ht h1 ht1, Ok where_ →
      lowtag_of p (h0 where_) = p.OTHER_POINTER_LOWTAG →
      coalesce_obj_test p level h0 (native_pointer p (h0 where_)) = true →
      Inv h0 ht0 → Inv h ht →
      coalesce_obj_intern p where_ (native_pointer p (h0 where_)) h ht = .done h1 ht1 →
      Inv h1 ht1)
    (helt : ∀ h ht where_ i, Inv h ht → Ok where_ →
      lowtag_of p (h where_) = p.OTHER_POINTER_LOWTAG →
      coalesce_obj_test p level h (native_pointer p (h where_)) = true →
      widetag_of p (h (native_pointer p (h where_))) = p.SIMPLE_VECTOR_WIDETAG →
      i ∈ elt_indices p h (native_pointer p (h where_)) →
      Ok (word_at p (native_pointer p (h where_)) i)) :
    ∀ fuel where_ h ht h1 ht1, Ok where_ → Inv h ht →
      coalesce_obj p level fuel where_ h ht = .done h1 ht1 → Inv h1 ht1 := by
  intro fuel
  induction fuel with
  | zero =>
    intro where_ h ht h1 ht1 _ _ hres
    simp [coalesce_obj] at hres
  | succ fuel ih =>
    intro where_ h ht h1 ht1 hok hinv hres
    rcases coalesce_obj_done p level _ where_ h ht h1 ht1 hres with
      ⟨-, e1, e2⟩ | ⟨hl, ht', fuel', h2, ht2, hf, hc, hi⟩
    · rw [e1, e2]; exact hinv
    · have hf' : fuel' = fuel := by omega
      subst hf'
      have hinv2 : Inv h2 ht2 := by
        unfold coalesce_obj_children at hc
        split at hc
        · rename_i hsv
          refine coalesce_obj_elts_preserves_at p _ Inv Ok ih _ _ ?_ h ht h2 ht2 hinv hc
          intro i hi
          exact helt h ht where_ i hinv hok hl ht' hsv hi
        · simp only [Res.done.injEq] at hc
          rw [← hc.1, ← hc.2]; exact hinv
      exact hstep where_ h ht h2 ht2 h1 ht1 hok hl ht' hinv hinv2 hi

/-- A general vector that passes the test of `coalesce_obj` carries a
shareable flag of the level. -/
theorem flag_of_test (p : Platform) (hp : p.Sane) (level : Int) (h : Heap) (v : Nat)
    (hsv : widetag_of p (h v) = p.SIMPLE_VECTOR_WIDETAG)
    (ht : coalesce_obj_test p level h v = true) : h v &&& shareable_mask p level ≠ 0 := by
  have hnd := hp.widetags_nodup
  have d0 : p.SIMPLE_VECTOR_WIDETAG ≠ p.BIGNUM_WIDETAG :=
    ne_of_nodup_getElem? hnd 9 0 p.SIMPLE_VECTOR_WIDETAG p.BIGNUM_WIDETAG
      (by simp [widetags]) (by simp [widetags]) (by decide)
  have d1 : p.SIMPLE_VECTOR_WIDETAG ≠ p.RATIO_WIDETAG :=
    ne_of_nodup_getElem? hnd 9 1 p.SIMPLE_VECTOR_WIDETAG p.RATIO_WIDETAG
      (by simp [widetags]) (by simp [widetags]) (by decide)
  have d2 : p.SIMPLE_VECTOR_WIDETAG ≠ p.COMPLEX_WIDETAG :=
    ne_of_nodup_getElem? hnd 9 2 p.SIMPLE_VECTOR_WIDETAG p.COMPLEX_WIDETAG
      (by simp [widetags]) (by simp [widetags]) (by decide)
  have d3 : p.SIMPLE_VECTOR_WIDETAG ≠ p.SINGLE_FLOAT_WIDETAG :=
    ne_of_nodup_getElem? hnd 9 3 p.SIMPLE_VECTOR_WIDETAG p.SINGLE_FLOAT_WIDETAG
      (by simp [widetags]) (by simp [widetags]) (by decide)
  have d4 : p.SIMPLE_VECTOR_WIDETAG ≠ p.DOUBLE_FLOAT_WIDETAG :=
    ne_of_nodup_getElem? hnd 9 4 p.SIMPLE_VECTOR_WIDETAG p.DOUBLE_FLOAT_WIDETAG
      (by simp [widetags]) (by simp [widetags]) (by decide)
  have d5 : p.SIMPLE_VECTOR_WIDETAG ≠ p.COMPLEX_SINGLE_FLOAT_WIDETAG :=
    ne_of_nodup_getElem? hnd 9 5 p.SIMPLE_VECTOR_WIDETAG p.COMPLEX_SINGLE_FLOAT_WIDETAG
      (by simp [widetags]) (by simp [widetags]) (by decide)
  have d6 : p.SIMPLE_VECTOR_WIDETAG ≠ p.COMPLEX_DOUBLE_FLOAT_WIDETAG :=
    ne_of_nodup_getElem? hnd 9 6 p.SIMPLE_VECTOR_WIDETAG p.COMPLEX_DOUBLE_FLOAT_WIDETAG
      (by simp [widetags]) (by simp [widetags]) (by decide)
  have hnum : coalescible_number_p p h v = false := by
    unfold coalescible_number_p
    simp [hsv, d0, d1, d2, d3, d4, d5, d6]
  unfold coalesce_obj_test at ht
  rw [hnum, Bool.or_false] at ht
  unfold coalesce_obj_vector_test at ht
  simp only [Bool.and_eq_true, bne_iff_ne, ne_eq] at ht
  exact ht.1

/-- A word that is never stored to is as it was. -/
theorem Framed.fixed_eq (p : Platform) (Slot : Nat → Prop) (h0 : Heap) (ht0 : hopscotch_table)
    (h : Heap) (ht : hopscotch_table) (hinv : Framed p Slot h0 ht0 h ht) (a : Nat)
    (ha : fixed p Slot h0 a) : h a = h0 a := by
  rcases ha with ha | ha
  · exact hinv.frozen a ha
  · exact pointer_changes_eq p h0 h hinv.changes a ha

/-- The initial state is framed. -/
theorem Framed.initial (p : Platform) (Slot : Nat → Prop) (h0 : Heap) (ht0 : hopscotch_table)
    (hkeys : keys_aligned p ht0) : Framed p Slot h0 ht0 h0 ht0 where
  changes := pointer_changes_refl p h0
  aligned := hkeys
  frozen := fun _ _ => rfl
  refs := fun s hs hl => Or.inr ⟨s, hs, hl, rfl⟩
  keys := fun _ hk => Or.inl hk

/-- The lookup-insert-or-rewrite step at a slot of `Slot` keeps the state
framed. -/
theorem Framed.intern_kept (p : Platform) (hh : p.Headers) (Slot : Nat → Prop) (h0 : Heap)
    (ht0 : hopscotch_table) (w x : Nat) (h2 : Heap) (ht2 : hopscotch_table) (h3 : Heap)
    (ht3 : hopscotch_table) (hw : Slot w)
    (hl : lowtag_of p (h0 w) = p.OTHER_POINTER_LOWTAG)
    (hx : referenced p Slot h0 ht0 (native_pointer p x))
    (hinv : Framed p Slot h0 ht0 h2 ht2)
    (hi : coalesce_obj_intern p w (native_pointer p x) h2 ht2 = .done h3 ht3) :
    Framed p Slot h0 ht0 h3 ht3 := by
  have hpc := coalesce_obj_intern_pointer_changes p hh.other_lt h0 w x h2 ht2 h3 ht3 hl
    ⟨hinv.changes, hinv.aligned⟩ hi
  rcases coalesce_obj_intern_done p _ _ h2 ht2 h3 ht3 hi with ⟨-, e1, e2⟩ | ⟨hg, -, e1, e2⟩
  · refine ⟨hpc.1, hpc.2, ?_, ?_, ?_⟩
    · rw [e1]; exact hinv.frozen
    · rw [e1]; exact hinv.refs
    · intro k hk
      rw [e2] at hk
      simp only [hopscotch_insert, List.mem_append, List.mem_singleton] at hk
      rcases hk with hk | hk
      · exact hinv.keys k hk
      · rw [hk]; exact hx
  · have hmem := (hopscotch_get_pos p h2 ht2 _ hg).1
    have hal := hinv.aligned _ hmem
    refine ⟨hpc.1, hpc.2, ?_, ?_, ?_⟩
    · intro a ha
      have hne : a ≠ w := fun e => ha (e ▸ hw)
      rw [e1, write_other _ _ _ _ hne]
      exact hinv.frozen a ha
    · intro s hs hls
      by_cases hsw : s = w
      · subst hsw
        rw [e1, write_same, native_pointer_make_lispobj p _ _ hal hh.other_lt]
        exact hinv.keys _ hmem
      · rw [e1, write_other _ _ _ _ hsw] at hls ⊢
        exact hinv.refs s hs hls
    · rw [e2]; exact hinv.keys

/-- A call of `coalesce_obj` on a slot of a closed set of slots keeps the
state framed: in particular it leaves the words outside the set as they
were. -/
theorem Framed.call (p : Platform) (hp : p.Sane) (hh : p.Headers) (level : Int)
    (Slot : Nat → Prop) (h0 : Heap) (ht0 : hopscotch_table)
    (hc : Closed p level Slot h0 ht0) :
    ∀ fuel where_ h ht h1 ht1, Slot where_ → Framed p Slot h0 ht0 h ht →
      coalesce_obj p level fuel where_ h ht = .done h1 ht1 → Framed p Slot h0 ht0 h1 ht1 := by
  refine coalesce_obj_preserves_at p level (Framed p Slot h0 ht0) Slot ?_ ?_
  · intro w x t h2 ht2 h3 ht3 hok hl _ hinv0 hinv2 hi
    have hw0 : lowtag_of p (h0 w) = p.OTHER_POINTER_LOWTAG := by
      rw [← hinv0.changes.1 w]; exact hl
    exact Framed.intern_kept p hh Slot h0 ht0 w (x w) h2 ht2 h3 ht3 hok hw0
      (hinv0.refs w hok hl) hinv2 hi
  · intro h ht s i hinv hs hl htest hsv hi
    have href := hinv.refs s hs hl
    have hV := vector_header_eq p hh h0 h hinv.changes _ (Or.inl hsv)
    have hflag := flag_of_test p hp level h _ hsv htest
    rw [hV] at hsv hflag
    have hlen := Framed.fixed_eq p Slot h0 ht0 h ht hinv _ (hc.lengths _ href hsv hflag)
    have hidx : elt_indices p h (native_pointer p (h s))
        = elt_indices p h0 (native_pointer p (h s)) := by
      unfold elt_indices; rw [hlen]
    rw [hidx] at hi
    exact hc.elements _ href hsv hflag i hi

/-- A call with fewer results gives the loop over element slots fewer
results. -/
theorem coalesce_obj_elts_mono (p : Platform) (call call' : Nat → Heap → hopscotch_table → Res)
    (hle : ∀ w h ht h1 ht1, call w h ht = .done h1 ht1 → call' w h ht = .done h1 ht1)
    (obj : Nat) (is : List Nat) :
    ∀ h ht h1 ht1, coalesce_obj_elts p call obj is h ht = .done h1 ht1 →
      coalesce_obj_elts p call' obj is h ht = .done h1 ht1 := by
  induction is with
  | nil => intro h ht h1 ht1 hres; exact hres
  | cons i is ih =>
    intro h ht h1 ht1 hres
    rw [coalesce_obj_elts_cons] at hres ⊢
    obtain ⟨h2, ht2, e1, e2⟩ := Res.bind_done _ _ h1 ht1 hres
    rw [hle _ h ht h2 ht2 e1]
    exact ih h2 ht2 h1 ht1 e2

/-- A call with fewer results gives the loop over a record fewer results. -/
theorem coalesce_range_instance_mono (p : Platform)
    (call call' : Nat → Heap → hopscotch_table → Res)
    (hle : ∀ w h ht h1 ht1, call w h ht = .done h1 ht1 → call' w h ht = .done h1 ht1)
    (where_ bitmap : Nat) (is : List Nat) :
    ∀ h ht h1 ht1, coalesce_range_instance p call where_ bitmap is h ht = .done h1 ht1 →
      coalesce_range_instance p call' where_ bitmap is h ht = .done h1 ht1 := by
  induction is with
  | nil => intro h ht h1 ht1 hres; exact hres
  | cons i is ih =>
    intro h ht h1 ht1 hres
    simp only [coalesce_range_instance] at hres ⊢
    obtain ⟨h2, ht2, e1, e2⟩ := Res.bind_done _ _ h1 ht1 hres
    have e1' : (if p.layout_bitmap_logbitp h (i - 1) bitmap = true
        then call' (word_at p where_ i) h ht else Res.done h ht) = .done h2 ht2 := by
      split at e1
      · rename_i hb; rw [if_pos hb]; exact hle _ h ht h2 ht2 e1
      · rename_i hb; rw [if_neg hb]; exact e1
    rw [e1']
    exact ih h2 ht2 h1 ht1 e2

/-- A call with fewer results gives the loop over the functions of a code
object fewer results. -/
theorem coalesce_range_funs_mono (p : Platform)
    (call call' : Nat → Heap → hopscotch_table → Res)
    (hle : ∀ w h ht h1 ht1, call w h ht = .done h1 ht1 → call' w h ht = .done h1 ht1)
    (where_ : Nat) (ks : List Nat) :
    ∀ h ht h1 ht1, coalesce_range_funs p call where_ ks h ht = .done h1 ht1 →
      coalesce_range_funs p call' where_ ks h ht = .done h1 ht1 := by
  induction ks with
  | nil => intro h ht h1 ht1 hres; exact hres
  | cons k ks ih =>
    intro h ht h1 ht1 hres
    simp only [coalesce_range_funs] at hres ⊢
    obtain ⟨h2, ht2, e1, e2⟩ := Res.bind_done _ _ h1 ht1 hres
    rw [coalesce_obj_elts_mono p call call' hle _ _ h ht h2 ht2 e1]
    exact ih h2 ht2 h1 ht1 e2

/-- A call with fewer results gives the visit of one object fewer results. -/
theorem coalesce_range_object_mono (p : Platform)
    (call call' : Nat → Heap → hopscotch_table → Res)
    (hle : ∀ w h ht h1 ht1, call w h ht = .done h1 ht1 → call' w h ht = .done h1 ht1)
    (where_ : Nat) (h : Heap) (ht : hopscotch_table) (h1 : Heap) (ht1 : hopscotch_table)
    (hres : coalesce_range_object p call where_ h ht = .done h1 ht1) :
    coalesce_range_object p call' where_ h ht = .done h1 ht1 := by
  unfold coalesce_range_object at hres ⊢
  simp only at hres ⊢
  split
  · rename_i hc
    rw [if_pos hc] at hres
    obtain ⟨h2, ht2, e1, e2⟩ := Res.bind_done _ _ h1 ht1 hres
    rw [hle _ h ht h2 ht2 e1]
    exact hle _ h2 ht2 h1 ht1 e2
  · rename_i hc
    rw [if_neg hc] at hres
    split
    · rename_i hi
      rw [if_pos hi] at hres
      exact coalesce_range_instance_mono p call call' hle _ _ _ h ht h1 ht1 hres
    · rename_i hi
      rw [if_neg hi] at hres
      split
      · rename_i hcode
        rw [if_pos hcode] at hres
        obtain ⟨h2, ht2, e1, e2⟩ := Res.bind_done _ _ h1 ht1 hres
        rw [coalesce_range_funs_mono p call call' hle _ _ h ht h2 ht2 e1]
        exact coalesce_obj_elts_mono p call call' hle _ _ h2 ht2 h1 ht1 e2
      · rename_i hcode
        rw [if_neg hcode] at hres
        split
        · rename_i hu
          rw [if_pos hu] at hres
          exact hres
        · rename_i hu
          rw [if_neg hu] at hres
          exact coalesce_obj_elts_mono p call call' hle _ _ h ht h1 ht1 hres

/-- A call with fewer results gives the walk of a region fewer results. -/
theorem coalesce_range_with_mono (p : Platform)
    (call call' : Nat → Heap → hopscotch_table → Res)
    (hle : ∀ w h ht h1 ht1, call w h ht = .done h1 ht1 → call' w h ht = .done h1 ht1)
    (steps : Nat) :
    ∀ where_ limit h ht h1 ht1, coalesce_range_with p call steps where_ limit h ht = .done h1 ht1 →
      coalesce_range_with p call' steps where_ limit h ht = .done h1 ht1 := by
  induction steps with
  | zero => intro where_ limit h ht h1 ht1 hres; exact hres
  | succ n ih =>
    intro where_ limit h ht h1 ht1 hres
    simp only [coalesce_range_with] at hres ⊢
    split
    · rename_i hlt
      rw [if_pos hlt] at hres
      obtain ⟨h2, ht2, e1, e2⟩ := Res.bind_done _ _ h1 ht1 hres
      rw [coalesce_range_object_mono p call call' hle _ h ht h2 ht2 e1]
      exact ih _ _ h2 ht2 h1 ht1 e2
    · rename_i hlt
      rw [if_neg hlt] at hres
      exact hres

/-- A call with fewer results gives the walk of a list of regions fewer
results. -/
theorem walk_regions_with_mono (p : Platform)
    (call call' : Nat → Heap → hopscotch_table → Res)
    (hle : ∀ w h ht h1 ht1, call w h ht = .done h1 ht1 → call' w h ht = .done h1 ht1)
    (steps : Nat) (rs : List (Nat × Nat)) :
    ∀ h ht h1 ht1, walk_regions_with p call steps rs h ht = .done h1 ht1 →
      walk_regions_with p call' steps rs h ht = .done h1 ht1 := by
  induction rs with
  | nil => intro h ht h1 ht1 hres; exact hres
  | cons r rs ih =>
    intro h ht h1 ht1 hres
    simp only [walk_regions_with] at hres ⊢
    obtain ⟨h2, ht2, e1, e2⟩ := Res.bind_done _ _ h1 ht1 hres
    rw [coalesce_range_with_mono p call call' hle steps _ _ h ht h2 ht2 e1]
    exact ih h2 ht2 h1 ht1 e2

/-- What `call` restricted to the slots of `Slot` returns, every function
that agrees with `call` on `Slot` returns. -/
theorem on_slots_le (Slot : Nat → Prop) [DecidablePred Slot]
    (call call' : Nat → Heap → hopscotch_table → Res)
    (hag : ∀ w, Slot w → call' w = call w) :
    ∀ w h ht h1 ht1, on_slots Slot call w h ht = .done h1 ht1 →
      call' w h ht = .done h1 ht1 := by
  intro w h ht h1 ht1 hres
  unfold on_slots at hres
  split at hres
  · rename_i hs
    rw [hag w hs]; exact hres
  · cases hres

/-- A result of `call` restricted to the slots of `Slot` is a result of
`call` on a slot of `Slot`. -/
theorem on_slots_done (Slot : Nat → Prop) [DecidablePred Slot]
    (call : Nat → Heap → hopscotch_table → Res) (w : Nat) (h : Heap) (ht : hopscotch_table)
    (h1 : Heap) (ht1 : hopscotch_table) (hres : on_slots Slot call w h ht = .done h1 ht1) :
    Slot w ∧ call w h ht = .done h1 ht1 := by
  unfold on_slots at hres
  split at hres
  · rename_i hs; exact ⟨hs, hres⟩
  · cases hres

/-- The function `coalesce_range` is the loop with `coalesce_obj`. -/
theorem coalesce_range_eq_with (p : Platform) (level : Int) (depth steps : Nat) :
    ∀ where_ limit h ht, coalesce_range p level depth steps where_ limit h ht
      = coalesce_range_with p (coalesce_obj p level depth) steps where_ limit h ht := by
  induction steps with
  | zero => intro where_ limit h ht; rfl
  | succ n ih =>
    intro where_ limit h ht
    simp only [coalesce_range, coalesce_range_with]
    split
    · congr 1
      funext a b
      exact ih _ _ a b
    · rfl

/-- Walking a list of regions is the walk with `coalesce_obj`. -/
theorem walk_regions_eq_with (p : Platform) (level : Int) (depth steps : Nat)
    (rs : List (Nat × Nat)) :
    ∀ h ht, walk_regions p level depth steps rs h ht
      = walk_regions_with p (coalesce_obj p level depth) steps rs h ht := by
  induction rs with
  | nil => intro h ht; rfl
  | cons r rs ih =>
    intro h ht
    simp only [walk_regions, walk_regions_with]
    rw [coalesce_range_eq_with]
    congr 1
    funext a b
    exact ih a b

/-- An invariant of `call` is an invariant of the walk of a region with
`call`. -/
theorem coalesce_range_with_preserves (p : Platform)
    (call : Nat → Heap → hopscotch_table → Res) (Inv : Heap → hopscotch_table → Prop)
    (hcall : ∀ where_ h ht h1 ht1, Inv h ht → call where_ h ht = .done h1 ht1 → Inv h1 ht1)
    (steps : Nat) :
    ∀ where_ limit h ht h1 ht1, Inv h ht →
      coalesce_range_with p call steps where_ limit h ht = .done h1 ht1 → Inv h1 ht1 := by
  induction steps with
  | zero =>
    intro where_ limit h ht h1 ht1 hinv hres
    simp only [coalesce_range_with] at hres
    split at hres
    · cases hres
    · simp only [Res.done.injEq] at hres
      rw [← hres.1, ← hres.2]; exact hinv
  | succ n ih =>
    intro where_ limit h ht h1 ht1 hinv hres
    simp only [coalesce_range_with] at hres
    split at hres
    · obtain ⟨h2, ht2, e1, e2⟩ := Res.bind_done _ _ h1 ht1 hres
      exact ih _ _ h2 ht2 h1 ht1
        (coalesce_range_object_preserves p call Inv hcall where_ h ht h2 ht2 hinv e1) e2
    · simp only [Res.done.injEq] at hres
      rw [← hres.1, ← hres.2]; exact hinv

/-- An invariant of `call` is an invariant of the walk of a list of regions
with `call`. -/
theorem walk_regions_with_preserves (p : Platform)
    (call : Nat → Heap → hopscotch_table → Res) (Inv : Heap → hopscotch_table → Prop)
    (hcall : ∀ where_ h ht h1 ht1, Inv h ht → call where_ h ht = .done h1 ht1 → Inv h1 ht1)
    (steps : Nat) (rs : List (Nat × Nat)) :
    ∀ h ht h1 ht1, Inv h ht → walk_regions_with p call steps rs h ht = .done h1 ht1 →
      Inv h1 ht1 := by
  induction rs with
  | nil =>
    intro h ht h1 ht1 hinv hres
    simp only [walk_regions_with, Res.done.injEq] at hres
    rw [← hres.1, ← hres.2]; exact hinv
  | cons r rs ih =>
    intro h ht h1 ht1 hinv hres
    simp only [walk_regions_with] at hres
    obtain ⟨h2, ht2, e1, e2⟩ := Res.bind_done _ _ h1 ht1 hres
    exact ih h2 ht2 h1 ht1
      (coalesce_range_with_preserves p call Inv hcall steps _ _ h ht h2 ht2 hinv e1) e2

/-- An invariant of the calls of `coalesce_obj` on the slots of `Slot` is an
invariant of every sequence of visits of slots of `Slot`. -/
theorem Visits.invariant (p : Platform) (level : Int) (Slot : Nat → Prop)
    (Inv : Heap → hopscotch_table → Prop)
    (hcall : ∀ fuel where_ h ht h1 ht1, Slot where_ → Inv h ht →
      coalesce_obj p level fuel where_ h ht = .done h1 ht1 → Inv h1 ht1)
    (h : Heap) (ht : hopscotch_table) (h1 : Heap) (ht1 : hopscotch_table)
    (hv : Visits p level Slot h ht h1 ht1) (hinv : Inv h ht) : Inv h1 ht1 := by
  classical
  induction hv with
  | nil => exact hinv
  | obj fuel where_ h ht h1 ht1 h2 ht2 hs hc _ ih =>
    exact ih (hcall fuel where_ h ht h1 ht1 hs hinv hc)
  | range depth steps where_ limit h ht h1 ht1 h2 ht2 hw _ ih =>
    apply ih
    have hres := hw (on_slots Slot (coalesce_obj p level depth))
      (fun w hs => by funext a b; unfold on_slots; rw [if_pos hs])
    refine coalesce_range_with_preserves p _ Inv ?_ steps where_ limit h ht h1 ht1 hinv hres
    intro w x t x1 t1 hi hc
    obtain ⟨hs, hc'⟩ := on_slots_done Slot _ w x t x1 t1 hc
    exact hcall depth w x t x1 t1 hs hi hc'

/-- A sequence of visits of slots is a pass. -/
theorem Visits.pass (p : Platform) (level : Int) (Slot : Nat → Prop)
    (h : Heap) (ht : hopscotch_table) (h1 : Heap) (ht1 : hopscotch_table)
    (hv : Visits p level Slot h ht h1 ht1) : Pass p level h ht h1 ht1 := by
  induction hv with
  | nil => exact Pass.nil _ _
  | obj fuel where_ h ht h1 ht1 h2 ht2 _ hc _ ih =>
    exact Pass.obj fuel where_ h ht h1 ht1 h2 ht2 hc ih
  | range depth steps where_ limit h ht h1 ht1 h2 ht2 hw _ ih =>
    refine Pass.range depth steps where_ limit h ht h1 ht1 h2 ht2 ?_ ih
    rw [coalesce_range_eq_with]
    exact hw _ (fun _ _ => rfl)

/-- The frame of a sequence of visits of slots of a closed set: the state
stays framed, and the words outside the set are as they were. -/
theorem Visits.framed (p : Platform) (hp : p.Sane) (hh : p.Headers) (level : Int)
    (Slot : Nat → Prop) (h0 : Heap) (ht0 : hopscotch_table)
    (hc : Closed p level Slot h0 ht0)
    (h : Heap) (ht : hopscotch_table) (h1 : Heap) (ht1 : hopscotch_table)
    (hv : Visits p level Slot h ht h1 ht1) (hinv : Framed p Slot h0 ht0 h ht) :
    Framed p Slot h0 ht0 h1 ht1 :=
  Visits.invariant p level Slot (Framed p Slot h0 ht0)
    (fun fuel w x t x1 t1 hs hi hres => Framed.call p hp hh level Slot h0 ht0 hc fuel w x t x1 t1
      hs hi hres) h ht h1 ht1 hv hinv

/-- A walk with `coalesce_obj` restricted to the slots of `Slot` that returns
passes slots of `Slot` only: its result does not depend on what is done with
any other word. -/
theorem coalesce_range_with_on_slots (p : Platform) (level : Int) (Slot : Nat → Prop)
    [DecidablePred Slot] (depth steps where_ limit : Nat) (h : Heap) (ht : hopscotch_table)
    (h1 : Heap) (ht1 : hopscotch_table)
    (hres : coalesce_range_with p (on_slots Slot (coalesce_obj p level depth)) steps where_ limit
      h ht = .done h1 ht1) :
    ∀ call, (∀ w, Slot w → call w = coalesce_obj p level depth w) →
      coalesce_range_with p call steps where_ limit h ht = .done h1 ht1 :=
  fun call hag => coalesce_range_with_mono p _ call
    (on_slots_le Slot (coalesce_obj p level depth) call hag) steps where_ limit h ht h1 ht1 hres

/-- C13, as stated, fails for raw payload words that `coalesce_range` passes
to `coalesce_obj`.  On the example platform, a build without compact instance
headers, the funcallable instance at `0x3100` of `heap_records` has a bitmap
that marks its second slot, the word `0x3110`, as raw data.  The pass made of
the call on the slot `0x3000` and the walk of the region of the funcallable
instance rewrites that word from `0x800F` to `0x802F`. -/
theorem pass_rewrites_raw_word :
    example_platform.layout_bitmap_logbitp heap_records (2 - 1)
        (example_platform.layout_bitmap heap_records
          (example_platform.instance_layout heap_records 0x3100)) = false
    ∧ word_at example_platform 0x3100 2 = 0x3110
    ∧ Pass example_platform 1 heap_records hopscotch_create
        (write (write heap_records 0x3110 0x802F) 0x3118 0x802F) ⟨[0x8020]⟩
    ∧ heap_records 0x3110 = 0x800F
    ∧ write (write heap_records 0x3110 0x802F) 0x3118 0x802F 0x3110 = 0x802F :=
  ⟨by decide, by decide,
   Pass.obj 1 0x3000 heap_records hopscotch_create heap_records ⟨[0x8020]⟩ _ _ rfl
     (Pass.range 1 1 0x3100 0x3120 heap_records ⟨[0x8020]⟩
       (write (write heap_records 0x3110 0x802F) 0x3118 0x802F) ⟨[0x8020]⟩ _ _ rfl
       (Pass.nil _ _)),
   by decide, by decide⟩

/-- C13, amended: take any pass (a sequence of calls of `coalesce_obj` and
`coalesce_range` that returned) from a table whose keys are object addresses,
the empty table for one.  Every word of the heap whose value differs
afterwards held a general-object-pointer before and holds one after.  Hence a
word that was a fixnum (the length word of a vector is one), a pair pointer,
an instance pointer or a header with one of the widetags of the platform is
not modified; every word that was not a general-object-pointer keeps its
value and its widetag, and an object whose header was not a
general-object-pointer keeps its size when the word after the header was not
one either, or when the size table computes the size of the object from its
header alone.  A raw payload word
whose bits are those of a general-object-pointer is not modified unless it
is passed to `coalesce_obj`: when the pass is made of visits of slots of a
set `Slot` that is closed (it holds the element slots of the general vectors
with a shareable flag that its words reference), every word outside `Slot`,
whatever its bits, is as it was, and so is the size of an object whose
header is not a general-object-pointer and whose word after the header is
outside `Slot`. -/
theorem pass_only_pointers_change (p : Platform) (hp : p.Sane) (hh : p.Headers) (level : Int)
    (h : Heap) (ht : hopscotch_table) (h1 : Heap) (ht1 : hopscotch_table)
    (hkeys : keys_aligned p ht) (hpass : Pass p level h ht h1 ht1) :
    (∀ a, h1 a ≠ h a →
      lowtag_of p (h a) = p.OTHER_POINTER_LOWTAG ∧ lowtag_of p (h1 a) = p.OTHER_POINTER_LOWTAG)
    ∧ (∀ a, (fixnump p (h a) = true ∨ lowtag_of p (h a) = p.LIST_POINTER_LOWTAG
          ∨ lowtag_of p (h a) = p.INSTANCE_POINTER_LOWTAG
          ∨ widetag_of p (h a) ∈ widetags p ++ [p.INSTANCE_WIDETAG,
              p.FUNCALLABLE_INSTANCE_WIDETAG, p.CODE_HEADER_WIDETAG]
          ∨ p.specialized_vector_widetag_p (widetag_of p (h a)) = true) → h1 a = h a)
    ∧ (∀ a, lowtag_of p (h a) ≠ p.OTHER_POINTER_LOWTAG →
        h1 a = h a ∧ widetag_of p (h1 a) = widetag_of p (h a))
    ∧ (∀ a, lowtag_of p (h a) ≠ p.OTHER_POINTER_LOWTAG →
        (lowtag_of p (h (word_at p a 1)) ≠ p.OTHER_POINTER_LOWTAG
          ∨ ∀ x y, p.sizetab (widetag_of p (h a)) (h a) x
              = p.sizetab (widetag_of p (h a)) (h a) y) →
        obj_size p h1 a = obj_size p h a)
    ∧ (∀ Slot : Nat → Prop, Closed p level Slot h ht → Visits p level Slot h ht h1 ht1 →
        (∀ a, ¬ Slot a → h1 a = h a)
        ∧ (∀ a, lowtag_of p (h a) ≠ p.OTHER_POINTER_LOWTAG → ¬ Slot (word_at p a 1) →
            obj_size p h1 a = obj_size p h a)) := by
  have hpc := Pass.pointer_changes p level hp.other_lt h ht h1 ht1 hkeys hpass
  have hfr : ∀ a, lowtag_of p (h a) ≠ p.OTHER_POINTER_LOWTAG → h1 a = h a :=
    fun a ha => pointer_changes_eq p h h1 hpc.1 a ha
  refine ⟨?_, ?_, ?_, ?_, ?_⟩
  · intro a hne
    have := hpc.1.2 a hne
    exact ⟨this, by rw [hpc.1.1 a]; exact this⟩
  · intro a ha
    apply hfr
    intro hl
    rcases ha with ha | ha | ha | ha | ha
    · rw [fixnump_false_of_lowtag p hp.fixnum_bits_le (h a) _ hl hp.other_not_fixnum] at ha
      cases ha
    · rw [hl] at ha; exact hp.list_ne_other ha.symm
    · rw [hl] at ha; exact hp.instance_ne_other ha.symm
    · exact lowtag_ne_of_widetag p hh.lowtag_le (h a) _ rfl (hh.named _ ha) hl
    · exact lowtag_ne_of_widetag p hh.lowtag_le (h a) _ rfl (hh.specialized _ ha) hl
  · intro a ha
    rw [hfr a ha]
    exact ⟨rfl, rfl⟩
  · intro a ha hb
    unfold obj_size
    rw [hfr a ha]
    rcases hb with hb | hb
    · rw [hfr _ hb]
    · exact hb _ _
  · intro Slot hc hv
    have hf := Visits.framed p hp hh level Slot h ht hc h ht h1 ht1 hv
      (Framed.initial p Slot h ht hc.aligned)
    refine ⟨hf.frozen, ?_⟩
    intro a ha hb
    unfold obj_size
    rw [hfr a ha, hf.frozen _ hb]

/-- The slots `0x3000` and `0x3158` of `heap_records` reference bignums: they
are a closed set of slots. -/
theorem heap_records_closed :
    Closed example_platform 1 (fun a => a = 0x3000 ∨ a = 0x3158) heap_records
      hopscotch_create where
  aligned := fun k hk => by cases hk
  elements := by
    intro v hv hsv _
    rcases hv with hv | ⟨s, hs, hl, rfl⟩
    · cases hv
    · rcases hs with rfl | rfl <;> exact absurd hsv (by decide)
  lengths := by
    intro v hv hsv _
    rcases hv with hv | ⟨s, hs, hl, rfl⟩
    · cases hv
    · rcases hs with rfl | rfl <;> exact absurd hsv (by decide)

/-- Witness of the amended C13: the pass on `heap_records` made of the call on
the slot `0x3000` and the walk of the instance at `0x3140`, whose bitmap marks
the third slot only as a reference.  The walk rewrites the word `0x3158` from
`0x800F` to `0x802F`, both general-object-pointers; the slots of the pass are
`0x3000` and `0x3158`, and the raw word `0x3150`, which holds the bits
`0x800F` too, is as it was. -/
theorem pass_only_pointers_change_witness :
    write heap_records 0x3158 0x802F 0x3158 ≠ heap_records 0x3158
    ∧ (lowtag_of example_platform (heap_records 0x3158) = example_platform.OTHER_POINTER_LOWTAG
        ∧ lowtag_of example_platform (write heap_records 0x3158 0x802F 0x3158)
            = example_platform.OTHER_POINTER_LOWTAG)
    ∧ heap_records 0x3150 = 0x800F
    ∧ write heap_records 0x3158 0x802F 0x3150 = heap_records 0x3150 :=
  have w := pass_only_pointers_change example_platform example_platform_sane
    example_platform_headers 1 heap_records hopscotch_create
    (write heap_records 0x3158 0x802F) ⟨[0x8020]⟩
    (fun k hk => by cases hk)
    (Pass.obj 1 0x3000 heap_records hopscotch_create heap_records ⟨[0x8020]⟩ _ _ rfl
      (Pass.range 1 1 0x3140 0x3160 heap_records ⟨[0x8020]⟩ (write heap_records 0x3158 0x802F)
        ⟨[0x8020]⟩ _ _ rfl (Pass.nil _ _)))
  ⟨by decide, w.1 0x3158 (by decide), by decide,
   (w.2.2.2.2 (fun a => a = 0x3000 ∨ a = 0x3158) heap_records_closed
      (Visits.obj 1 0x3000 heap_records hopscotch_create heap_records ⟨[0x8020]⟩ _ _
        (Or.inl rfl) rfl
        (Visits.range 1 1 0x3140 0x3160 heap_records ⟨[0x8020]⟩
          (write heap_records 0x3158 0x802F) ⟨[0x8020]⟩ _ _
          (coalesce_range_with_on_slots example_platform 1 (fun a => a = 0x3000 ∨ a = 0x3158)
            1 1 0x3140 0x3160 heap_records ⟨[0x8020]⟩ (write heap_records 0x3158 0x802F)
            ⟨[0x8020]⟩ rfl)
          (Visits.nil _ _)))).1 0x3150 (by decide)⟩

/-- A call of `coalesce_obj` changes general-object-pointers only and keeps the
keys of the table object addresses. -/
theorem coalesce_obj_pointer_changes (p : Platform)
    (hlt : p.OTHER_POINTER_LOWTAG < 2 ^ p.N_LOWTAG_BITS) (level : Int) (h : Heap) :
    ∀ fuel where_ h' ht' h1 ht1, pointer_changes p h h' ∧ keys_aligned p ht' →
      coalesce_obj p level fuel where_ h' ht' = .done h1 ht1 →
      pointer_changes p h h1 ∧ keys_aligned p ht1 := by
  refine coalesce_obj_preserves p level (fun x t => pointer_changes p h x ∧ keys_aligned p t) ?_
  intro w h0 ht0 h2 ht2 h3 ht3 hl _ hinv0 hinv hi
  have hw : lowtag_of p (h w) = p.OTHER_POINTER_LOWTAG := by rw [← hinv0.1.1 w]; exact hl
  exact coalesce_obj_intern_pointer_changes p hlt h w _ h2 ht2 h3 ht3 hw hinv hi

/-- The calls of `coalesce_obj` on a list of slots change
general-object-pointers only and keep the keys of the table object
addresses. -/
theorem coalesce_slots_pointer_changes (p : Platform) (hh : p.Headers) (level : Int)
    (depth : Nat) (h : Heap) (as : List Nat) (h' : Heap) (ht' : hopscotch_table) (h1 : Heap)
    (ht1 : hopscotch_table) (hinv : pointer_changes p h h' ∧ keys_aligned p ht')
    (hres : coalesce_slots (coalesce_obj p level depth) as h' ht' = .done h1 ht1) :
    pointer_changes p h h1 ∧ keys_aligned p ht1 :=
  coalesce_slots_preserves_at (coalesce_obj p level depth)
    (fun x t => pointer_changes p h x ∧ keys_aligned p t) (fun _ => True)
    (fun w x t x1 t1 _ hi hc =>
      coalesce_obj_pointer_changes p hh.other_lt level h depth w x t x1 t1 hi hc)
    as (fun _ _ => trivial) h' ht' h1 ht1 hinv hres

/-- When the place of the simple functions of a code object is read from
words that are not general-object-pointers, the loop over them is the calls
on their slots to scavenge. -/
theorem coalesce_range_funs_eq_slots (p : Platform) (hh : p.Headers) (level : Int)
    (depth where_ : Nat) (h : Heap)
    (hfun : ∀ h' k, pointer_changes p h h' →
      p.code_simple_fun h' where_ k = p.code_simple_fun h where_ k)
    (ks : List Nat) :
    ∀ h' ht', pointer_changes p h h' ∧ keys_aligned p ht' →
      coalesce_range_funs p (coalesce_obj p level depth) where_ ks h' ht'
        = coalesce_slots (coalesce_obj p level depth) (code_fun_slots p h where_ ks) h' ht' := by
  induction ks with
  | nil => intro h' ht' _; rfl
  | cons k ks ih =>
    intro h' ht' hinv
    simp only [coalesce_range_funs, code_fun_slots]
    rw [coalesce_slots_append, hfun h' k hinv.1, coalesce_obj_elts_eq_slots]
    cases hc : coalesce_slots (coalesce_obj p level depth)
        ((List.range (p.SIMPLE_FUN_SCAV_NWORDS (p.code_simple_fun h where_ k))).map
          (word_at p (p.SIMPLE_FUN_SCAV_START (p.code_simple_fun h where_ k)))) h' ht' with
    | done h1 ht1 =>
      exact ih h1 ht1 (coalesce_slots_pointer_changes p hh level depth h _ h' ht' h1 ht1 hinv hc)
    | lost => rfl
    | out_of_fuel => rfl

/-- The frame of the calls of `coalesce_obj` on a list of slots of a closed
set: the state stays framed, and the words outside the set are as they
were. -/
theorem coalesce_slots_framed (p : Platform) (hp : p.Sane) (hh : p.Headers) (level : Int)
    (depth : Nat) (Slot : Nat → Prop) (h0 : Heap) (ht0 : hopscotch_table)
    (hc : Closed p level Slot h0 ht0) (as : List Nat) (has : ∀ a ∈ as, Slot a)
    (h : Heap) (ht : hopscotch_table) (h1 : Heap) (ht1 : hopscotch_table)
    (hinv : Framed p Slot h0 ht0 h ht)
    (hres : coalesce_slots (coalesce_obj p level depth) as h ht = .done h1 ht1) :
    Framed p Slot h0 ht0 h1 ht1 :=
  coalesce_slots_preserves_at (coalesce_obj p level depth) (Framed p Slot h0 ht0) Slot
    (fun w x t x1 t1 hs hi hcall => Framed.call p hp hh level Slot h0 ht0 hc depth w x t x1 t1
      hs hi hcall)
    as has h ht h1 ht1 hinv hres

/-- C15: take an object that `coalesce_range` meets whose header is not a
pair half and has the widetag of a code object (which is not that of a
record), whose simple functions are at places read from words that are not
general-object-pointers, with a table whose keys are object addresses.  The
loop body applies `coalesce_obj` to the slots of `code_slots` in order and
to nothing else: the slots to scavenge of each simple function in turn,
then the boxed header words of the indices
`1 .. code_header_words(header) - 1`.  When the walk of the object returns,
no other word is touched: every word outside a closed set of slots that
holds the slots of `code_slots` (a set that also holds the element slots of
the general vectors with a shareable flag that its words reference) is left
as it was, whatever its bits.  The walk goes on at the word `where + nwords`,
`nwords` being the size the size table gives, not the boxed size. -/
theorem coalesce_range_object_code (p : Platform) (hp : p.Sane) (hh : p.Headers) (level : Int)
    (depth where_ : Nat) (h : Heap) (ht : hopscotch_table)
    (hcons : p.is_cons_half (h where_) = false)
    (hcode : widetag_of p (h where_) = p.CODE_HEADER_WIDETAG)
    (hinst : p.CODE_HEADER_WIDETAG ≠ p.INSTANCE_WIDETAG)
    (hfin : p.CODE_HEADER_WIDETAG ≠ p.FUNCALLABLE_INSTANCE_WIDETAG)
    (hfun : ∀ h' k, pointer_changes p h h' →
      p.code_simple_fun h' where_ k = p.code_simple_fun h where_ k)
    (hkeys : keys_aligned p ht) :
    coalesce_range_object p (coalesce_obj p level depth) where_ h ht
      = coalesce_slots (coalesce_obj p level depth) (code_slots p h where_) h ht
    ∧ (∀ (Slot : Nat → Prop) h1 ht1, Closed p level Slot h ht →
        (∀ s ∈ code_slots p h where_, Slot s) →
        coalesce_range_object p (coalesce_obj p level depth) where_ h ht = .done h1 ht1 →
        ∀ a, ¬ Slot a → h1 a = h a)
    ∧ coalesce_range_next p where_ h = word_at p where_ (obj_size p h where_)
    ∧ (∀ steps limit, where_ < limit →
        coalesce_range p level depth (steps + 1) where_ limit h ht
          = (coalesce_slots (coalesce_obj p level depth) (code_slots p h where_) h ht).bind
              (coalesce_range p level depth steps (word_at p where_ (obj_size p h where_))
                limit)) := by
  have heq : coalesce_range_object p (coalesce_obj p level depth) where_ h ht
      = coalesce_slots (coalesce_obj p level depth) (code_slots p h where_) h ht := by
    unfold coalesce_range_object code_slots
    simp only
    rw [hcons, if_neg (by simp), hcode,
      if_neg (by
        intro hc
        rcases hc with hc | hc
        · exact hinst hc
        · exact hfin hc.2),
      if_pos rfl, coalesce_slots_append,
      coalesce_range_funs_eq_slots p hh level depth where_ h hfun _ h ht
        ⟨pointer_changes_refl p h, hkeys⟩]
    congr 1
    funext a b
    exact coalesce_obj_elts_eq_slots p _ where_ _ a b
  have hnext : coalesce_range_next p where_ h = word_at p where_ (obj_size p h where_) := by
    unfold coalesce_range_next
    rw [hcons, if_neg (by simp)]
  refine ⟨heq, ?_, hnext, ?_⟩
  · intro Slot h1 ht1 hc hs hres
    rw [heq] at hres
    exact (coalesce_slots_framed p hp hh level depth Slot h ht hc _ hs h ht h1 ht1
      (Framed.initial p Slot h ht hc.aligned) hres).frozen
  · intro steps limit hlt
    simp only [coalesce_range]
    rw [if_pos hlt, heq, hnext]

/-- The constants of `code_platform` are those of the example platform. -/
theorem code_platform_sane : code_platform.Sane where
  widetags_nodup := by decide
  other_lt := by decide
  list_ne_other := by decide
  instance_ne_other := by decide
  instance_ne_list := by decide
  fixnum_bits_le := by decide
  other_not_fixnum := by decide
  list_not_fixnum := by decide
  instance_not_fixnum := by decide
  nil_lowtag := by decide
  word_bytes_pos := by decide
  not_specialized := by decide

/-- The slots of the code object of `heap_code` reference bignums or hold no
general-object-pointer: they are a closed set of slots. -/
theorem heap_code_closed :
    Closed code_platform 1 (fun a => a ∈ code_slots code_platform heap_code 0x3400) heap_code
      ⟨[0x8020]⟩ where
  aligned := fun k hk => by rw [List.mem_singleton.1 hk]; decide
  elements := by
    intro v hv hsv _
    rcases hv with hv | ⟨s, hs, hl, rfl⟩
    · rw [List.mem_singleton.1 hv] at hsv; exact absurd hsv (by decide)
    · have hs' : s ∈ [0x3430, 0x3438, 0x3440, 0x3448, 0x3408, 0x3410, 0x3418] := hs
      simp only [List.mem_cons, List.mem_singleton, List.not_mem_nil, or_false] at hs'
      rcases hs' with rfl | rfl | rfl | rfl | rfl | rfl | rfl <;> exact absurd hsv (by decide)
  lengths := by
    intro v hv hsv _
    rcases hv with hv | ⟨s, hs, hl, rfl⟩
    · rw [List.mem_singleton.1 hv] at hsv; exact absurd hsv (by decide)
    · have hs' : s ∈ [0x3430, 0x3438, 0x3440, 0x3448, 0x3408, 0x3410, 0x3418] := hs
      simp only [List.mem_cons, List.mem_singleton, List.not_mem_nil, or_false] at hs'
      rcases hs' with rfl | rfl | rfl | rfl | rfl | rfl | rfl <;> exact absurd hsv (by decide)

/-- Witness of C15: the code object at `0x3400` of `heap_code`, walked with the
bignum at `0x8020` in the table.  Its slots are the four slots to scavenge
from `0x3430` on and the boxed words at `0x3408`, `0x3410` and `0x3418`; the
third boxed word and the first slot to scavenge are rewritten, the first
word of the function, at `0x3420`, keeps the bits `0x800F`, and the walk goes
on at `0x3460`, twelve words after `0x3400`. -/
theorem coalesce_range_object_code_witness :
    code_slots code_platform heap_code 0x3400
      = [0x3430, 0x3438, 0x3440, 0x3448, 0x3408, 0x3410, 0x3418]
    ∧ write (write heap_code 0x3430 0x802F) 0x3410 0x802F 0x3420 = heap_code 0x3420
    ∧ coalesce_range_next code_platform 0x3400 heap_code = 0x3460 :=
  have w := coalesce_range_object_code code_platform code_platform_sane
    code_platform_headers 1 1 0x3400
    heap_code ⟨[0x8020]⟩ (by decide) (by decide) (by decide) (by decide)
    (fun h' k hpc => by
      have e : h' 0x3400 = heap_code 0x3400 :=
        pointer_changes_eq code_platform heap_code h' hpc 0x3400 (by decide)
      show 0x3400 + 8 * (h' 0x3400 / 256) + 64 * k
        = 0x3400 + 8 * (heap_code 0x3400 / 256) + 64 * k
      rw [e])
    (fun k hk => by rw [List.mem_singleton.1 hk]; decide)
  ⟨by decide,
   w.2.1 (fun a => a ∈ code_slots code_platform heap_code 0x3400)
    (write (write heap_code 0x3430 0x802F) 0x3410 0x802F) ⟨[0x8020]⟩ heap_code_closed
    (fun _ hs => hs) rfl 0x3420 (by decide),
   w.2.2.1.trans (by decide)⟩

/-- The loop over a record whose bitmap test reads words that are never
stored to is the loop over the slots the bitmap marks, when these are slots
of a closed set. -/
theorem coalesce_range_instance_eq_elts (p : Platform) (hp : p.Sane) (hh : p.Headers)
    (level : Int) (depth where_ bitmap : Nat) (Slot : Nat → Prop) (h : Heap)
    (ht : hopscotch_table) (hc : Closed p level Slot h ht)
    (hbits : ∀ h' i, pointer_changes p h h' → (∀ a, ¬ Slot a → h' a = h a) →
      p.layout_bitmap_logbitp h' i bitmap = p.layout_bitmap_logbitp h i bitmap)
    (is : List Nat)
    (hs : ∀ i ∈ is, p.layout_bitmap_logbitp h (i - 1) bitmap = true → Slot (word_at p where_ i)) :
    ∀ h' ht', Framed p Slot h ht h' ht' →
    coalesce_range_instance p (coalesce_obj p level depth) where_ bitmap is h' ht'
      = coalesce_obj_elts p (coalesce_obj p level depth) where_
          (is.filter (fun i => p.layout_bitmap_logbitp h (i - 1) bitmap)) h' ht' := by
  induction is with
  | nil => intro h' ht' _; rfl
  | cons i is ih =>
    intro h' ht' hinv
    have ih' := ih (fun j hj => hs j (List.mem_cons_of_mem _ hj))
    simp only [coalesce_range_instance]
    rw [hbits h' (i - 1) hinv.changes hinv.frozen]
    cases hb : p.layout_bitmap_logbitp h (i - 1) bitmap
    · rw [List.filter_cons_of_neg (by simp [hb])]
      simp only [Bool.false_eq_true, if_false, Res.done_bind]
      exact ih' h' ht' hinv
    · rw [List.filter_cons_of_pos (by simp [hb]), coalesce_obj_elts_cons]
      simp only [if_true]
      cases hcall : coalesce_obj p level depth (word_at p where_ i) h' ht' with
      | done h2 ht2 =>
        simp only [Res.done_bind]
        exact ih' h2 ht2 (Framed.call p hp hh level Slot h ht hc depth _ h' ht' h2 ht2
          (hs i (List.mem_cons_self _ _) hb) hinv hcall)
      | lost => rfl
      | out_of_fuel => rfl

/-- C14, amended: take an object that `coalesce_range` meets whose header is
not a pair half and has the widetag of an instance, or that of a
funcallable instance on a build with compact instance headers; let `n` be
its size, and take a closed set `Slot` of slots that holds the words `i` of
the object, `1 <= i < n`, whose bit `i - 1` is set in the layout bitmap,
while the bitmap test reads words that are never stored to (a fixnum
bitmap, or a bignum whose digits are outside `Slot`).  The loop body applies
`coalesce_obj` to the words `i` with `1 <= i < n` whose bit `i - 1` is set,
in increasing order, and to nothing else.  When the walk of the object
returns, every word outside `Slot` is as it was, whatever its bits: so is a
word of the object that the bitmap marks as raw data and that is outside
`Slot`.  A funcallable instance on a build without compact instance headers
gets the default treatment instead, when its widetag is not listed as
unboxed: `call` on every word `1 <= i < n`. -/
theorem coalesce_range_object_record (p : Platform) (hp : p.Sane) (hh : p.Headers)
    (level : Int) (depth where_ : Nat) (h : Heap) (ht : hopscotch_table)
    (hcons : p.is_cons_half (h where_) = false) :
    ((widetag_of p (h where_) = p.INSTANCE_WIDETAG
      ∨ (p.feature_compact_instance_header = true
          ∧ widetag_of p (h where_) = p.FUNCALLABLE_INSTANCE_WIDETAG)) →
      ∀ Slot : Nat → Prop, Closed p level Slot h ht →
      (∀ i ∈ List.range' 1 (obj_size p h where_ - 1),
        p.layout_bitmap_logbitp h (i - 1) (p.layout_bitmap h (p.instance_layout h where_)) = true →
        Slot (word_at p where_ i)) →
      (∀ h' i, pointer_changes p h h' → (∀ a, ¬ Slot a → h' a = h a) →
        p.layout_bitmap_logbitp h' i (p.layout_bitmap h (p.instance_layout h where_))
          = p.layout_bitmap_logbitp h i (p.layout_bitmap h (p.instance_layout h where_))) →
      coalesce_range_object p (coalesce_obj p level depth) where_ h ht
        = coalesce_obj_elts p (coalesce_obj p level depth) where_
            ((List.range' 1 (obj_size p h where_ - 1)).filter (fun i =>
              p.layout_bitmap_logbitp h (i - 1)
                (p.layout_bitmap h (p.instance_layout h where_)))) h ht
      ∧ (∀ h1 ht1,
          coalesce_range_object p (coalesce_obj p level depth) where_ h ht = .done h1 ht1 →
          (∀ a, ¬ Slot a → h1 a = h a)
          ∧ ∀ i, p.layout_bitmap_logbitp h (i - 1)
                (p.layout_bitmap h (p.instance_layout h where_)) = false →
              ¬ Slot (word_at p where_ i) → h1 (word_at p where_ i) = h (word_at p where_ i)))
    ∧ (p.feature_compact_instance_header = false →
        widetag_of p (h where_) = p.FUNCALLABLE_INSTANCE_WIDETAG →
        p.FUNCALLABLE_INSTANCE_WIDETAG ≠ p.INSTANCE_WIDETAG →
        p.FUNCALLABLE_INSTANCE_WIDETAG ≠ p.CODE_HEADER_WIDETAG →
        p.unboxed_obj_widetag_p p.FUNCALLABLE_INSTANCE_WIDETAG = false →
        ∀ call, coalesce_range_object p call where_ h ht
          = coalesce_obj_elts p call where_ (List.range' 1 (obj_size p h where_ - 1)) h ht) := by
  refine ⟨?_, ?_⟩
  swap
  · intro hc hw h1 h2 h3 call
    unfold coalesce_range_object
    simp only
    rw [hcons, if_neg (by simp), hw, hc, if_neg (by simp [h1]), if_neg h2, h3, if_neg (by simp)]
  intro hrec Slot hc hs hbits
  have heq : coalesce_range_object p (coalesce_obj p level depth) where_ h ht
      = coalesce_obj_elts p (coalesce_obj p level depth) where_
          ((List.range' 1 (obj_size p h where_ - 1)).filter (fun i =>
            p.layout_bitmap_logbitp h (i - 1)
              (p.layout_bitmap h (p.instance_layout h where_)))) h ht := by
    unfold coalesce_range_object
    simp only
    rw [hcons, if_neg (by simp), if_pos hrec]
    exact coalesce_range_instance_eq_elts p hp hh level depth where_ _ Slot h ht hc hbits _ hs
      h ht (Framed.initial p Slot h ht hc.aligned)
  refine ⟨heq, ?_⟩
  intro h1 ht1 hres
  rw [heq] at hres
  have hinv := coalesce_obj_elts_preserves_at p (coalesce_obj p level depth)
    (Framed p Slot h ht) Slot
    (fun w x t x1 t1 hok hinv hcall =>
      Framed.call p hp hh level Slot h ht hc depth w x t x1 t1 hok hinv hcall)
    where_ _
    (fun j hj => hs j (List.mem_filter.1 hj).1 (List.mem_filter.1 hj).2)
    h ht h1 ht1 (Framed.initial p Slot h ht hc.aligned) hres
  exact ⟨hinv.frozen, fun i _ hi => hinv.frozen _ hi⟩

/-- The third slot of the instance at `0x3140` of `heap_records` references a
bignum: it is a closed set of slots, with the bignum at `0x8020` in the
table. -/
theorem heap_records_instance_closed :
    Closed example_platform 1 (fun a => a = 0x3158) heap_records ⟨[0x8020]⟩ where
  aligned := fun k hk => by rw [List.mem_singleton.1 hk]; decide
  elements := by
    intro v hv hsv _
    rcases hv with hv | ⟨s, rfl, hl, rfl⟩
    · rw [List.mem_singleton.1 hv] at hsv; exact absurd hsv (by decide)
    · exact absurd hsv (by decide)
  lengths := by
    intro v hv hsv _
    rcases hv with hv | ⟨s, rfl, hl, rfl⟩
    · rw [List.mem_singleton.1 hv] at hsv; exact absurd hsv (by decide)
    · exact absurd hsv (by decide)

/-- Witness of the amended C14: the instance at `0x3140` of `heap_records`,
walked with the bignum at `0x8020` in the table.  Its third slot, marked as a
reference, is rewritten; its second slot, marked as raw data, keeps the bits
`0x800F`. -/
theorem coalesce_range_object_record_witness :
    (coalesce_range_object example_platform (coalesce_obj example_platform 1 1) 0x3140
        heap_records ⟨[0x8020]⟩).word 0x3158 = some 0x802F
    ∧ write heap_records 0x3158 0x802F (word_at example_platform 0x3140 2)
        = heap_records (word_at example_platform 0x3140 2) :=
  have w := coalesce_range_object_record example_platform example_platform_sane
    example_platform_headers 1 1 0x3140 heap_records ⟨[0x8020]⟩ (by decide)
  ⟨by decide,
   ((w.1 (Or.inl (by decide)) (fun a => a = 0x3158) heap_records_instance_closed
      (by decide) (fun _ _ _ _ => rfl)).2 (write heap_records 0x3158 0x802F) ⟨[0x8020]⟩ rfl).2 2
      (by decide) (by decide)⟩

/-- C16: when the region from `where` to `limit` is made of at most `steps`
unboxed objects, `coalesce_range` returns and leaves the heap and the table
as they were.  For the first object of the region, if there is one, the loop
body makes no call of `coalesce_obj`, and the walk, of this or of any longer
region that starts with the object, goes on with the same heap and table
at the word after the words of the object.  Yet a call of `coalesce_obj` on a
slot that references that object, when it is eligible, looks it up in the
table: it is inserted, or the slot is redirected to its representative. -/
theorem coalesce_range_unboxed (p : Platform) (level : Int) (depth steps where_ limit : Nat)
    (h : Heap) (ht : hopscotch_table)
    (hreg : unboxed_region p h steps where_ limit = true) :
    coalesce_range p level depth steps where_ limit h ht = .done h ht
    ∧ (where_ < limit →
        (∀ call, coalesce_range_object p call where_ h ht = .done h ht)
        ∧ coalesce_range_next p where_ h = word_at p where_ (obj_size p h where_)
        ∧ (∀ n limit', where_ < limit' →
            coalesce_range p level depth (n + 1) where_ limit' h ht
              = coalesce_range p level depth n (word_at p where_ (obj_size p h where_)) limit'
                  h ht)
        ∧ (∀ fuel s, lowtag_of p (h s) = p.OTHER_POINTER_LOWTAG →
            native_pointer p (h s) = where_ →
            coalesce_obj_test p level h where_ = true →
            p.unboxed_obj_widetag_p p.SIMPLE_VECTOR_WIDETAG = false →
            coalesce_obj p level (fuel + 1) s h ht = coalesce_obj_intern p s where_ h ht)) := by
  constructor
  · induction steps generalizing where_ with
    | zero =>
      simp only [unboxed_region, decide_eq_true_eq] at hreg
      simp only [coalesce_range]
      rw [if_neg (by omega)]
    | succ n ih =>
      simp only [unboxed_region, Bool.or_eq_true, decide_eq_true_eq, Bool.and_eq_true] at hreg
      simp only [coalesce_range]
      rcases hreg with hreg | ⟨hu, hrest⟩
      · rw [if_neg (by omega)]
      · split
        · obtain ⟨e1, e2⟩ := coalesce_range_object_unboxed p (coalesce_obj p level depth)
            where_ h ht hu
          rw [e1, e2]
          exact ih _ hrest
        · rfl
  · intro hlt
    cases steps with
    | zero =>
      simp only [unboxed_region, decide_eq_true_eq] at hreg
      omega
    | succ n =>
      simp only [unboxed_region, Bool.or_eq_true, decide_eq_true_eq, Bool.and_eq_true] at hreg
      rcases hreg with hreg | ⟨hu, -⟩
      · omega
      · refine ⟨fun call => (coalesce_range_object_unboxed p call where_ h ht hu).1,
          (coalesce_range_object_unboxed p (fun _ _ _ => .lost) where_ h ht hu).2, ?_, ?_⟩
        · intro m limit' hlt'
          obtain ⟨e1, e2⟩ := coalesce_range_object_unboxed p (coalesce_obj p level depth)
            where_ h ht hu
          simp only [coalesce_range]
          rw [if_pos hlt', e1, e2]
          rfl
        intro fuel s hl hn helig hsv
        have hw : widetag_of p (h (native_pointer p (h s))) ≠ p.SIMPLE_VECTOR_WIDETAG := by
          rw [hn]
          intro e
          simp only [unboxed_object, Bool.and_eq_true] at hu
          rw [e, hsv] at hu
          exact Bool.false_ne_true hu.2
        have := coalesce_obj_leaf p level fuel s h ht hl (by rw [hn]; exact helig) hw
        rw [hn] at this
        exact this

/-- Witness of C16: the five base strings of `heap_vectors` fill the region
from `0x8200` to `0x82A0`, which the walk leaves as it is; the call on the
element slot `0x8110`, which references the first of them, inserts it into
the table.  In `heap_spaces` the walk of the region from `0x8000` to `0x8020`
goes on after the bignum at `0x8000` with the pair at `0x8010`, both halves of
which it redirects to the key `0x2100`. -/
theorem coalesce_range_unboxed_witness :
    coalesce_range example_platform 1 1 5 0x8200 0x82A0 heap_vectors hopscotch_create
      = .done heap_vectors hopscotch_create
    ∧ coalesce_obj example_platform 1 1 0x8110 heap_vectors hopscotch_create
      = .done heap_vectors ⟨[0x8200]⟩
    ∧ coalesce_range example_platform 1 1 2 0x8000 0x8020 heap_spaces ⟨[0x2100]⟩
      = .done (write (write heap_spaces 0x8010 0x210F) 0x8018 0x210F) ⟨[0x2100]⟩ :=
  have w := coalesce_range_unboxed example_platform 1 1 5 0x8200 0x82A0 heap_vectors
    hopscotch_create (by decide)
  ⟨w.1, ((w.2 (by decide)).2.2.2 0 0x8110 (by decide) (by decide) (by decide) (by decide)).trans
    rfl,
   (((coalesce_range_unboxed example_platform 1 1 1 0x8000 0x8010 heap_spaces ⟨[0x2100]⟩
      (by decide)).2 (by decide)).2.2.1 1 0x8020 (by decide)).trans rfl⟩

/-- The lookup-insert-or-rewrite step stores no general-object-pointer into
collectible space in a slot of read-only space. -/
theorem coalesce_obj_intern_read_only_apart (p : Platform) (w x : Nat) (h2 : Heap)
    (ht2 : hopscotch_table) (h3 : Heap) (ht3 : hopscotch_table) (hro : read_only_apart p h2)
    (hi : coalesce_obj_intern p w x h2 ht2 = .done h3 ht3) : read_only_apart p h3 := by
  rcases coalesce_obj_intern_done p _ _ h2 ht2 h3 ht3 hi with ⟨-, e1, -⟩ | ⟨-, hg, e1, -⟩
  · rw [e1]; exact hro
  · intro a h1 h2' hl
    rw [e1] at hl ⊢
    by_cases haw : a = w
    · subst haw
      rw [write_same]
      by_contra hc
      exact hg ⟨h1, h2', by simpa using hc⟩
    · rw [write_other _ _ _ _ haw] at hl ⊢
      exact hro a h1 h2' hl

/-- A call of `coalesce_obj` that returns stores no general-object-pointer
into collectible space in a slot of read-only space. -/
theorem coalesce_obj_read_only_apart (p : Platform) (level : Int) :
    ∀ fuel where_ h ht h1 ht1, read_only_apart p h →
      coalesce_obj p level fuel where_ h ht = .done h1 ht1 → read_only_apart p h1 :=
  coalesce_obj_preserves p level (fun h' _ => read_only_apart p h')
    (fun w _ _ h2 ht2 h3 ht3 _ _ _ hinv hi =>
      coalesce_obj_intern_read_only_apart p w _ h2 ht2 h3 ht3 hinv hi)

/-- A pass stores no general-object-pointer into collectible space in a slot
of read-only space. -/
theorem Pass.read_only_apart (p : Platform) (level : Int) (h : Heap) (ht : hopscotch_table)
    (h1 : Heap) (ht1 : hopscotch_table) (hpass : Pass p level h ht h1 ht1)
    (hro : Coalesce.read_only_apart p h) : Coalesce.read_only_apart p h1 :=
  Pass.preserves p level (fun h' _ => Coalesce.read_only_apart p h')
    (fun w _ _ h2 ht2 h3 ht3 _ _ _ hinv hi =>
      coalesce_obj_intern_read_only_apart p w _ h2 ht2 h3 ht3 hinv hi) h ht h1 ht1 hpass hro

/-- The slots of a heap of separate objects are a closed set. -/
theorem Separate.closed (p : Platform) (level : Int) (Slot : Nat → Prop) (h0 : Heap)
    (hsep : Separate p level Slot h0) : Closed p level Slot h0 hopscotch_create where
  aligned := fun k hk => by cases hk
  elements := fun v hv hsv _ => hsep.elements v hv hsv
  lengths := by
    intro v hv hsv _
    apply hsep.vectors v hv hsv 1 (lt_of_lt_of_le (by decide) (le_max_left _ _))
    intro hm
    have := two_le_of_mem_elt_indices p h0 v 1 hm
    omega

/-- Every word of a key is never stored to, or is an element slot of the
key, a general vector. -/
theorem FirstSeen.key_words (p : Platform) (level : Int) (Slot : Nat → Prop) (h0 h : Heap)
    (ht : hopscotch_table) (hsep : Separate p level Slot h0)
    (hinv : FirstSeen p level Slot h0 h ht)
    (k : Nat) (hk : k ∈ ht.keys) (i : Nat) (hi : i < max 2 (obj_size p h0 k)) :
    fixed p Slot h0 (word_at p k i)
    ∨ (widetag_of p (h0 k) = p.SIMPLE_VECTOR_WIDETAG ∧ i ∈ elt_indices p h0 k) := by
  by_cases hsv : widetag_of p (h0 k) = p.SIMPLE_VECTOR_WIDETAG
  · by_cases he : i ∈ elt_indices p h0 k
    · exact Or.inr ⟨hsv, he⟩
    · exact Or.inl (hsep.vectors k (hinv.framed.keys k hk) hsv i hi he)
  · left
    apply hinv.leaves k hk hsv
    unfold object_words
    exact List.mem_map.2 ⟨i, List.mem_range.2 hi, rfl⟩

/-- The header and the length word of a key are as they were, and so are its
size and the list of its words. -/
theorem FirstSeen.key_size (p : Platform) (level : Int) (Slot : Nat → Prop) (h0 h : Heap)
    (ht : hopscotch_table) (hsep : Separate p level Slot h0)
    (hinv : FirstSeen p level Slot h0 h ht)
    (k : Nat) (hk : k ∈ ht.keys) :
    h k = h0 k ∧ h (word_at p k 1) = h0 (word_at p k 1)
    ∧ object_words p h k = object_words p h0 k := by
  have w0 : h (word_at p k 0) = h0 (word_at p k 0) := by
    rcases FirstSeen.key_words p level Slot h0 h ht hsep hinv k hk 0
      (lt_of_lt_of_le (by decide) (le_max_left _ _)) with hf | ⟨-, he⟩
    · exact Framed.fixed_eq p Slot h0 _ h ht hinv.framed _ hf
    · have := two_le_of_mem_elt_indices p h0 k 0 he
      omega
  have w1 : h (word_at p k 1) = h0 (word_at p k 1) := by
    rcases FirstSeen.key_words p level Slot h0 h ht hsep hinv k hk 1
      (lt_of_lt_of_le (by decide) (le_max_left _ _)) with hf | ⟨-, he⟩
    · exact Framed.fixed_eq p Slot h0 _ h ht hinv.framed _ hf
    · have := two_le_of_mem_elt_indices p h0 k 1 he
      omega
  rw [word_at_zero] at w0
  refine ⟨w0, w1, ?_⟩
  unfold object_words obj_size
  rw [w0, w1]

/-- A slot that holds a general-object-pointer that is not settled is not a
word of a key. -/
theorem FirstSeen.not_key_word (p : Platform) (level : Int) (Slot : Nat → Prop) (h0 h : Heap)
    (ht : hopscotch_table) (hsep : Separate p level Slot h0)
    (hinv : FirstSeen p level Slot h0 h ht)
    (w : Nat) (hw : Slot w) (hl : lowtag_of p (h w) = p.OTHER_POINTER_LOWTAG)
    (hns : ¬ settled p level h0 ht (h w))
    (k : Nat) (hk : k ∈ ht.keys) : w ∉ object_words p h k := by
  rw [(FirstSeen.key_size p level Slot h0 h ht hsep hinv k hk).2.2]
  intro hmem
  unfold object_words at hmem
  obtain ⟨i, hi, e⟩ := List.mem_map.1 hmem
  rcases FirstSeen.key_words p level Slot h0 h ht hsep hinv k hk i (List.mem_range.1 hi) with
    hf | ⟨hsv, he⟩
  · rw [e] at hf
    rcases hf with hf | hf
    · exact hf hw
    · rw [← hinv.framed.changes.1 w] at hf
      exact hf hl
  · have := hinv.elements k hk hsv i he
    rw [e] at this
    exact hns this

/-- A store to a slot that is not a word of a key leaves the keys pairwise not
content-equal. -/
theorem FirstSeen.first_write (p : Platform) (h : Heap) (ks : List Nat) (w v : Nat)
    (hw : ∀ k ∈ ks, w ∉ object_words p h k)
    (hfirst : ks.Pairwise (fun k r => vector_eql p h k r = false)) :
    ks.Pairwise (fun k r => vector_eql p (write h w v) k r = false) := by
  have hcongr : ∀ k ∈ ks, ∀ u ∈ object_words p h k, write h w v u = h u := by
    intro k hk u hu
    exact write_other _ _ _ _ (fun e => hw k hk (e ▸ hu))
  induction ks with
  | nil => exact List.Pairwise.nil
  | cons k ks ih =>
    rw [List.pairwise_cons] at hfirst ⊢
    refine ⟨?_, ih (fun r hr => hw r (List.mem_cons_of_mem _ hr)) hfirst.2
      (fun r hr => hcongr r (List.mem_cons_of_mem _ hr))⟩
    intro r hr
    rw [vector_eql_congr p h (write h w v) k r (hcongr k (List.mem_cons_self _ _))
      (hcongr r (List.mem_cons_of_mem _ hr))]
    exact hfirst.1 r hr

/-- The lookup of an object that is content-equal to a key returns that key:
no other key is content-equal to the object. -/
theorem FirstSeen.lookup_eql (p : Platform) (h : Heap) (ht : hopscotch_table)
    (hfirst : ht.keys.Pairwise (fun k r => vector_eql p h k r = false))
    (r : Nat) (hr : r ∈ ht.keys) (x : Nat) (hx : vector_eql p h r x = true) :
    hopscotch_get p h ht x ≠ 0 ∧ ht.keys.getD (hopscotch_get p h ht x - 1) 0 = r
    ∧ representative p h ht.keys x = r
    ∧ (x ∈ ht.keys → x = r) := by
  obtain ⟨ks, l, hkeys⟩ := List.append_of_mem hr
  have hpw := hfirst
  rw [hkeys, List.pairwise_append] at hpw
  have hks : ∀ k ∈ ks, vector_eql p h k x = false := by
    intro k hk
    cases hkx : vector_eql p h k x with
    | false => rfl
    | true =>
      have hxr : vector_eql p h x r = true := by rw [vector_eql_symm]; exact hx
      have := vector_eql_trans p h k x r hkx hxr
      rw [hpw.2.2 k hk r (List.mem_cons_self _ _)] at this
      cases this
  obtain ⟨e1, e2⟩ := probe_first (fun k => vector_eql p h k x) ks r l hks hx
  have e3 : ht.keys.getD (hopscotch_get p h ht x - 1) 0 = r := by
    unfold hopscotch_get; rw [hkeys]; exact e2
  refine ⟨by unfold hopscotch_get; rw [hkeys, e1]; exact Nat.succ_ne_zero _, e3, e3, ?_⟩
  intro hxk
  by_contra hne
  rw [hkeys] at hxk
  rcases List.mem_append.1 hxk with hxk | hxk
  · have := hks x hxk
    rw [vector_eql_refl] at this
    cases this
  · rcases List.mem_cons.1 hxk with hxk | hxk
    · exact hne hxk
    · have := (List.pairwise_cons.1 hpw.2.1).1 x hxk
      rw [hx] at this
      cases this

/-- The lookup of a key returns the key. -/
theorem FirstSeen.lookup (p : Platform) (level : Int) (Slot : Nat → Prop) (h0 h : Heap)
    (ht : hopscotch_table) (hinv : FirstSeen p level Slot h0 h ht) (r : Nat)
    (hr : r ∈ ht.keys) :
    hopscotch_get p h ht r ≠ 0 ∧ ht.keys.getD (hopscotch_get p h ht r - 1) 0 = r := by
  obtain ⟨e1, e2, -, -⟩ := FirstSeen.lookup_eql p h ht hinv.first r hr r (vector_eql_refl p h r)
  exact ⟨e1, e2⟩

/-- The lookup-insert-or-rewrite step for a slot that references a key:
nothing changes, or the guard ends the run. -/
theorem FirstSeen.intern (p : Platform) (level : Int) (Slot : Nat → Prop) (h0 h : Heap)
    (ht : hopscotch_table) (hinv : FirstSeen p level Slot h0 h ht) (r : Nat)
    (hr : r ∈ ht.keys)
    (s : Nat) (hl : lowtag_of p (h s) = p.OTHER_POINTER_LOWTAG)
    (hn : native_pointer p (h s) = r) :
    coalesce_obj_intern p s r h ht = .done h ht
    ∨ (coalesce_obj_intern p s r h ht = .lost
        ∧ ¬ read_only_apart p h) := by
  obtain ⟨e1, e2⟩ := FirstSeen.lookup p level Slot h0 h ht hinv r hr
  have hptr : make_lispobj r p.OTHER_POINTER_LOWTAG = h s := by
    rw [← hn, ← hl]; exact make_lispobj_native_pointer p (h s)
  unfold coalesce_obj_intern
  simp only
  rw [if_neg e1, e2, hptr, write_self]
  by_cases hg : s ≥ p.READ_ONLY_SPACE_START ∧ s < p.READ_ONLY_SPACE_END ∧
      gcable_pointer_p p (h s) = true
  · rw [if_pos hg]
    refine Or.inr ⟨rfl, fun hro => ?_⟩
    have := hro s hg.1 hg.2.1 hl
    rw [hg.2.2] at this
    cases this
  · rw [if_neg hg]
    exact Or.inl rfl

/-- A call on a slot whose word is settled changes nothing, or the guard ends
the run. -/
theorem FirstSeen.settled_call (p : Platform) (hp : p.Sane) (hh : p.Headers) (level : Int)
    (Slot : Nat → Prop) (h0 h : Heap) (ht : hopscotch_table)
    (hinv : FirstSeen p level Slot h0 h ht) (fuel s : Nat)
    (hs : settled p level h0 ht (h s)) :
    coalesce_obj p level (fuel + 1) s h ht = .done h ht
    ∨ (coalesce_obj p level (fuel + 1) s h ht = .lost ∧ ¬ read_only_apart p h) := by
  by_cases hl : lowtag_of p (h s) = p.OTHER_POINTER_LOWTAG
  · rcases hs with hs | ⟨hsv, hs⟩
    · exact absurd hl hs
    · have hteq := coalesce_obj_test_leaf_eq p hp hh level h0 h hinv.framed.changes _ hsv
      cases htest : coalesce_obj_test p level h (native_pointer p (h s)) with
      | false => exact Or.inl (coalesce_obj_noop_of p level fuel s h ht (Or.inr htest))
      | true =>
        rcases hs with hs | hs
        · rw [hteq, hs] at htest; cases htest
        · have hsv' : widetag_of p (h (native_pointer p (h s))) ≠ p.SIMPLE_VECTOR_WIDETAG := by
            intro e
            rw [vector_header_eq p hh h0 h hinv.framed.changes _ (Or.inl e)] at e
            exact hsv e
          rw [coalesce_obj_leaf p level fuel s h ht hl htest hsv']
          exact FirstSeen.intern p level Slot h0 h ht hinv _ hs s hl rfl
  · exact Or.inl (coalesce_obj_noop_of p level fuel s h ht (Or.inl hl))

/-- A settled word stays settled when keys are added. -/
theorem settled_mono (p : Platform) (level : Int) (h0 : Heap) (ht ht1 : hopscotch_table)
    (hsub : ∀ k ∈ ht.keys, k ∈ ht1.keys) (x : Nat) (hs : settled p level h0 ht x) :
    settled p level h0 ht1 x := by
  rcases hs with hs | ⟨h1, hs | hs⟩
  · exact Or.inl hs
  · exact Or.inr ⟨h1, Or.inl hs⟩
  · exact Or.inr ⟨h1, Or.inr (hsub _ hs)⟩

/-- A key that is content-equal to an object that is not a general vector is
not a general vector. -/
theorem FirstSeen.match_leaf (p : Platform) (hh : p.Headers) (h0 h : Heap)
    (hpc : pointer_changes p h0 h) (k t : Nat) (hm : vector_eql p h k t = true)
    (ht : widetag_of p (h0 t) ≠ p.SIMPLE_VECTOR_WIDETAG) :
    widetag_of p (h0 k) ≠ p.SIMPLE_VECTOR_WIDETAG := by
  intro hk
  have hk1 := vector_header_eq p hh h0 h hpc k (Or.inr hk)
  have hne : widetag_of p (h k) ≠ widetag_of p (h t) := by
    rw [hk1, hk]
    intro e
    have ht1 := vector_header_eq p hh h0 h hpc t (Or.inl e.symm)
    rw [ht1] at e
    exact ht e.symm
  rw [vector_eql_of_widetag_ne p h k t hne] at hm
  cases hm

/-- The lookup-insert-or-rewrite step for a slot whose word is not settled,
and an object that may become a key: its words are never stored to, or it is
a general vector whose elements are settled.  The step keeps what `FirstSeen`
states, changes no word but that of the slot, only adds keys, and leaves the
slot with a reference to a key that is content-equal to the object. -/
theorem FirstSeen.intern_step (p : Platform) (hh : p.Headers) (level : Int)
    (Slot : Nat → Prop) (h0 : Heap) (hsep : Separate p level Slot h0) (h : Heap)
    (ht : hopscotch_table) (hinv : FirstSeen p level Slot h0 h ht) (w : Nat) (hw : Slot w)
    (hl : lowtag_of p (h w) = p.OTHER_POINTER_LOWTAG)
    (hns : ¬ settled p level h0 ht (h w))
    (hleaf : widetag_of p (h0 (native_pointer p (h w))) ≠ p.SIMPLE_VECTOR_WIDETAG →
      ∀ u ∈ object_words p h0 (native_pointer p (h w)), fixed p Slot h0 u)
    (hvec : widetag_of p (h0 (native_pointer p (h w))) = p.SIMPLE_VECTOR_WIDETAG →
      ∀ i ∈ elt_indices p h0 (native_pointer p (h w)),
        settled p level h0 ht (h (word_at p (native_pointer p (h w)) i)))
    (htest0 : widetag_of p (h0 (native_pointer p (h w))) ≠ p.SIMPLE_VECTOR_WIDETAG →
      coalesce_obj_test p level h0 (native_pointer p (h w)) = true)
    (h1 : Heap) (ht1 : hopscotch_table)
    (hi : coalesce_obj_intern p w (native_pointer p (h w)) h ht = .done h1 ht1) :
    FirstSeen p level Slot h0 h1 ht1
    ∧ (∀ a, a ≠ w → h1 a = h a)
    ∧ (∃ l, ht1.keys = ht.keys ++ l)
    ∧ lowtag_of p (h1 w) = p.OTHER_POINTER_LOWTAG
    ∧ native_pointer p (h1 w) ∈ ht1.keys
    ∧ vector_eql p h (native_pointer p (h1 w)) (native_pointer p (h w)) = true := by
  have hw0 : lowtag_of p (h0 w) = p.OTHER_POINTER_LOWTAG := by
    rw [← hinv.framed.changes.1 w]; exact hl
  have hfr := Framed.intern_kept p hh Slot h0 hopscotch_create w (h w) h ht h1 ht1 hw hw0
    (hinv.framed.refs w hw hl) hinv.framed hi
  rcases coalesce_obj_intern_done p _ _ h ht h1 ht1 hi with ⟨hg, e1, e2⟩ | ⟨hg, -, e1, e2⟩
  · -- the object is inserted
    have hsub : ∀ k ∈ ht.keys, k ∈ ht1.keys := by
      intro k hk; rw [e2]; exact List.mem_append_left _ hk
    have hmem : native_pointer p (h w) ∈ ht1.keys := by
      rw [e2]; simp [hopscotch_insert]
    refine ⟨⟨hfr, ?_, ?_, ?_, ?_⟩, ?_, ⟨[native_pointer p (h w)], by rw [e2]; rfl⟩,
      ?_, ?_, ?_⟩
    · intro k hk hsv
      rw [e2] at hk
      simp only [hopscotch_insert, List.mem_append, List.mem_singleton] at hk
      rcases hk with hk | hk
      · exact hinv.leaves k hk hsv
      · rw [hk] at hsv ⊢; exact hleaf hsv
    · intro k hk hsv i hi'
      rw [e1]
      apply settled_mono p level h0 ht ht1 hsub
      rw [e2] at hk
      simp only [hopscotch_insert, List.mem_append, List.mem_singleton] at hk
      rcases hk with hk | hk
      · exact hinv.elements k hk hsv i hi'
      · rw [hk] at hsv hi' ⊢; exact hvec hsv i hi'
    · rw [e1, e2]
      simp only [hopscotch_insert]
      rw [List.pairwise_append]
      refine ⟨hinv.first, List.pairwise_singleton _ _, ?_⟩
      intro k hk r hr
      rw [List.mem_singleton.1 hr]
      exact (probe_eq_zero_iff _ _ _).1 hg k hk
    · intro s hs
      rw [e1] at hs ⊢
      obtain ⟨k, hk, e, hm⟩ := hinv.redirects s hs
      exact ⟨k, hsub k hk, e, hm⟩
    · intro a _; rw [e1]
    · rw [e1]; exact hl
    · rw [e1]; exact hmem
    · rw [e1]; exact vector_eql_refl p h _
  · -- a key is found
    obtain ⟨hmem, hmatch, -⟩ := hopscotch_get_pos p h ht _ hg
    have hal := hinv.framed.aligned _ hmem
    have hs1 : h1 w = make_lispobj
        (ht.keys.getD (hopscotch_get p h ht (native_pointer p (h w)) - 1) 0)
        p.OTHER_POINTER_LOWTAG := by rw [e1, write_same]
    have hnp := native_pointer_make_lispobj p _ _ hal hh.other_lt
    have hoth : ∀ a, a ≠ w → h1 a = h a := by
      intro a ha; rw [e1, write_other _ _ _ _ ha]
    refine ⟨⟨hfr, ?_, ?_, ?_, ?_⟩, hoth, ⟨[], by rw [e2]; simp⟩, ?_, ?_, ?_⟩
    · rw [e2]; exact hinv.leaves
    · rw [e2]
      intro k hk hsv i hi'
      have hne : word_at p k i ≠ w := by
        intro e
        have := hinv.elements k hk hsv i hi'
        rw [e] at this
        exact hns this
      rw [hoth _ hne]
      exact hinv.elements k hk hsv i hi'
    · rw [e1, e2]
      exact FirstSeen.first_write p h ht.keys w _
        (fun k hk => FirstSeen.not_key_word p level Slot h0 h ht hsep hinv w hw hl hns k hk)
        hinv.first
    · intro s hs
      by_cases hsw : s = w
      · subst hsw
        refine ⟨_, by rw [e2]; exact hmem, hs1, ?_⟩
        intro hB
        -- the slot still held its initial word: a word that changed is settled
        have hsame : h s = h0 s := by
          by_contra hne
          obtain ⟨k', hk', e', hm'⟩ := hinv.redirects s hne
          have hk0 := native_pointer_make_lispobj p k' _ (hinv.framed.aligned _ hk')
            hh.other_lt
          apply hns
          right
          rw [e', hk0]
          exact ⟨FirstSeen.match_leaf p hh h0 h0 (pointer_changes_refl p h0) _ _ (hm' hB).2
            hB, Or.inr hk'⟩
        rw [← hsame] at hB ⊢
        have hK := FirstSeen.match_leaf p hh h0 h hinv.framed.changes _ _ hmatch hB
        refine ⟨htest0 hB, ?_⟩
        rw [← vector_eql_congr p h0 h _ _
          (fun u hu => Framed.fixed_eq p Slot h0 _ h ht hinv.framed u
            (hinv.leaves _ hmem hK u hu))
          (fun u hu => Framed.fixed_eq p Slot h0 _ h ht hinv.framed u (hleaf hB u hu))]
        exact hmatch
      · rw [hoth s hsw] at hs ⊢
        rw [e2]
        exact hinv.redirects s hs
    · rw [hs1]; exact lowtag_of_make_lispobj p _ _ hal hh.other_lt
    · rw [hs1, hnp, e2]; exact hmem
    · rw [hs1, hnp]; exact hmatch

/-- The lookup-insert-or-rewrite step for a slot that references an object
that passes the test and is not a general vector: it keeps what `FirstSeen`
states, changes no word but that of the slot, only adds keys, and leaves the
word of the slot settled, a reference to a key. -/
theorem FirstSeen.leaf_step (p : Platform) (hp : p.Sane) (hh : p.Headers) (level : Int)
    (Slot : Nat → Prop) (h0 : Heap) (hsep : Separate p level Slot h0) (h : Heap)
    (ht : hopscotch_table) (hinv : FirstSeen p level Slot h0 h ht) (w : Nat) (hw : Slot w)
    (hl : lowtag_of p (h w) = p.OTHER_POINTER_LOWTAG)
    (htest : coalesce_obj_test p level h (native_pointer p (h w)) = true)
    (hsv : widetag_of p (h (native_pointer p (h w))) ≠ p.SIMPLE_VECTOR_WIDETAG)
    (h1 : Heap) (ht1 : hopscotch_table)
    (hi : coalesce_obj_intern p w (native_pointer p (h w)) h ht = .done h1 ht1) :
    FirstSeen p level Slot h0 h1 ht1
    ∧ settled p level h0 ht1 (h1 w)
    ∧ (∀ a, a ≠ w → h1 a = h a)
    ∧ (∃ l, ht1.keys = ht.keys ++ l)
    ∧ lowtag_of p (h1 w) = p.OTHER_POINTER_LOWTAG
    ∧ native_pointer p (h1 w) ∈ ht1.keys := by
  obtain ⟨hT, htest0⟩ := coalesce_obj_test_of_pointer_changes p hp hh level h0 h
    hinv.framed.changes _ htest hsv
  have hsv0 : widetag_of p (h0 (native_pointer p (h w))) ≠ p.SIMPLE_VECTOR_WIDETAG := by
    rw [← hT]; exact hsv
  by_cases hmem : native_pointer p (h w) ∈ ht.keys
  · rcases FirstSeen.intern p level Slot h0 h ht hinv _ hmem w hl rfl with e | ⟨e, -⟩
    · rw [e] at hi
      simp only [Res.done.injEq] at hi
      rw [← hi.1, ← hi.2]
      exact ⟨hinv, Or.inr ⟨hsv0, Or.inr hmem⟩, fun _ _ => rfl, ⟨[], by simp⟩, hl, hmem⟩
    · rw [e] at hi; cases hi
  · have hns : ¬ settled p level h0 ht (h w) := by
      rintro (hs | ⟨-, hs | hs⟩)
      · exact hs hl
      · rw [htest0] at hs; cases hs
      · exact hmem hs
    obtain ⟨a1, a2, a3, a4, a5, a6⟩ := FirstSeen.intern_step p hh level Slot h0 hsep h ht hinv
      w hw hl hns (fun _ => hsep.leaves _ (hinv.framed.refs w hw hl) htest0 hsv0)
      (fun e => absurd e hsv0) (fun _ => htest0) h1 ht1 hi
    exact ⟨a1, Or.inr ⟨FirstSeen.match_leaf p hh h0 h hinv.framed.changes _ _ a6 hsv0,
      Or.inr a5⟩, a2, a3, a4, a5⟩

/-- The element loop over slots that held eql-comparable words when the
vector was tested: it keeps what `FirstSeen` states, leaves the words of the
slots settled, changes no other word and only adds keys. -/
theorem FirstSeen.elts (p : Platform) (hp : p.Sane) (hh : p.Headers) (level : Int)
    (Slot : Nat → Prop) (h0 : Heap) (hsep : Separate p level Slot h0) (fuel X : Nat)
    (he : Heap) (hpce : pointer_changes p h0 he) (is : List Nat) :
    ∀ (h : Heap) (ht : hopscotch_table) (h1 : Heap) (ht1 : hopscotch_table),
      is.Nodup → (∀ i ∈ is, Slot (word_at p X i)) → FirstSeen p level Slot h0 h ht →
      (∀ i ∈ is, h (word_at p X i) = he (word_at p X i)) →
      (∀ i ∈ is, eql_comparable_p p he (he (word_at p X i)) = true) →
      coalesce_obj_elts p (coalesce_obj p level fuel) X is h ht = .done h1 ht1 →
      FirstSeen p level Slot h0 h1 ht1
      ∧ (∀ i ∈ is, settled p level h0 ht1 (h1 (word_at p X i)))
      ∧ (∀ a, a ∉ is.map (word_at p X) → h1 a = h a)
      ∧ (∃ l, ht1.keys = ht.keys ++ l) := by
  induction is with
  | nil =>
    intro h ht h1 ht1 _ _ hinv _ _ hres
    simp only [coalesce_obj_elts, Res.done.injEq] at hres
    rw [← hres.1, ← hres.2]
    exact ⟨hinv, fun i hi => (by cases hi), fun _ _ => rfl, ⟨[], by simp⟩⟩
  | cons i is ih =>
    intro h ht h1 ht1 hnd hF hinv hsame hcmp hres
    rw [coalesce_obj_elts_cons] at hres
    obtain ⟨h2, ht2, hc, hrest⟩ := Res.bind_done _ _ h1 ht1 hres
    have hnd' := List.nodup_cons.1 hnd
    have hwi := hsame i (List.mem_cons_self _ _)
    -- the object the slot references is not a general vector
    have hleafT : lowtag_of p (h (word_at p X i)) = p.OTHER_POINTER_LOWTAG →
        widetag_of p (h0 (native_pointer p (h (word_at p X i))))
          ≠ p.SIMPLE_VECTOR_WIDETAG := by
      intro hl hsv
      rw [hwi] at hl hsv
      have e := vector_header_eq p hh h0 he hpce _ (Or.inr hsv)
      rw [← e] at hsv
      exact (widetag_of_eql_comparable p hp he _ hl (hcmp i (List.mem_cons_self _ _))).1 hsv
    -- the call on the first slot
    have hfirst : FirstSeen p level Slot h0 h2 ht2
        ∧ settled p level h0 ht2 (h2 (word_at p X i))
        ∧ (∀ a, a ≠ word_at p X i → h2 a = h a)
        ∧ (∃ l, ht2.keys = ht.keys ++ l) := by
      rcases coalesce_obj_done p level _ _ h ht h2 ht2 hc with
        ⟨hno, e1, e2⟩ | ⟨hl, htest, fuel', h3, ht3, -, hch, hi⟩
      · rw [e1, e2]
        refine ⟨hinv, ?_, fun _ _ => rfl, ⟨[], by simp⟩⟩
        by_cases hl : lowtag_of p (h (word_at p X i)) = p.OTHER_POINTER_LOWTAG
        · rcases hno with hno | hno
          · exact absurd hl hno
          · right
            refine ⟨hleafT hl, Or.inl ?_⟩
            rw [← coalesce_obj_test_leaf_eq p hp hh level h0 h hinv.framed.changes _ (hleafT hl)]
            exact hno
        · exact Or.inl hl
      · have hsv : widetag_of p (h (native_pointer p (h (word_at p X i))))
            ≠ p.SIMPLE_VECTOR_WIDETAG := by
          intro e
          rw [vector_header_eq p hh h0 h hinv.framed.changes _ (Or.inl e)] at e
          exact hleafT hl e
        unfold coalesce_obj_children at hch
        rw [if_neg hsv] at hch
        simp only [Res.done.injEq] at hch
        rw [← hch.1, ← hch.2] at hi
        obtain ⟨a1, a2, a3, a4, -, -⟩ := FirstSeen.leaf_step p hp hh level Slot h0 hsep h ht hinv
          _ (hF i (List.mem_cons_self _ _)) hl htest hsv h2 ht2 hi
        exact ⟨a1, a2, a3, a4⟩
    obtain ⟨hinv2, hset, hoth, l2, hl2⟩ := hfirst
    have hne : ∀ j ∈ is, word_at p X j ≠ word_at p X i := by
      intro j hj e
      have := word_at_injective p hp.word_bytes_pos X j i e
      rw [this] at hj
      exact hnd'.1 hj
    obtain ⟨b1, b2, b3, l1, hl1⟩ := ih h2 ht2 h1 ht1 hnd'.2
      (fun j hj => hF j (List.mem_cons_of_mem _ hj)) hinv2
      (fun j hj => by rw [hoth _ (hne j hj)]; exact hsame j (List.mem_cons_of_mem _ hj))
      (fun j hj => hcmp j (List.mem_cons_of_mem _ hj)) hrest
    refine ⟨b1, ?_, ?_, ⟨l2 ++ l1, by rw [hl1, hl2, List.append_assoc]⟩⟩
    · intro j hj
      rcases List.mem_cons.1 hj with e | hj'
      · rw [e]
        have hni : word_at p X i ∉ is.map (word_at p X) := by
          intro hm
          obtain ⟨j', hj', e'⟩ := List.mem_map.1 hm
          exact hne j' hj' e'
        rw [b3 _ hni]
        exact settled_mono p level h0 ht2 ht1
          (fun k hk => by rw [hl1]; exact List.mem_append_left _ hk) _ hset
      · exact b2 j hj'
    · intro a ha
      have ha1 : a ≠ word_at p X i := by
        intro e; exact ha (by rw [e]; exact List.mem_map.2 ⟨i, List.mem_cons_self _ _, rfl⟩)
      have ha2 : a ∉ is.map (word_at p X) := by
        intro hm
        obtain ⟨j, hj, e⟩ := List.mem_map.1 hm
        exact ha (List.mem_map.2 ⟨j, List.mem_cons_of_mem _ hj, e⟩)
      rw [b3 a ha2, hoth a ha1]

/-- A call of `coalesce_obj` on a slot that returns keeps what `FirstSeen`
states; when the slot referenced an object that passed the test, it
references a key afterwards. -/
theorem FirstSeen.call_step (p : Platform) (hp : p.Sane) (hh : p.Headers) (level : Int)
    (Slot : Nat → Prop) (h0 : Heap) (hsep : Separate p level Slot h0) (fuel s : Nat) (h : Heap)
    (ht : hopscotch_table) (h1 : Heap) (ht1 : hopscotch_table)
    (hinv : FirstSeen p level Slot h0 h ht) (hs : Slot s)
    (hres : coalesce_obj p level fuel s h ht = .done h1 ht1) :
    FirstSeen p level Slot h0 h1 ht1
    ∧ (lowtag_of p (h s) = p.OTHER_POINTER_LOWTAG →
        coalesce_obj_test p level h (native_pointer p (h s)) = true →
        lowtag_of p (h1 s) = p.OTHER_POINTER_LOWTAG ∧ native_pointer p (h1 s) ∈ ht1.keys) := by
  rcases coalesce_obj_done p level _ s h ht h1 ht1 hres with
    ⟨hno, e1, e2⟩ | ⟨hl, htest, fuel', h2, ht2, -, hch, hi⟩
  · rw [e1, e2]
    refine ⟨hinv, ?_⟩
    intro hl htest
    rcases hno with hno | hno
    · exact absurd hl hno
    · rw [htest] at hno; cases hno
  · have href := hinv.framed.refs s hs hl
    by_cases hsvh : widetag_of p (h (native_pointer p (h s))) = p.SIMPLE_VECTOR_WIDETAG
    · -- a general vector: its elements first
      have hX := vector_header_eq p hh h0 h hinv.framed.changes _ (Or.inl hsvh)
      have hsv0 : widetag_of p (h0 (native_pointer p (h s))) = p.SIMPLE_VECTOR_WIDETAG := by
        rw [← hX]; exact hsvh
      have hlenw : h (word_at p (native_pointer p (h s)) 1)
          = h0 (word_at p (native_pointer p (h s)) 1) := by
        apply Framed.fixed_eq p Slot h0 _ h ht hinv.framed
        apply hsep.vectors _ href hsv0 1 (lt_of_lt_of_le (by decide) (le_max_left _ _))
        intro hm
        have := two_le_of_mem_elt_indices p h0 _ 1 hm
        omega
      have hidx : elt_indices p h (native_pointer p (h s))
          = elt_indices p h0 (native_pointer p (h s)) := by
        unfold elt_indices; rw [hlenw]
      have hlen := hsep.lengths _ href hsv0
      rw [← hlenw] at hlen
      have hev := vector_isevery_of_test p hp level h _ hsvh htest
      rw [vector_isevery_iff p _ h _ hlen.1 hlen.2] at hev
      have hcmp : ∀ i ∈ elt_indices p h (native_pointer p (h s)),
          eql_comparable_p p h (h (word_at p (native_pointer p (h s)) i)) = true := by
        intro i hi'
        obtain ⟨j, hj, e⟩ := mem_range'_two _ i hi'
        rw [e]
        exact hev j hj
      unfold coalesce_obj_children at hch
      rw [if_pos hsvh] at hch
      obtain ⟨hinv2, hset, hframe, -⟩ := FirstSeen.elts p hp hh level Slot h0 hsep fuel' _ h
        hinv.framed.changes _ h ht h2 ht2 (List.nodup_range' _ _)
        (fun i hi' => hsep.elements _ href hsv0 i (by rw [← hidx]; exact hi')) hinv
        (fun _ _ => rfl) hcmp hch
      have hs2 : h2 s = h s := by
        apply hframe
        intro hm
        obtain ⟨i, hi', e⟩ := List.mem_map.1 hm
        have hc := hcmp i hi'
        rw [e] at hc
        exact (widetag_of_eql_comparable p hp h _ hl hc).1 hsvh
      have hl2 : lowtag_of p (h2 s) = p.OTHER_POINTER_LOWTAG := by rw [hs2]; exact hl
      rw [← hs2] at hi hsv0 hset
      by_cases hmem : native_pointer p (h2 s) ∈ ht2.keys
      · rcases FirstSeen.intern p level Slot h0 h2 ht2 hinv2 _ hmem s hl2 rfl with e | ⟨e, -⟩
        · rw [e] at hi
          simp only [Res.done.injEq] at hi
          rw [← hi.1, ← hi.2]
          exact ⟨hinv2, fun _ _ => ⟨hl2, hmem⟩⟩
        · rw [e] at hi; cases hi
      · have hns : ¬ settled p level h0 ht2 (h2 s) := by
          rintro (a | ⟨b, -⟩)
          · exact a hl2
          · exact b hsv0
        obtain ⟨a1, -, -, a4, a5, -⟩ := FirstSeen.intern_step p hh level Slot h0 hsep h2 ht2
          hinv2 s hs hl2 hns (fun e => absurd hsv0 e)
          (fun _ i hi' => hset i (by rw [hs2] at hi' ⊢; rw [← hidx] at hi'; exact hi'))
          (fun e => absurd hsv0 e) h1 ht1 hi
        exact ⟨a1, fun _ _ => ⟨a4, a5⟩⟩
    · -- an object without element slots
      unfold coalesce_obj_children at hch
      rw [if_neg hsvh] at hch
      simp only [Res.done.injEq] at hch
      rw [← hch.1, ← hch.2] at hi
      obtain ⟨a1, -, -, -, a5, a6⟩ := FirstSeen.leaf_step p hp hh level Slot h0 hsep h ht hinv s
        hs hl htest hsvh h1 ht1 hi
      exact ⟨a1, fun _ _ => ⟨a5, a6⟩⟩

/-- The initial heap with the empty table is as `FirstSeen` states. -/
theorem FirstSeen.init (p : Platform) (level : Int) (Slot : Nat → Prop) (h0 : Heap) :
    FirstSeen p level Slot h0 h0 hopscotch_create where
  framed := Framed.initial p Slot h0 hopscotch_create (fun k hk => by cases hk)
  leaves := fun k hk => by cases hk
  elements := fun k hk => by cases hk
  first := List.Pairwise.nil
  redirects := fun _ hs => absurd rfl hs

/-- A sequence of visits of slots keeps what `FirstSeen` states. -/
theorem Visits.first_seen (p : Platform) (hp : p.Sane) (hh : p.Headers) (level : Int)
    (Slot : Nat → Prop) (h0 : Heap) (hsep : Separate p level Slot h0)
    (h : Heap) (ht : hopscotch_table) (h1 : Heap) (ht1 : hopscotch_table)
    (hv : Visits p level Slot h ht h1 ht1)
    (hinv : FirstSeen p level Slot h0 h ht) : FirstSeen p level Slot h0 h1 ht1 :=
  Visits.invariant p level Slot (FirstSeen p level Slot h0)
    (fun fuel w x t x1 t1 hs hi hres =>
      (FirstSeen.call_step p hp hh level Slot h0 hsep fuel w x t x1 t1 hi hs hres).1)
    h ht h1 ht1 hv hinv

/-- The element loop over slots whose words are settled changes nothing, or
the guard ends the run at one of them. -/
theorem FirstSeen.settled_elts (p : Platform) (hp : p.Sane) (hh : p.Headers) (level : Int)
    (Slot : Nat → Prop) (h0 h : Heap) (ht : hopscotch_table)
    (hinv : FirstSeen p level Slot h0 h ht) (fuel X : Nat) (is : List Nat)
    (hset : ∀ i ∈ is, settled p level h0 ht (h (word_at p X i))) :
    coalesce_obj_elts p (coalesce_obj p level (fuel + 1)) X is h ht = .done h ht
    ∨ (coalesce_obj_elts p (coalesce_obj p level (fuel + 1)) X is h ht = .lost
        ∧ ¬ read_only_apart p h) := by
  induction is with
  | nil => exact Or.inl rfl
  | cons i is ih =>
    rw [coalesce_obj_elts_cons]
    rcases FirstSeen.settled_call p hp hh level Slot h0 h ht hinv fuel _
      (hset i (List.mem_cons_self _ _)) with e | ⟨e, hg⟩
    · rw [e]
      exact ih (fun j hj => hset j (List.mem_cons_of_mem _ hj))
    · rw [e]
      exact Or.inr ⟨rfl, hg⟩

/-- First seen wins: in a state that `FirstSeen` describes, a call on a slot
that references a key changes nothing, or the guard ends the run, at the slot
or at an element slot of the key. -/
theorem FirstSeen.key_call (p : Platform) (hp : p.Sane) (hh : p.Headers) (level : Int)
    (Slot : Nat → Prop) (h0 : Heap) (hsep : Separate p level Slot h0) (h : Heap)
    (ht : hopscotch_table) (hinv : FirstSeen p level Slot h0 h ht)
    (r : Nat) (hr : r ∈ ht.keys) (fuel s : Nat)
    (hl : lowtag_of p (h s) = p.OTHER_POINTER_LOWTAG) (hn : native_pointer p (h s) = r) :
    coalesce_obj p level (fuel + 2) s h ht = .done h ht
    ∨ (coalesce_obj p level (fuel + 2) s h ht = .lost ∧ ¬ read_only_apart p h) := by
  by_cases hsv0 : widetag_of p (h0 r) = p.SIMPLE_VECTOR_WIDETAG
  · cases htest : coalesce_obj_test p level h (native_pointer p (h s)) with
    | false => exact Or.inl (coalesce_obj_noop_of p level (fuel + 1) s h ht (Or.inr htest))
    | true =>
      obtain ⟨hr0, hr1, -⟩ := FirstSeen.key_size p level Slot h0 h ht hsep hinv r hr
      have hidx : elt_indices p h r = elt_indices p h0 r := by
        unfold elt_indices; rw [hr1]
      have hsvh : widetag_of p (h r) = p.SIMPLE_VECTOR_WIDETAG := by rw [hr0]; exact hsv0
      rcases FirstSeen.settled_elts p hp hh level Slot h0 h ht hinv fuel r (elt_indices p h r)
        (fun i hi => hinv.elements r hr hsv0 i (by rw [← hidx]; exact hi)) with e | ⟨e, hg⟩
      · have hch : coalesce_obj_children p (coalesce_obj p level (fuel + 1))
            (native_pointer p (h s)) h ht = .done h ht := by
          rw [hn]
          unfold coalesce_obj_children
          rw [if_pos hsvh]
          exact e
        rw [coalesce_obj_eq_intern p level (fuel + 1) s h ht h ht hl htest hch, hn]
        exact FirstSeen.intern p level Slot h0 h ht hinv r hr s hl hn
      · right
        refine ⟨?_, hg⟩
        rw [coalesce_obj_succ, if_neg (not_not.2 hl), htest, if_pos rfl, hn]
        unfold coalesce_obj_children
        rw [if_pos hsvh, e]
  · exact FirstSeen.settled_call p hp hh level Slot h0 h ht hinv (fuel + 1) s
      (Or.inr ⟨by rw [hn]; exact hsv0, Or.inr (by rw [hn]; exact hr)⟩)

/-- C12: first seen wins.  Take a heap of separate objects with its set `Slot`
of slots (`Separate`), in which no general-object-pointer of read-only space
addresses collectible space, and a sequence of visits of slots from the
empty table that returned: calls of `coalesce_obj` and walks of
`coalesce_range`.  A key `R` of the table they left is an object that
`coalesce_obj` inserted as a representative.  Every further call on a slot
that references `R`, whether the slot is in `Slot` or not, returns and leaves
the heap and the table as they are: the slot goes on referencing `R`.  And a
further call on a slot of `Slot`, applied a second time, returns and leaves
the heap and the table as the first application left them. -/
theorem coalesce_obj_first_seen_wins (p : Platform) (hp : p.Sane) (hh : p.Headers)
    (level : Int) (Slot : Nat → Prop) (h0 : Heap) (hsep : Separate p level Slot h0)
    (hro : read_only_apart p h0) (h1 : Heap) (ht1 : hopscotch_table)
    (hv : Visits p level Slot h0 hopscotch_create h1 ht1) :
    (∀ r ∈ ht1.keys, ∀ fuel s,
      lowtag_of p (h1 s) = p.OTHER_POINTER_LOWTAG → native_pointer p (h1 s) = r →
        coalesce_obj p level (fuel + 2) s h1 ht1 = .done h1 ht1)
    ∧ (∀ fuel s h2 ht2, Slot s →
        coalesce_obj p level (fuel + 2) s h1 ht1 = .done h2 ht2 →
        coalesce_obj p level (fuel + 2) s h2 ht2 = .done h2 ht2) := by
  have hinv1 := Visits.first_seen p hp hh level Slot h0 hsep h0 hopscotch_create h1 ht1 hv
    (FirstSeen.init p level Slot h0)
  have hro1 := Pass.read_only_apart p level h0 hopscotch_create h1 ht1
    (Visits.pass p level Slot h0 hopscotch_create h1 ht1 hv) hro
  refine ⟨?_, ?_⟩
  · intro r hr fuel s hl hn
    rcases FirstSeen.key_call p hp hh level Slot h0 hsep h1 ht1 hinv1 r hr fuel s hl hn with
      e | ⟨-, hg⟩
    · exact e
    · exact absurd hro1 hg
  · intro fuel s h2 ht2 hs hfirst
    obtain ⟨hinv2, hpost⟩ := FirstSeen.call_step p hp hh level Slot h0 hsep _ s h1 ht1 h2 ht2
      hinv1 hs hfirst
    have hro2 := coalesce_obj_read_only_apart p level _ s h1 ht1 h2 ht2 hro1 hfirst
    by_cases hc : lowtag_of p (h1 s) = p.OTHER_POINTER_LOWTAG
        ∧ coalesce_obj_test p level h1 (native_pointer p (h1 s)) = true
    · obtain ⟨hl2, hk2⟩ := hpost hc.1 hc.2
      rcases FirstSeen.key_call p hp hh level Slot h0 hsep h2 ht2 hinv2 _ hk2 fuel s hl2 rfl with
        e | ⟨-, hg⟩
      · exact e
      · exact absurd hro2 hg
    · have hno : lowtag_of p (h1 s) ≠ p.OTHER_POINTER_LOWTAG
          ∨ coalesce_obj_test p level h1 (native_pointer p (h1 s)) = false := by
        by_cases hl : lowtag_of p (h1 s) = p.OTHER_POINTER_LOWTAG
        · right
          cases ht : coalesce_obj_test p level h1 (native_pointer p (h1 s)) with
          | false => rfl
          | true => exact absurd ⟨hl, ht⟩ hc
        · exact Or.inl hl
      have e := coalesce_obj_noop_of p level (fuel + 1) s h1 ht1 hno
      rw [e] at hfirst
      simp only [Res.done.injEq] at hfirst
      rw [← hfirst.1, ← hfirst.2]
      exact e

/-- The slot `0x3000` and the element slot `0x8110` of `heap_one_vector`
reference the vector at `0x8100` and the string at `0x8200`. -/
theorem heap_one_vector_referenced (v : Nat)
    (hv : referenced example_platform (fun a => a = 0x3000 ∨ a = 0x8110) heap_one_vector
      hopscotch_create v) : v = 0x8100 ∨ v = 0x8200 := by
  rcases hv with hv | ⟨s, hs, -, rfl⟩
  · cases hv
  · rcases hs with rfl | rfl
    · exact Or.inl (by decide)
    · exact Or.inr (by decide)

/-- The heap `heap_one_vector` is a heap of separate objects, with the slots
`0x3000` and `0x8110`. -/
theorem heap_one_vector_separate :
    Separate example_platform 1 (fun a => a = 0x3000 ∨ a = 0x8110) heap_one_vector where
  elements := by
    intro v hv hsv
    rcases heap_one_vector_referenced v hv with rfl | rfl
    · decide
    · exact absurd hsv (by decide)
  vectors := by
    intro v hv hsv i hi hni
    rcases heap_one_vector_referenced v hv with rfl | rfl
    · have h4 : i < 4 := hi
      unfold fixed
      interval_cases i
      · decide
      · decide
      · exact absurd (by decide) hni
      · decide
    · exact absurd hsv (by decide)
  leaves := by
    intro x hx _ hsv
    rcases heap_one_vector_referenced x hx with rfl | rfl
    · exact absurd (by decide) hsv
    · unfold fixed
      decide
  lengths := by
    intro v hv hsv
    rcases heap_one_vector_referenced v hv with rfl | rfl
    · decide
    · exact absurd hsv (by decide)

/-- No word of the read-only space of `heap_one_vector` is a
general-object-pointer. -/
theorem heap_one_vector_read_only_apart : read_only_apart example_platform heap_one_vector := by
  intro a h1 h2 hl
  have hne : heap_one_vector a ≠ 0 := by
    intro e; rw [e] at hl; revert hl; decide
  have hm := heap_of_support _ a hne
  have h1' : 0x1000 ≤ a := h1
  have h2' : a < 0x2000 := h2
  simp only [List.map_cons, List.map_nil, List.mem_cons, List.mem_singleton,
    List.not_mem_nil, or_false] at hm
  omega

/-- Witness of C12: on `heap_one_vector` the call on the slot `0x3000` inserts
the string and then the vector, and a second call on the slot, which
references the key `0x8100`, changes nothing. -/
theorem coalesce_obj_first_seen_wins_witness :
    coalesce_obj example_platform 1 2 0x3000 heap_one_vector hopscotch_create
      = .done heap_one_vector ⟨[0x8200, 0x8100]⟩
    ∧ coalesce_obj example_platform 1 2 0x3000 heap_one_vector ⟨[0x8200, 0x8100]⟩
      = .done heap_one_vector ⟨[0x8200, 0x8100]⟩ :=
  have w := coalesce_obj_first_seen_wins example_platform example_platform_sane
    example_platform_headers 1 (fun a => a = 0x3000 ∨ a = 0x8110) heap_one_vector
    heap_one_vector_separate heap_one_vector_read_only_apart heap_one_vector
    ⟨[0x8200, 0x8100]⟩
    (Visits.obj 2 0x3000 heap_one_vector hopscotch_create heap_one_vector
      ⟨[0x8200, 0x8100]⟩ _ _ (Or.inl rfl) rfl (Visits.nil _ _))
  ⟨rfl, w.1 0x8100 (by decide) 0 0x3000 (by decide) (by decide)⟩

/-- A walk of a list of regions with `coalesce_obj` restricted to the slots
of `Slot` that returns passes slots of `Slot` only: its result does not
depend on what is done with any other word. -/
theorem walk_regions_with_on_slots (p : Platform) (level : Int) (Slot : Nat → Prop)
    [DecidablePred Slot] (depth steps : Nat) (rs : List (Nat × Nat)) (h : Heap)
    (ht : hopscotch_table) (h1 : Heap) (ht1 : hopscotch_table)
    (hres : walk_regions_with p (on_slots Slot (coalesce_obj p level depth)) steps rs h ht
      = .done h1 ht1) :
    ∀ call, (∀ w, Slot w → call w = coalesce_obj p level depth w) →
      walk_regions_with p call steps rs h ht = .done h1 ht1 :=
  fun call hag => walk_regions_with_mono p _ call
    (on_slots_le Slot (coalesce_obj p level depth) call hag) steps rs h ht h1 ht1 hres

/-- An invariant of the calls of `coalesce_obj` on the slots of `Slot` is an
invariant of a walk of a list of regions that passes slots of `Slot` only. -/
theorem walk_regions_preserves_at (p : Platform) (level : Int) (Slot : Nat → Prop)
    (Inv : Heap → hopscotch_table → Prop) (depth : Nat)
    (hcall : ∀ where_ h ht h1 ht1, Slot where_ → Inv h ht →
      coalesce_obj p level depth where_ h ht = .done h1 ht1 → Inv h1 ht1)
    (steps : Nat) (rs : List (Nat × Nat)) (h : Heap) (ht : hopscotch_table) (h1 : Heap)
    (ht1 : hopscotch_table)
    (hw : ∀ call, (∀ w, Slot w → call w = coalesce_obj p level depth w) →
      walk_regions_with p call steps rs h ht = .done h1 ht1)
    (hinv : Inv h ht) : Inv h1 ht1 := by
  classical
  have hres := hw (on_slots Slot (coalesce_obj p level depth))
    (fun w hs => by funext a b; unfold on_slots; rw [if_pos hs])
  refine walk_regions_with_preserves p _ Inv ?_ steps rs h ht h1 ht1 hinv hres
  intro w x t x1 t1 hi hc
  obtain ⟨hs, hc'⟩ := on_slots_done Slot _ w x t x1 t1 hc
  exact hcall w x t x1 t1 hs hi hc'

/-- C17, amended: `coalesce_similar_objects` starts from an empty table and its
walks are those of the regions in this order, all with that one table: on a
build that is not a Windows build the read-only region and the static
region, on every build the fixed-size and then the variable-size long-lived
sub-regions when present, then the general collectible region; a Windows
build walks neither the read-only nor the static region.  So of two
content-equal eligible objects, the one referenced from the earlier-walked
slot becomes the representative.  In a heap of separate objects with the
slots `Slot`, split the regions walked into earlier ones and later ones, the
walks passing slots of `Slot` only and returning, and take a key `A` of the
table the walks of the earlier regions left: an object inserted from a slot
they visited.  Then `A` is a key at the end, and for every object `B` that
is content-equal to `A` at the end: `B` is not a key unless it is `A`; `A`
is the representative of `B`, the key a lookup of `B` returns; when `B` is
not a general vector, every word that referenced `B` at the start holds the
word it held or the pointer to `A`, and a call of `coalesce_obj` on a slot
that references `B` stores the pointer to `A` in the slot, unless the guard
ends the run. -/
theorem coalesce_similar_objects_walks_eq (p : Platform) (hp : p.Sane) (hh : p.Headers)
    (s : Spaces) (level : Int) (depth steps : Nat) (h : Heap) :
    coalesce_similar_objects_walks p s level depth steps h
      = walk_regions p level depth steps
          (if s.feature_win32 then (spec_regions p s).drop 2 else spec_regions p s)
          h hopscotch_create
    ∧ ∀ (Slot : Nat → Prop) rs1 rs2 h1 ht1 h2 ht2, Separate p level Slot h →
        (if s.feature_win32 then (spec_regions p s).drop 2 else spec_regions p s)
          = rs1 ++ rs2 →
        (∀ call, (∀ w, Slot w → call w = coalesce_obj p level depth w) →
          walk_regions_with p call steps rs1 h hopscotch_create = .done h1 ht1) →
        (∀ call, (∀ w, Slot w → call w = coalesce_obj p level depth w) →
          walk_regions_with p call steps rs2 h1 ht1 = .done h2 ht2) →
        coalesce_similar_objects_walks p s level depth steps h = .done h2 ht2
        ∧ ∀ A ∈ ht1.keys, A ∈ ht2.keys
          ∧ ∀ B, vector_eql p h2 A B = true →
            (B ∈ ht2.keys → B = A)
            ∧ representative p h2 ht2.keys B = A
            ∧ (widetag_of p (h B) ≠ p.SIMPLE_VECTOR_WIDETAG →
                (∀ w, lowtag_of p (h w) = p.OTHER_POINTER_LOWTAG →
                  native_pointer p (h w) = B →
                  h2 w = h w ∨ h2 w = make_lispobj A p.OTHER_POINTER_LOWTAG)
                ∧ (∀ fuel w, lowtag_of p (h2 w) = p.OTHER_POINTER_LOWTAG →
                    native_pointer p (h2 w) = B → coalesce_obj_test p level h2 B = true →
                    coalesce_obj p level (fuel + 1) w h2 ht2
                      = if w ≥ p.READ_ONLY_SPACE_START ∧ w < p.READ_ONLY_SPACE_END ∧
                          gcable_pointer_p p (make_lispobj A p.OTHER_POINTER_LOWTAG) = true
                        then .lost
                        else .done (write h2 w (make_lispobj A p.OTHER_POINTER_LOWTAG))
                          ht2)) := by
  have heq : coalesce_similar_objects_walks p s level depth steps h
      = walk_regions p level depth steps
          (if s.feature_win32 then (spec_regions p s).drop 2 else spec_regions p s)
          h hopscotch_create := by
    unfold coalesce_similar_objects_walks spec_regions
    cases hw : s.feature_win32 <;> cases hi : s.feature_immobile_space <;>
      cases hg : p.gc <;>
      simp only [Bool.false_eq_true, if_false, if_true, List.append_nil, List.cons_append,
        List.nil_append, List.drop_succ_cons, List.drop_zero, walk_regions_cons,
        walk_regions_nil, walk_generation_eq_fn, Res.bind_assoc, Res.done_bind,
        Res.bind_done_right]
  refine ⟨heq, ?_⟩
  intro Slot rs1 rs2 h1 ht1 h2 ht2 hsep hrs hw1 hw2
  -- the walks of the driver
  have hr1 := hw1 _ (fun _ _ => rfl)
  have hr2 := hw2 _ (fun _ _ => rfl)
  rw [← walk_regions_eq_with] at hr1 hr2
  have hres : coalesce_similar_objects_walks p s level depth steps h = .done h2 ht2 := by
    rw [heq, hrs, walk_regions_append, hr1]
    exact hr2
  -- the invariant
  have hcall : ∀ where_ x t x1 t1, Slot where_ → FirstSeen p level Slot h x t →
      coalesce_obj p level depth where_ x t = .done x1 t1 → FirstSeen p level Slot h x1 t1 :=
    fun w x t x1 t1 hs hi hc =>
      (FirstSeen.call_step p hp hh level Slot h hsep depth w x t x1 t1 hi hs hc).1
  have hinv1 := walk_regions_preserves_at p level Slot (FirstSeen p level Slot h) depth hcall
    steps rs1 h hopscotch_create h1 ht1 hw1 (FirstSeen.init p level Slot h)
  have hinv2 := walk_regions_preserves_at p level Slot (FirstSeen p level Slot h) depth hcall
    steps rs2 h1 ht1 h2 ht2 hw2 hinv1
  obtain ⟨l, hl⟩ := walk_regions_keys_extend p level depth steps rs2 h1 ht1 h2 ht2 hr2
  refine ⟨hres, ?_⟩
  intro A hA
  have hA2 : A ∈ ht2.keys := by rw [hl]; exact List.mem_append_left _ hA
  refine ⟨hA2, ?_⟩
  intro B hAB
  obtain ⟨e1, e2, e3, e4⟩ := FirstSeen.lookup_eql p h2 ht2 hinv2.first A hA2 B hAB
  refine ⟨e4, e3, ?_⟩
  intro hB
  have hB2 : widetag_of p (h2 B) ≠ p.SIMPLE_VECTOR_WIDETAG := by
    intro e
    rw [vector_header_eq p hh h h2 hinv2.framed.changes B (Or.inl e)] at e
    exact hB e
  refine ⟨?_, ?_⟩
  · intro w hlw hnw
    by_cases hsame : h2 w = h w
    · exact Or.inl hsame
    · right
      obtain ⟨k, hk, e, hm⟩ := hinv2.redirects w hsame
      rw [hnw] at hm
      obtain ⟨htB, hkB⟩ := hm hB
      -- the key is content-equal to `B` at the end too
      have hSlot : Slot w := by
        by_contra hns
        exact hsame (hinv2.framed.frozen w hns)
      have hrefB : referenced p Slot h hopscotch_create B := Or.inr ⟨w, hSlot, hlw, hnw⟩
      have hkleaf := FirstSeen.match_leaf p hh h h (pointer_changes_refl p h) k B hkB hB
      have hkw : ∀ u ∈ object_words p h k, h2 u = h u := fun u hu =>
        Framed.fixed_eq p Slot h _ h2 ht2 hinv2.framed u (hinv2.leaves k hk hkleaf u hu)
      have hBw : ∀ u ∈ object_words p h B, h2 u = h u := fun u hu =>
        Framed.fixed_eq p Slot h _ h2 ht2 hinv2.framed u (hsep.leaves B hrefB htB hB u hu)
      have hkB2 : vector_eql p h2 k B = true := by
        rw [vector_eql_congr p h h2 k B hkw hBw]; exact hkB
      obtain ⟨-, -, e3', -⟩ := FirstSeen.lookup_eql p h2 ht2 hinv2.first k hk B hkB2
      rw [e, ← e3', e3]
  · intro fuel w hlw hnw htest
    have hcall' := coalesce_obj_leaf p level fuel w h2 ht2 hlw (by rw [hnw]; exact htest)
      (by rw [hnw]; exact hB2)
    rw [hcall', hnw]
    unfold coalesce_obj_intern
    simp only
    rw [if_neg e1, e2]

/-- The slots of `heap_spaces`, every word but those of the two bignums,
reference the bignums at `0x2100` and `0x8000`. -/
theorem heap_spaces_referenced (v : Nat)
    (hv : referenced example_platform (fun a => a ∉ [0x2100, 0x2108, 0x8000, 0x8008])
      heap_spaces hopscotch_create v) : v = 0x2100 ∨ v = 0x8000 := by
  rcases hv with hv | ⟨s, -, hl, rfl⟩
  · cases hv
  · have hne : heap_spaces s ≠ 0 := by
      intro e; rw [e] at hl; revert hl; decide
    have hm := heap_of_support _ s hne
    simp only [List.map_cons, List.map_nil, List.mem_cons, List.mem_singleton,
      List.not_mem_nil, or_false] at hm
    rcases hm with rfl | rfl | rfl | rfl | rfl | rfl | rfl <;>
      first | exact Or.inl (by decide) | exact Or.inr (by decide) | exact absurd hl (by decide)

/-- The heap `heap_spaces` is a heap of separate objects; its slots are the
words outside the two bignums. -/
theorem heap_spaces_separate :
    Separate example_platform 1 (fun a => a ∉ [0x2100, 0x2108, 0x8000, 0x8008])
      heap_spaces where
  elements := by
    intro v hv hsv
    rcases heap_spaces_referenced v hv with rfl | rfl <;> exact absurd hsv (by decide)
  vectors := by
    intro v hv hsv
    rcases heap_spaces_referenced v hv with rfl | rfl <;> exact absurd hsv (by decide)
  leaves := by
    intro x hx _ _
    rcases heap_spaces_referenced x hx with rfl | rfl <;> (unfold fixed; decide)
  lengths := by
    intro v hv hsv
    rcases heap_spaces_referenced v hv with rfl | rfl <;> exact absurd hsv (by decide)

set_option maxRecDepth 1000000 in
/-- Witness of the amended C17: the example platform with its spaces, not a
Windows build, on `heap_spaces`, whose slots are the words outside the two
bignums.  The walks of the read-only and of the static space leave the
static bignum `A` at `0x2100` in the table; at the end `A` is the
representative of the collectible bignum `B` at `0x8000`, and the first half
of the pair at `0x8010`, which referenced `B`, holds the pointer to `A`. -/
theorem coalesce_similar_objects_walks_eq_witness :
    coalesce_similar_objects_walks example_platform example_spaces 1 1 2000 heap_spaces
      = .done (write (write heap_spaces 0x8010 0x210F) 0x8018 0x210F) ⟨[0x2100]⟩
    ∧ representative example_platform (write (write heap_spaces 0x8010 0x210F) 0x8018 0x210F)
        [0x2100] 0x8000 = 0x2100
    ∧ (write (write heap_spaces 0x8010 0x210F) 0x8018 0x210F 0x8010 = heap_spaces 0x8010
        ∨ write (write heap_spaces 0x8010 0x210F) 0x8018 0x210F 0x8010
            = make_lispobj 0x2100 example_platform.OTHER_POINTER_LOWTAG) :=
  have w := (coalesce_similar_objects_walks_eq example_platform example_platform_sane
    example_platform_headers example_spaces 1 1 2000 heap_spaces).2
    (fun a => a ∉ [0x2100, 0x2108, 0x8000, 0x8008])
    [(0x1000, 0x2000), (0x2000, 0x4000)] [(0x8000, 0x8040)] heap_spaces ⟨[0x2100]⟩
    (write (write heap_spaces 0x8010 0x210F) 0x8018 0x210F) ⟨[0x2100]⟩
    heap_spaces_separate rfl
    (walk_regions_with_on_slots example_platform 1 (fun a => a ∉ [0x2100, 0x2108, 0x8000, 0x8008])
      1 2000 _ heap_spaces hopscotch_create heap_spaces ⟨[0x2100]⟩ rfl)
    (walk_regions_with_on_slots example_platform 1 (fun a => a ∉ [0x2100, 0x2108, 0x8000, 0x8008])
      1 2000 _ heap_spaces ⟨[0x2100]⟩ (write (write heap_spaces 0x8010 0x210F) 0x8018 0x210F)
      ⟨[0x2100]⟩ rfl)
  ⟨w.1, ((w.2 0x2100 (by decide)).2 0x8000 (by decide)).2.1,
    (((w.2 0x2100 (by decide)).2 0x8000 (by decide)).2.2 (by decide)).1 0x8010 (by decide)
      (by decide)⟩

/-- The two vectors of `heap_vectors_read_only` are an instance of the
scenario of two vectors. -/
theorem heap_vectors_read_only_scenario :
    TwoVectors example_platform 1 heap_vectors_read_only 0x3000 0x3008 0x8100 0x1100 1 where
  slot1 := by decide
  slot2 := by decide
  general1 := by decide
  general2 := by decide
  flag1 := by decide
  flag2 := by decide
  length1 := by decide
  same_length := by decide
  same_size := by decide
  same_padding := by decide
  elements1 := by decide
  elements2 := by decide
  content_equal := by decide
  slots_apart := by decide
  s1_apart := by decide
  s2_apart := by decide
  targets_apart := by decide
  vectors_apart := by decide

/-- The first and the second vector of `heap_three_vectors` are an instance
of the scenario of two vectors. -/
theorem heap_three_vectors_scenario :
    TwoVectors example_platform 1 heap_three_vectors 0x3008 0x3010 0x8100 0x8120 1 where
  slot1 := by decide
  slot2 := by decide
  general1 := by decide
  general2 := by decide
  flag1 := by decide
  flag2 := by decide
  length1 := by decide
  same_length := by decide
  same_size := by decide
  same_padding := by decide
  elements1 := by decide
  elements2 := by decide
  content_equal := by decide
  slots_apart := by decide
  s1_apart := by decide
  s2_apart := by decide
  targets_apart := by decide
  vectors_apart := by decide

/-- No general-object-pointer of the read-only space of
`heap_vectors_read_only` addresses collectible space. -/
theorem heap_vectors_read_only_apart :
    read_only_apart example_platform heap_vectors_read_only := by
  intro a h1 h2 hl
  have hne : heap_vectors_read_only a ≠ 0 := by
    intro e; rw [e] at hl; revert hl; decide
  have hm := heap_of_support _ a hne
  simp only [List.map_cons, List.map_nil, List.mem_cons, List.mem_singleton,
    List.not_mem_nil, or_false] at hm
  rcases hm with rfl | rfl | rfl | rfl | rfl | rfl | rfl | rfl | rfl | rfl | rfl | rfl | rfl | rfl
    <;> first | exact absurd hl (by decide) | decide | exact absurd h2 (by decide)

/-- C7, as stated, fails in two ways.  The calls need not return: in
`heap_vectors_read_only`, an instance of the scenario in which no word of
read-only space references collectible space, the second vector and its
string are in read-only space; the first call enters the collectible string
and the first vector in the table, and the second call, about to redirect
the element slot `0x1110` of the second vector to the collectible string,
ends in `lose`.  And with a table that is not empty the slots need not
reference `V1`: in `heap_three_vectors`, after the call on the slot `0x3000`,
which references a third content-equal vector, the calls on `0x3008` and
`0x3010` leave both slots with the pointer `0x814F` to that third vector. -/
theorem two_vectors_read_only_lost :
    TwoVectors example_platform 1 heap_vectors_read_only 0x3000 0x3008 0x8100 0x1100 1
    ∧ read_only_apart example_platform heap_vectors_read_only
    ∧ coalesce_obj example_platform 1 2 0x3000 heap_vectors_read_only hopscotch_create
        = .done heap_vectors_read_only ⟨[0x8200, 0x8100]⟩
    ∧ coalesce_obj example_platform 1 2 0x3008 heap_vectors_read_only ⟨[0x8200, 0x8100]⟩
        = .lost
    ∧ TwoVectors example_platform 1 heap_three_vectors 0x3008 0x3010 0x8100 0x8120 1
    ∧ (coalesce_obj example_platform 1 2 0x3000 heap_three_vectors hopscotch_create).table_keys
        = some [0x8240, 0x8140]
    ∧ (((coalesce_obj example_platform 1 2 0x3000 heap_three_vectors hopscotch_create).bind
          (coalesce_obj example_platform 1 2 0x3008)).bind
          (coalesce_obj example_platform 1 2 0x3010)).word 0x3008 = some 0x814F
    ∧ (((coalesce_obj example_platform 1 2 0x3000 heap_three_vectors hopscotch_create).bind
          (coalesce_obj example_platform 1 2 0x3008)).bind
          (coalesce_obj example_platform 1 2 0x3010)).word 0x3010 = some 0x814F
    ∧ native_pointer example_platform 0x814F = 0x8140 :=
  ⟨heap_vectors_read_only_scenario, heap_vectors_read_only_apart, rfl, rfl,
    heap_three_vectors_scenario, by decide, by decide, by decide, by decide⟩

end Coalesce
